import Mathlib

/-!
# graphor: a shallow embedding of the query / mutation layer

The Go sources (`util.go`, `errors/errors.go`, `database/database.go`,
`model.go`, `schema.go`, `query.go`, `relation.go`, `graphor.go`) are
transcribed function by function.

Conventions of the embedding

* Go strings are Lean strings; `len(s)` is the UTF-8 byte length
  `String.utf8ByteSize`, and a comparison of the first two bytes with an ASCII
  literal is a comparison of the first two characters (an ASCII byte never
  occurs inside a multi-byte character).
* A Go `map[string]T` is an association list read by first match; iteration
  runs in list order (Go leaves the order unspecified).
* A run-time panic is `none`.
* The argument map of a query builder comes from the caller and may be the nil
  map: it is an `Option`, `none` for the nil map, which reads as empty and
  panics on a write.
* Models are pointers: a `Ref` into the heap of the `World`; the nil model is
  `none`.
* The clock, the backend transaction, `encoding/json` and the verb `%q` of
  `fmt` are outside the repository and enter as explicit inputs.
* Diagnostics written with `log.Print` are not part of the state.
-/

/-! ## Go maps -/

/-- A Go `map[string]β`. -/
abbrev GoMap (β : Type) := List (String × β)

namespace GoMap

/-- The read `v, ok := m[k]`. -/
def find {β : Type} : GoMap β → String → Option β
  | [], _ => none
  | (k1, v) :: rest, k => if k1 = k then some v else find rest k

/-- The write `m[k] = v`. -/
def store {β : Type} : GoMap β → String → β → GoMap β
  | [], k, v => [(k, v)]
  | (k1, v1) :: rest, k, v => if k1 = k then (k1, v) :: rest else (k1, v1) :: store rest k v

/-- The keys of the map, in iteration order. -/
def keys {β : Type} (m : GoMap β) : List String := m.map Prod.fst

end GoMap

/-! ## Dynamic values -/

/-- A value passed as `interface{}` to the builders: the three dynamic types the
type switches of `eval` and `isEmpty` name, and `other` for a value of any other
dynamic type (an `int64`, a `float64`, a nil interface, ...), which takes the
default path of both switches; `zero` records whether it is the zero value of
its type. -/
inductive Value where
  | int (v : Int)
  | bool (b : Bool)
  | str (s : String)
  | other (zero : Bool)
deriving DecidableEq, Repr

/-- A decoded JSON tree (`interface{}` as produced by `json.Unmarshal`, and the
values stored in a `QueryData`). Numbers are kept as integers: no function of
the repository inspects a number. -/
inductive Raw where
  | null
  | bool (b : Bool)
  | num (n : Int)
  | str (s : String)
  | arr (xs : List Raw)
  | obj (kvs : List (String × Raw))
deriving Repr

/-- Go `QueryData` is `map[string]interface{}`. -/
abbrev QueryData := GoMap Raw

/-! ## util.go -/

/-- Go `fmt.Sprintf("%t", b)`. -/
def fmtBool (b : Bool) : String := if b then "true" else "false"

/-- Go `eval`: the literal text of a value. -/
def eval (x : Value) : String :=
  match x with
  | .int v => toString v
  | .bool v => fmtBool v
  | .str v => "\"" ++ v ++ "\""
  | .other _ => ""

/-- Go `isEmpty` of util.go. -/
def isEmpty (x : Value) : Bool :=
  match x with
  | .int v => decide (v = 0)
  | .bool v => decide (v = false)
  | .str v => decide (v = "")
  | .other _ => false

/-- Go `isValidUid(uids...)`. -/
def isValidUid : List String → Bool
  | [] => true
  | uid :: rest =>
    if uid.utf8ByteSize < 2 ∨ uid.data.take 2 ≠ [Char.ofNat 48, Char.ofNat 120] then false
    else isValidUid rest

/-- Go `keyExists`. -/
def keyExists {β : Type} (hash : GoMap β) (key : String) : Bool := (hash.find key).isSome

/-! ## errors/errors.go -/

namespace errors

def ConnectionRefused : Nat := 1
def DropDBFailed : Nat := 2
def MigrationFailed : Nat := 3
def InsertionFailed : Nat := 4
def DeletionFailed : Nat := 5
def MutationCommitFailed : Nat := 6
def QueryFailed : Nat := 7
def UnmarshalizeFailed : Nat := 8
def NoUidReturned : Nat := 9

/-- The struct `_Error`. -/
structure Error where
  Code : Nat
  Message : String
  Details : GoMap String
deriving DecidableEq, Repr

/-- Go `errors.New`. -/
def New (code : Nat) (message : String) : Error :=
  { Code := code, Message := message, Details := [] }

/-- Go `(*_Error).Add`. -/
def Error.Add (err : Error) (key : String) (value : String) : Error :=
  { err with Details := err.Details.store key value }

end errors

/-! ## database/database.go -/

/-- The pending batch (the struct `mutation`). -/
structure mutation where
  Insertions : List String
  Deletions : List String
deriving DecidableEq, Repr

/-- The struct `database`; the client connection is represented by the `Txn`
handed to `RunMutation`. -/
structure database where
  Mutation : mutation
deriving DecidableEq, Repr

/-- The answers of one backend transaction: the error text with which the
deletion request or the set request is refused (if it is), the identifier
mapping returned by an accepted set request, and the error text of the final
commit (if it fails). -/
structure Txn where
  DeleteJson : String → Option String
  SetJson : String → Except String (GoMap String)
  Commit : Option String

/-- Go `Insert`. -/
def database.Insert (db : database) (q : String) : database :=
  { db with Mutation := { db.Mutation with Insertions := db.Mutation.Insertions ++ [q] } }

/-- Go `Delete`. -/
def database.Delete (db : database) (q : String) : database :=
  { db with Mutation := { db.Mutation with Deletions := db.Mutation.Deletions ++ [q] } }

/-- Go `InitMutation`. -/
def database.InitMutation (db : database) : database :=
  { db with Mutation := { Insertions := [], Deletions := [] } }

/-- The set half of `RunMutation`, after the deletions went through. -/
def runSet (db : database) (txn : Txn) : GoMap String × Option errors.Error :=
  let insertion := "[" ++ ",".intercalate db.Mutation.Insertions ++ "]"
  let sent : Except String (GoMap String) :=
    if db.Mutation.Insertions.length > 0 then txn.SetJson insertion else .ok []
  match sent with
  | .error e => ([], some ((errors.New errors.DeletionFailed e).Add "insertion" insertion))
  | .ok uids =>
    match txn.Commit with
    | some e => (uids, some (errors.New errors.MutationCommitFailed e))
    | none => (uids, none)

/-- Go `RunMutation`: the returned mapping and error. -/
def database.RunMutation (db : database) (txn : Txn) : GoMap String × Option errors.Error :=
  let deletion := "[" ++ ",".intercalate db.Mutation.Deletions ++ "]"
  let refused : Option String :=
    if db.Mutation.Deletions.length > 0 then txn.DeleteJson deletion else none
  match refused with
  | some e => ([], some ((errors.New errors.InsertionFailed e).Add "deletion" deletion))
  | none => runSet db txn

/-! ## auth/auth.go -/

/-- The struct `auth`. -/
structure auth where
  LoginUid : String
deriving DecidableEq, Repr

/-- Go `GetLoginUid`. -/
def auth.GetLoginUid (a : auth) : String := a.LoginUid

/-- Go `IsLogin`. -/
def auth.IsLogin (a : auth) : Bool := decide (a.LoginUid ≠ "")

/-! ## model.go -/

/-- The struct `ModelProperty` (its `__data` cache plays no part in the
operations embedded here and is left out). -/
structure ModelProperty where
  __uid : String
  __createdAt : Int
  __updatedAt : Int
  __deletedAt : Int
deriving DecidableEq, Repr

namespace ModelProperty

def GetUid (model : ModelProperty) : String := model.__uid
def SetUid (model : ModelProperty) (uid : String) : ModelProperty := { model with __uid := uid }
def GetCreatedAt (model : ModelProperty) : Int := model.__createdAt
def setCreatedAt (model : ModelProperty) (timestamp : Int) : ModelProperty :=
  { model with __createdAt := timestamp }
def GetUpdatedAt (model : ModelProperty) : Int := model.__updatedAt
def setUpdatedAt (model : ModelProperty) (timestamp : Int) : ModelProperty :=
  { model with __updatedAt := timestamp }
def GetDeletedAt (model : ModelProperty) : Int := model.__deletedAt
def setDeletedAt (model : ModelProperty) (timestamp : Int) : ModelProperty :=
  { model with __deletedAt := timestamp }

/-- Go `isEmpty`. -/
def isEmpty (model : ModelProperty) : Bool := decide (model.__uid = "")

/-- Go `isNew`: `model.__uid[:2] == "_:"`, which panics on a string shorter than
two bytes. -/
def isNew (model : ModelProperty) : Option Bool :=
  if model.__uid.utf8ByteSize < 2 then none
  else some (decide (model.__uid.data.take 2 = [Char.ofNat 95, Char.ofNat 58]))

/-- Go `isSaved`: `!isEmpty() && !isNew()`, the right operand evaluated only when
the left one holds. -/
def isSaved (model : ModelProperty) : Option Bool :=
  if model.isEmpty then some false else (model.isNew).map (fun b => !b)

end ModelProperty

/-- Go `s[2:]` on a string whose first two bytes are ASCII. -/
def dropTwo (s : String) : String := String.mk (s.data.drop 2)

/-- A pointer to a model. -/
abbrev Ref := Nat

/-- A concrete model behind the `Model` interface: the embedded `ModelProperty`
and `all`, the map that `cast(model, &all)` reads off its exported fields (the
fields of `ModelProperty` are unexported and never part of it). -/
structure Entity where
  prop : ModelProperty
  all : GoMap Raw

/-! ## schema.go -/

/-- The struct `Facet`. -/
structure Facet where
  Edge : String
deriving DecidableEq, Repr

/-- The struct `Boolean`. -/
structure Boolean where
  Edge : String
  Filter : String
deriving DecidableEq, Repr

/-- The struct `RelationSchema`, over the type `σ` of schemas. -/
structure RelationSchema (σ : Type) where
  Edge : String
  HasMany : Bool
  Include : Bool
  IncludeOptions : String
  CountField : String
  Facets : GoMap Facet
  SchemaFunc : Unit → σ

/-- The struct `Schema`. -/
inductive Schema where
  | mk (Tag : Int) (Fields : List String) (Booleans : GoMap Boolean)
      (Relations : List (String × RelationSchema Schema))

namespace Schema

def Tag : Schema → Int
  | .mk t _ _ _ => t

def Fields : Schema → List String
  | .mk _ f _ _ => f

def Booleans : Schema → GoMap Boolean
  | .mk _ _ b _ => b

def Relations : Schema → GoMap (RelationSchema Schema)
  | .mk _ _ _ r => r

end Schema

/-- Go `EmptySchema`, the zero value `Schema{}`. -/
def EmptySchema : Schema := .mk 0 [] [] []

/-- The first loop of `Decode`: `_, ok := hash[name]; hash[name] = ok` for every
declared boolean. -/
def decodeBooleans : GoMap Boolean → QueryData → QueryData
  | [], hash => hash
  | (name, _) :: rest, hash =>
    decodeBooleans rest (hash.store name (Raw.bool (hash.find name).isSome))

mutual
/-- Go `Schema.Decode`; the type assertions and the index `children[0]` panic on a
value of another shape. -/
def Schema.Decode : Schema → Raw → Option QueryData
  | .mk _ _ booleans relations, .obj hash =>
    decodeRelations relations (decodeBooleans booleans hash)
  | _, _ => none
/-- The second loop of `Decode`, over the declared relations. -/
def decodeRelations : GoMap (RelationSchema Schema) → QueryData → Option QueryData
  | [], hash => some hash
  | (name, r) :: rest, hash =>
    if r.Include then
      match hash.find name with
      | some (.arr children) =>
        if r.HasMany then
          match children.mapM (fun child => (Schema.Decode (r.SchemaFunc ()) child).map Raw.obj) with
          | some res => decodeRelations rest (hash.store name (Raw.arr res))
          | none => none
        else
          match children with
          | [] => none
          | child :: _ =>
            match Schema.Decode (r.SchemaFunc ()) child with
            | some d => decodeRelations rest (hash.store name (Raw.obj d))
            | none => none
      | some _ => none
      | none =>
        if r.HasMany then decodeRelations rest (hash.store name (Raw.arr []))
        else decodeRelations rest hash
    else decodeRelations rest hash
end

/-! ## graphor.go -/

/-- The struct `graphor`. -/
structure graphor where
  Mutates : List Ref
  IndexCount : Nat
  Database : database
  _Auth : auth

/-- The program state: the coordinator, the heap of models, and the clock
(`clock n` is what the `n`-th call of `timestamp.Now()` returns, `ticks` counts
the calls made so far). -/
structure World where
  g : graphor
  heap : Ref → Entity
  clock : Nat → Int
  ticks : Nat

namespace World

/-- Go `timestamp.Now()`. -/
def Now (w : World) : Int × World := (w.clock w.ticks, { w with ticks := w.ticks + 1 })

/-- A setter call on the model behind `m`. -/
def setProp (w : World) (m : Ref) (f : ModelProperty → ModelProperty) : World :=
  { w with heap := Function.update w.heap m { w.heap m with prop := f (w.heap m).prop } }

/-- The model behind `m`. -/
def prop (w : World) (m : Ref) : ModelProperty := (w.heap m).prop

end World

/-- Go `Index`. -/
def graphor.Index (g : graphor) : Nat × graphor :=
  ((g.IndexCount + 1) % 1000000000, { g with IndexCount := (g.IndexCount + 1) % 1000000000 })

/-- The block of `Save` run for a model with empty identity. -/
def mintTemporary (w : World) (m : Ref) : World :=
  let (n, g1) := w.g.Index
  let w1 := ({ w with g := g1 }).setProp m (fun p => p.SetUid ("_:model" ++ toString n))
  let w2 := { w1 with g := { w1.g with Mutates := w1.g.Mutates ++ [m] } }
  let (now, w3) := w2.Now
  w3.setProp m (fun p => p.setCreatedAt now)

/-- The loop of `Save` that copies the declared fields present in `all`. -/
def copyFields (all : GoMap Raw) : List String → GoMap Raw → GoMap Raw
  | [], part => part
  | field :: rest, part =>
    match all.find field with
    | some v => copyFields all rest (part.store field v)
    | none => copyFields all rest part

/-- The document `Save` builds for a model (the map handed to `toJSON`). -/
def saveDocument (e : Entity) (schema : Schema) : GoMap Raw :=
  let p0 := copyFields e.all schema.Fields []
  let p1 := p0.store "uid" (Raw.str e.prop.GetUid)
  let p2 := p1.store "tag" (Raw.num schema.Tag)
  let p3 := p2.store "updated_at" (Raw.num e.prop.GetUpdatedAt)
  let p4 := if e.prop.GetCreatedAt > 0 then p3.store "created_at" (Raw.num e.prop.GetCreatedAt) else p3
  if e.prop.GetDeletedAt > 0 then p4.store "deleted_at" (Raw.num e.prop.GetDeletedAt) else p4

/-- Go `Save`; `toJSON` is `json.Marshal` on the document. -/
def graphor.Save (toJSON : GoMap Raw → String) (w : World) (model : Option Ref)
    (schema : Schema) : World :=
  match model with
  | none => w
  | some m =>
    let w1 := if (w.prop m).isEmpty then mintTemporary w m else w
    let (now, w2) := w1.Now
    let w3 := w2.setProp m (fun p => p.setUpdatedAt now)
    let q := toJSON (saveDocument (w3.heap m) schema)
    { w3 with g := { w3.g with Database := w3.g.Database.Insert q } }

/-- The loop of `Mutate` after a successful commit: the heap after it and the
error it returns, or `none` when `isNew` panics. -/
def resolveUids (res : GoMap String) : List Ref → World → Option (World × Option errors.Error)
  | [], w => some (w, none)
  | model :: rest, w =>
    match (w.prop model).isNew with
    | none => none
    | some true =>
      match res.find (dropTwo (w.prop model).GetUid) with
      | none => some (w, some (errors.New errors.NoUidReturned "Mutate failed: No uid returned."))
      | some uid => resolveUids res rest (w.setProp model (fun p => p.SetUid uid))
    | some false => resolveUids res rest w

/-- The first two statements of `Mutate`: `g.Mutates = []Model{}` and
`g.Database.InitMutation()`. -/
def mutateStart (w : World) : World :=
  { w with g := { w.g with Mutates := [], Database := w.g.Database.InitMutation } }

/-- A callback that makes the listed `Save` calls in order and returns nil. -/
def saveAll (toJSON : GoMap Raw → String) (saves : List (Option Ref × Schema)) (w : World) :
    World × Option errors.Error :=
  (saves.foldl (fun w1 p => graphor.Save toJSON w1 p.1 p.2) w, none)

/-- Go `Mutate`; `execute` is the callback as a state transformer with its returned
error, `txn` the backend transaction of this commit. -/
def graphor.Mutate (w : World) (execute : World → World × Option errors.Error) (txn : Txn) :
    Option (World × Option errors.Error) :=
  match execute (mutateStart w) with
  | (w1, some err) => some (w1, some err)
  | (w1, none) =>
    match w1.g.Database.RunMutation txn with
    | (_, some err) => some (w1, some err)
    | (res, none) => resolveUids res w1.g.Mutates w1

/-! ## strings.Replace -/

/-- The scan of `strings.Replace(s, old, new, -1)` for a non-empty `old`, on
characters: `skip` counts the characters of a match still to be passed over. -/
def replaceChars (old new : List Char) : Nat → List Char → List Char
  | _, [] => []
  | skip + 1, _ :: cs => replaceChars old new skip cs
  | 0, c :: cs =>
    if old.isPrefixOf (c :: cs) then new ++ replaceChars old new (old.length - 1) cs
    else c :: replaceChars old new 0 cs

/-- Go `strings.Replace(s, old, new, -1)`; an empty `old` matches before every
character and at the end. -/
def Replace (s old new : String) : String :=
  if old = "" then String.mk (new.data ++ (s.data.map (fun c => c :: new.data)).flatten)
  else String.mk (replaceChars old.data new.data 0 s.data)

/-! ## schema.go: Build -/

/-- The loop of `Build` over the boolean edges. -/
def buildBooleans (a : auth) : GoMap Boolean → List String
  | [] => []
  | (name, b) :: rest =>
    if a.IsLogin then
      let filter := Replace b.Filter "#\x7blogin_uid\x7d" a.GetLoginUid
      (if filter ≠ "" then name ++ ": " ++ b.Edge ++ " @filter(" ++ filter ++ ") \x7b uid \x7d"
        else name ++ ": " ++ b.Edge ++ " \x7b uid \x7d") :: buildBooleans a rest
    else buildBooleans a rest

mutual
/-- Go `Schema.Build`, under the session `a` that `Auth()` returns. -/
def Schema.Build (a : auth) : Schema → String
  | .mk _ fields booleans relations =>
    "\n".intercalate
      (fields ++ ["uid", "created_at", "updated_at", "deleted_at"]
        ++ buildBooleans a booleans ++ buildRelations a relations)
/-- The loop of `Build` over the relations. -/
def buildRelations (a : auth) : List (String × RelationSchema Schema) → List String
  | [] => []
  | (name, r) :: rest =>
    (if r.CountField ≠ "" then
        [r.CountField ++ ": count(" ++ r.Edge ++ ") @filter(not has(deleted_at))"]
      else [])
    ++ (if r.Include then
        [name ++ ": " ++ r.Edge ++ " " ++ r.IncludeOptions ++ " \x7b\n"
          ++ Schema.Build a (r.SchemaFunc ()) ++ "\n\x7d"]
      else [])
    ++ buildRelations a rest
end

/-! ## query.go -/

/-- The struct `query`; the argument map `Args` is `none` when it is the nil map,
which reads as empty and panics on a write. -/
structure query where
  Base : String
  Args : Option (GoMap Value)
  Filters : List String
  SortKey : String
  SortOrder : String
  TakeCount : Int
  OnlyNotDeleted : Bool
  IsDebug : Bool
  Schema : Schema

/-- Go `build`; `args` is the caller's map, stored as it is. -/
def build (qStr : String) (schema : Schema) (args : Option (GoMap Value)) : query :=
  { Base := qStr, Args := args, Filters := [], SortKey := "created_at", SortOrder := "desc",
    TakeCount := 0, OnlyNotDeleted := false, IsDebug := false, Schema := schema }

/-- The template of `BuildQuery`. -/
def qAll : String :=
  "\n\t\x7b\n\t\tq(func: eq(tag, #\x7btag\x7d), #\x7bsorting\x7d#\x7btake\x7d) #\x7bfilter\x7d \x7b #\x7bbody\x7d \x7d\n\t\x7d"

/-- Go `BuildRawQuery`. -/
def BuildRawQuery (qStr : String) (schema : Schema) (args : Option (GoMap Value)) : query :=
  build qStr schema args

/-- Go `BuildQuery`. -/
def BuildQuery (schema : Schema) : query := build qAll schema (some [])

/-- The builder `&query{Filters: []string{}}` that `Or` hands to a branch. -/
def branchQuery : query :=
  { Base := "", Args := none, Filters := [], SortKey := "", SortOrder := "", TakeCount := 0,
    OnlyNotDeleted := false, IsDebug := false, Schema := EmptySchema }

namespace query

def SetSortOption (q : query) (key : String) (order : String) : query :=
  { q with SortKey := key, SortOrder := order }

def IsOrderAsc (q : query) : Bool := decide (q.SortOrder = "asc")

def GetSortKey (q : query) : String := q.SortKey

def Take (q : query) (count : Int) : query := { q with TakeCount := count }

/-- Go `Where`: appends `fmt.Sprintf("%s(%s, %s)", op, field, eval(value))`. -/
def Where (q : query) (field : String) (op : String) (value : Value) : query :=
  { q with Filters := q.Filters ++ [op ++ "(" ++ field ++ ", " ++ eval value ++ ")"] }

def Between (q : query) (field : String) (left : Value) (right : Value) : query :=
  (q.Where field "ge" left).Where field "lt" right

def Has (q : query) (edge : String) : query :=
  { q with Filters := q.Filters ++ ["has(" ++ edge ++ ")"] }

def HasNot (q : query) (edge : String) : query :=
  { q with Filters := q.Filters ++ ["not has(" ++ edge ++ ")"] }

/-- Go `Or`: a branch is the state of the builder it returns, as a function of the
builder it is handed. -/
def Or (q : query) (filters : List (query → query)) : query :=
  let conditions := filters.map
    (fun filter => "(" ++ " and ".intercalate (filter branchQuery).Filters ++ ")")
  { q with Filters := q.Filters ++ ["(" ++ " or ".intercalate conditions ++ ")"] }

def Regex (q : query) (field regex : String) : query :=
  { q with Filters := q.Filters ++ ["regexp(" ++ field ++ ", " ++ regex ++ ")"] }

def Scope (q : query) (filter : query → query) : query := filter q

/-- Go `Identify`. -/
def Identify (q : query) (uids : List String) : query :=
  let uids1 := if uids.length = 0 ∨ isValidUid uids = false then ["0x0"] else uids
  { q with Filters := q.Filters ++ ["uid(<" ++ ">, <".intercalate uids1 ++ ">)"] }

def Debug (q : query) : query := { q with IsDebug := true }

/-- The text `generate` substitutes for an argument. -/
def argText (value : Value) : String :=
  match value with
  | .int v => toString v
  | .bool v => fmtBool v
  | .str v => v
  | .other _ => ""

/-- The read `q.Args[key]`. -/
def arg (q : query) (key : String) : Option Value :=
  match q.Args with
  | none => none
  | some args => args.find key

/-- One round of the loop of `generate`: every `#{name}` in the text replaced by
the text of the value. -/
def substitute (text : String) (arg : String × Value) : String :=
  Replace text ("#\x7b" ++ arg.1 ++ "\x7d") (argText arg.2)

/-- Go `generate`; ranging over the nil map makes no round. -/
def generate (q : query) : String :=
  match q.Args with
  | none => q.Base
  | some args => args.foldl substitute q.Base

/-- The writes of `Execute` into the argument map `args`, which aliases `q.Args`
and is not nil. -/
def executeWrites (q : query) (a : auth) (args : GoMap Value) : GoMap Value :=
  let filters := q.Filters ++ ["not has(deleted_at)"]
  let filter := "@filter(" ++ " and ".intercalate filters ++ ")"
  let args0 := args.store "tag" (Value.int q.Schema.Tag)
  let args1 := if keyExists args0 "sorting" = false then
      args0.store "sorting" (Value.str ("order" ++ q.SortOrder ++ ": " ++ q.SortKey))
    else args0
  let args2 := if keyExists args1 "take" = false then
      (if q.TakeCount > 0 then args1.store "take" (Value.str (", first: " ++ toString q.TakeCount))
        else args1.store "take" (Value.str ""))
    else args1
  let args3 := args2.store "filter" (Value.str filter)
  args3.store "body" (Value.str (q.Schema.Build a))

/-- The argument map `Execute` leaves in `q.Args`; `none` when `q.Args` is the nil
map and the first write `args["tag"] = ...` panics. -/
def executeArgs (q : query) (a : auth) : Option (GoMap Value) :=
  match q.Args with
  | none => none
  | some args => some (executeWrites q a args)

/-- Go `Execute` up to the call of the backend: the builder afterwards and the
query text handed to `db().Query`, or `none` on the panic of a write into the nil
map. -/
def Execute (q : query) (a : auth) : Option (query × String) :=
  match executeArgs q a with
  | none => none
  | some args => some ({ q with Args := some args }, ({ q with Args := some args }).generate)

/-- Go `Paging`. -/
def Paging (q : query) (since : Value) (untl : Value) (count : Int) : query :=
  let index := q.SortKey
  let q1 := if isEmpty since = false then
      (if q.IsOrderAsc then q.Where index "ge" since else q.Where index "le" since)
    else q
  let q2 := if isEmpty untl = false then
      (if q1.IsOrderAsc then q1.Where index "lt" untl else q1.Where index "gt" untl)
    else q1
  q2.Take count

end query

/-! ## relation.go: the builder half -/

/-- The struct `relation`; `Parent` is a model pointer or nil. -/
structure relation where
  query : query
  Parent : Option Ref
  RelationSchema : RelationSchema Schema
  FacetsFilter : List String
  SortedByFacet : Bool

namespace relation

def SetSortOption (r : relation) (key : String) (order : String) : relation :=
  { r with query := { r.query with SortKey := key, SortOrder := order },
           SortedByFacet := (r.RelationSchema.Facets.find key).isSome }

def IsOrderAsc (r : relation) : Bool := r.query.IsOrderAsc

def GetSortKey (r : relation) : String := r.query.SortKey

def Take (r : relation) (count : Int) : relation := { r with query := r.query.Take count }

/-- Go `Where` of the relation builder. -/
def Where (r : relation) (field : String) (op : String) (value : Value) : relation :=
  match r.RelationSchema.Facets.find field with
  | some facet =>
    { r with FacetsFilter := r.FacetsFilter ++ [op ++ "(" ++ facet.Edge ++ ", " ++ eval value ++ ")"] }
  | none => { r with query := r.query.Where field op value }

def Between (r : relation) (field : String) (left : Value) (right : Value) : relation :=
  (r.Where field "ge" left).Where field "lt" right

/-- Go `Paging` of the relation builder. -/
def Paging (r : relation) (since : Value) (untl : Value) (count : Int) : relation :=
  let index := r.query.SortKey
  let r1 := if isEmpty since = false then
      (if r.IsOrderAsc then r.Where index "ge" since else r.Where index "le" since)
    else r
  let r2 := if isEmpty untl = false then
      (if r1.IsOrderAsc then r1.Where index "lt" untl else r1.Where index "gt" untl)
    else r1
  r2.Take count

end relation

/-! ## graphor.go: the remaining operations -/

/-- Go `Delete` (soft delete); `toJSON` is `json.Marshal` on the document. -/
def graphor.Delete (toJSON : GoMap Raw → String) (w : World) (model : Option Ref) : World :=
  match model with
  | none => w
  | some m =>
    let (now, w1) := w.Now
    let w2 := w1.setProp m (fun p => p.setDeletedAt now)
    let part : GoMap Raw :=
      [("uid", Raw.str (w2.prop m).GetUid), ("deleted_at", Raw.num (w2.prop m).GetDeletedAt)]
    { w2 with g := { w2.g with Database := w2.g.Database.Insert (toJSON part) } }

/-- Go `HardDelete`; `quote` is the verb `%q` of `fmt`. The result is `none` when
`isSaved` panics. -/
def graphor.HardDelete (quote : String → String) (w : World) (model : Option Ref) :
    Option World :=
  match model with
  | none => some w
  | some m =>
    match (w.prop m).isSaved with
    | none => none
    | some false => some w
    | some true =>
      let db := w.g.Database.Delete ("\x7b\"uid\": " ++ quote (w.prop m).GetUid ++ "\x7d")
      some { w with g := { w.g with Database := db } }

/-- Go `IsReversed`: `edge[0] == '~'`, which panics on the empty string. -/
def IsReversed (edge : String) : Option Bool :=
  match edge.data with
  | [] => none
  | c :: _ => some (decide (c = Char.ofNat 126))

/-- Go `ReverseEdge`. -/
def ReverseEdge (edge : String) : Option String :=
  match edge.data with
  | [] => none
  | c :: cs => if c = Char.ofNat 126 then some (String.mk cs) else some ("~" ++ edge)

/-! ## relation.go: execution and mutations -/

/-- The template of `BuildRelation`. -/
def qRelation : String :=
  "\n\t\x7b\n\t\tq(func: uid(<#\x7buid\x7d>)) \x7b\n\t\t\t#\x7bedge\x7d #\x7bsorting\x7d "
  ++ "#\x7bfacets\x7d #\x7bfacets_filter\x7d #\x7bfilter\x7d #\x7btake\x7d "
  ++ "\x7b #\x7bbody\x7d \x7d\t\n\t\t\x7d\n\t\x7d"

/-- Go `BuildRelation`; `parentUid` is `parent.GetUid()` at the time of the call. -/
def BuildRelation (parent : Option Ref) (parentUid : String) (rs : RelationSchema Schema) :
    relation :=
  { query := build qRelation (rs.SchemaFunc ())
      (some [("uid", Value.str parentUid), ("edge", Value.str rs.Edge)]),
    Parent := parent, RelationSchema := rs, FacetsFilter := [], SortedByFacet := false }

/-- The read `r.RelationSchema.Facets[name].Edge`, the empty string for an
undeclared facet. -/
def relation.facetEdge (r : relation) (name : String) : String :=
  match r.RelationSchema.Facets.find name with
  | some f => f.Edge
  | none => ""

/-- The facet projections `Execute` of the relation builder collects. -/
def relation.facetClauses (r : relation) : List String :=
  (if r.SortedByFacet then ["order" ++ r.query.SortOrder ++ ": " ++ r.facetEdge r.query.SortKey]
    else [])
  ++ r.RelationSchema.Facets.map (fun nf => nf.1 ++ ": " ++ nf.2.Edge)

/-- The writes of `Execute` of the relation builder into the argument map `args`,
which is `r.Args` and not nil. -/
def relation.executeWrites (r : relation) (args : GoMap Value) : GoMap Value :=
  let args0 := if r.SortedByFacet then args.store "sorting" (Value.str "")
    else args.store "sorting"
      (Value.str ("(order" ++ r.query.SortOrder ++ ": " ++ r.query.SortKey ++ ")"))
  let args1 := if r.facetClauses.length > 0 then
      args0.store "facets" (Value.str ("@facets(" ++ ", ".intercalate r.facetClauses ++ ")"))
    else args0.store "facets" (Value.str "")
  let args2 := if r.FacetsFilter.length > 0 then
      args1.store "facets_filter"
        (Value.str ("@facets(" ++ " and ".intercalate r.FacetsFilter ++ ")"))
    else args1.store "facets_filter" (Value.str "")
  if r.query.TakeCount > 0 then
    args2.store "take" (Value.str ("(first: " ++ toString r.query.TakeCount ++ ")"))
  else args2

/-- The argument map `Execute` of the relation builder hands to `query.Execute`;
`none` when it is the nil map and the first write panics. -/
def relation.executeArgs (r : relation) : Option (GoMap Value) :=
  match r.query.Args with
  | none => none
  | some args => some (r.executeWrites args)

/-- Go `Execute` of the relation builder, up to the call of the backend. -/
def relation.Execute (r : relation) (a : auth) : Option (relation × String) :=
  match r.executeArgs with
  | none => none
  | some args =>
    match ({ r.query with Args := some args }).Execute a with
    | none => none
    | some res => some ({ r with query := res.1 }, res.2)

/-- The expression `res[0].(map[string]interface{})[edge].([]interface{})`; both
type assertions panic on a value of another shape, an absent key included. -/
def edgeChildren (edge : String) (first : Raw) : Option (List Raw) :=
  match first with
  | .obj wrapper =>
    match GoMap.find wrapper edge with
    | some (.arr children) => some children
    | _ => none
  | _ => none

/-- Go `First` of the relation builder; `Query` is `db().Query`. The result is
`none` on a panic, otherwise the returned error or record (`none` for nil). -/
def relation.First (r : relation) (a : auth)
    (Query : String → Except errors.Error (List Raw)) :
    Option (Except errors.Error (Option QueryData)) :=
  match (r.Take 1).Execute a with
  | none => none
  | some run =>
    match Query run.2 with
    | .error err => some (.error err)
    | .ok [] => some (.ok none)
    | .ok (first :: _) =>
      match edgeChildren run.1.RelationSchema.Edge first with
      | none => none
      | some [] => some (.ok none)
      | some (child :: _) =>
        match run.1.query.Schema.Decode child with
        | none => none
        | some d => some (.ok (some d))

/-- Go `All` of the relation builder. -/
def relation.All (r : relation) (a : auth)
    (Query : String → Except errors.Error (List Raw)) :
    Option (Except errors.Error (List QueryData)) :=
  match r.Execute a with
  | none => none
  | some run =>
    match Query run.2 with
    | .error err => some (.error err)
    | .ok [] => some (.ok [])
    | .ok (first :: _) =>
      match edgeChildren run.1.RelationSchema.Edge first with
      | none => none
      | some children =>
        match children.mapM (fun child => run.1.query.Schema.Decode child) with
        | none => none
        | some dataList => some (.ok dataList)

/-- The facet lines of the fragment `add` builds. -/
def relation.facetFields (r : relation) (facets : List (GoMap Value)) : List String :=
  match facets with
  | [] => []
  | first :: _ =>
    first.map (fun nv =>
      "\"" ++ r.RelationSchema.Edge ++ "|" ++ r.facetEdge nv.1 ++ "\": " ++ eval nv.2)

/-- The insertion fragment of `add`. -/
def relation.addFragment (quote : String → String) (r : relation) (parentUid childUid : String)
    (facets : List (GoMap Value)) : String :=
  "\x7b\n\t\t\"uid\": " ++ quote parentUid ++ ",\n\t\t" ++ quote r.RelationSchema.Edge
  ++ ": \x7b\n\t\t\t"
  ++ ",\n".intercalate (["\"uid\": " ++ quote childUid] ++ r.facetFields facets)
  ++ "\n\t\t\x7d\n\t\x7d"

/-- Go `add` of the relation builder; diagnostics written with `log.Print` are not
part of the state. -/
def relation.add (quote : String → String) (w : World) (r : relation) (child : Option Ref)
    (facets : List (GoMap Value)) : Option World :=
  match r.Parent with
  | none => some w
  | some parent =>
    if (w.prop parent).isEmpty then some w
    else
      match child with
      | none => some w
      | some c =>
        if (w.prop c).isEmpty then some w
        else
          match IsReversed r.RelationSchema.Edge with
          | none => none
          | some true => some w
          | some false =>
            let db := w.g.Database.Insert
              (r.addFragment quote (w.prop parent).GetUid (w.prop c).GetUid facets)
            some { w with g := { w.g with Database := db } }

/-- Go `Add`. -/
def relation.Add (quote : String → String) (w : World) (r : relation) (child : Option Ref)
    (facets : List (GoMap Value)) : Option World :=
  if r.RelationSchema.HasMany = false then some w
  else r.add quote w child facets

/-- The deletion fragment of `Remove`. -/
def relation.removeFragment (quote : String → String) (r : relation)
    (parentUid childUid : String) : String :=
  "\x7b\n\t\t\"uid\": " ++ quote parentUid ++ ",\n\t\t" ++ quote r.RelationSchema.Edge
  ++ ": \x7b\"uid\": " ++ quote childUid ++ "\x7d\n\t\x7d"

/-- Go `Remove`. -/
def relation.Remove (quote : String → String) (w : World) (r : relation) (child : Option Ref) :
    Option World :=
  match r.Parent with
  | none => some w
  | some parent =>
    match (w.prop parent).isSaved with
    | none => none
    | some false => some w
    | some true =>
      match child with
      | none => some w
      | some c =>
        match (w.prop c).isSaved with
        | none => none
        | some false => some w
        | some true =>
          match IsReversed r.RelationSchema.Edge with
          | none => none
          | some true => some w
          | some false =>
            if r.RelationSchema.HasMany = false then some w
            else
              let db := w.g.Database.Delete
                (r.removeFragment quote (w.prop parent).GetUid (w.prop c).GetUid)
              some { w with g := { w.g with Database := db } }

/-- The deletion fragment of `Clear`. -/
def relation.clearFragment (quote : String → String) (r : relation) (parentUid : String) :
    String :=
  "\n\t\t\x7b\n\t\t\t\"uid\": " ++ quote parentUid ++ ",\n\t\t\t" ++ quote r.RelationSchema.Edge
  ++ ": null\n\t\t\x7d\n\t"

/-- Go `Clear`: the test `IsReversed` only guards a diagnostic, and the fragment is
sent whatever it returns. -/
def relation.Clear (quote : String → String) (w : World) (r : relation) : Option World :=
  match r.Parent with
  | none => some w
  | some parent =>
    match (w.prop parent).isSaved with
    | none => none
    | some false => some w
    | some true =>
      match IsReversed r.RelationSchema.Edge with
      | none => none
      | some _ =>
        let db := w.g.Database.Delete (r.clearFragment quote (w.prop parent).GetUid)
        some { w with g := { w.g with Database := db } }

/-- Go `Set`: the test `HasMany` only guards a diagnostic; `Clear` and `add` run
whatever it returns. -/
def relation.Set (quote : String → String) (w : World) (r : relation) (child : Option Ref)
    (facets : List (GoMap Value)) : Option World :=
  match r.Clear quote w with
  | none => none
  | some w1 => r.add quote w1 child facets

/-! ## graphor.go: BaseMigrations -/

/-- The list `edges` that `BaseMigrations` collects for one schema: the edges of
its booleans, then those of its relations. -/
def schemaEdges (schema : Schema) : List String :=
  schema.Booleans.map (fun nb => nb.2.Edge) ++ schema.Relations.map (fun nr => nr.2.Edge)

/-- One round of the inner loop of `BaseMigrations` on the map `hasReverse`;
`none` when `IsReversed` panics. -/
def noteEdge (hasReverse : GoMap Bool) (edge : String) : Option (GoMap Bool) :=
  match IsReversed edge with
  | none => none
  | some true =>
    match ReverseEdge edge with
    | none => none
    | some forward => some (hasReverse.store forward true)
  | some false =>
    if (hasReverse.find edge).isSome then some hasReverse
    else some (hasReverse.store edge false)

/-- The inner loop of `BaseMigrations`. -/
def noteEdges : List String → GoMap Bool → Option (GoMap Bool)
  | [], hasReverse => some hasReverse
  | edge :: rest, hasReverse =>
    match noteEdge hasReverse edge with
    | none => none
    | some h => noteEdges rest h

/-- The outer loop of `BaseMigrations`. -/
def noteSchemas : List Schema → GoMap Bool → Option (GoMap Bool)
  | [], hasReverse => some hasReverse
  | schema :: rest, hasReverse =>
    match noteEdges (schemaEdges schema) hasReverse with
    | none => none
    | some h => noteSchemas rest h

/-- The declaration line of one entry of `hasReverse`:
`fmt.Sprintf("%s: uid %s .", name, reverse)`. -/
def edgeLine (entry : String × Bool) : String :=
  entry.1 ++ ": uid " ++ (if entry.2 then "@reverse" else "") ++ " ."

/-- The fixed declarations appended by `BaseMigrations`. -/
def modelDeclarations : String :=
  "\n\t\ttag: int @index(int) .\n\t\tcreated_at: int @index(int) .\n\t\t"
  ++ "updated_at: int @index(int) .\n\t\tdeleted_at: int .\n\t"

/-- Go `BaseMigrations`; `none` when an edge name is empty and `IsReversed`
panics. -/
def BaseMigrations (schemaList : List Schema) : Option String :=
  match noteSchemas schemaList [] with
  | none => none
  | some hasReverse => some ("\n".intercalate (hasReverse.map edgeLine) ++ modelDeclarations)

/-! ## query.go and relation.go: Count and the delegating methods -/

/-- A function `func(q Query) Query` run on a `*query`: the state in which it
leaves the builder, as a function of the state it finds. -/
abbrev QueryFilter := query → query

/-- The type of `CountSchema`: from a tag to a schema. -/
abbrev TagSchema := Int → Schema

/-- Go `Count` up to the call of the backend: the builder afterwards and the query
text handed to `db().Query`. `CountSchema` is declared outside the files at hand
and enters as a parameter. -/
def query.Count (CountSchema : TagSchema) (q : query) (a : auth) : Option (query × String) :=
  ({ q with Schema := CountSchema q.Schema.Tag }).Execute a

/-- Go `Count` of the relation builder: `r.query.Count()`. -/
def relation.Count (CountSchema : TagSchema) (r : relation) (a : auth) :
    Option (relation × String) :=
  match r.query.Count CountSchema a with
  | none => none
  | some res => some ({ r with query := res.1 }, res.2)

def relation.Has (r : relation) (edge : String) : relation :=
  { r with query := r.query.Has edge }

def relation.HasNot (r : relation) (edge : String) : relation :=
  { r with query := r.query.HasNot edge }

def relation.Or (r : relation) (filters : List QueryFilter) : relation :=
  { r with query := r.query.Or filters }

def relation.Regex (r : relation) (field regex : String) : relation :=
  { r with query := r.query.Regex field regex }

/-- Go `Scope` of the relation builder: `r.query.Scope(filter)`, after which `r`
is returned. The function is handed the embedded `query`; `filter` is the state in
which it leaves the builder it is handed. -/
def relation.Scope (r : relation) (filter : QueryFilter) : relation :=
  { r with query := r.query.Scope filter }

def relation.Identify (r : relation) (uids : List String) : relation :=
  { r with query := r.query.Identify uids }

def relation.Debug (r : relation) : relation :=
  { r with query := r.query.Debug }

/-! ## Filter functions over the Query interface -/

/-- One call of a method of the interface `Query` on the builder at hand. -/
inductive QueryCall where
  | SetSortOption (key order : String)
  | Take (count : Int)
  | Where (field op : String) (value : Value)
  | Between (field : String) (left right : Value)
  | Has (edge : String)
  | HasNot (edge : String)
  | Regex (field regex : String)
  | Identify (uids : List String)
  | Paging (since untl : Value) (count : Int)

/-- The call dispatched to a `*query`. -/
def QueryCall.onQuery (c : QueryCall) (q : query) : query :=
  match c with
  | .SetSortOption key order => q.SetSortOption key order
  | .Take count => q.Take count
  | .Where field op value => q.Where field op value
  | .Between field left right => q.Between field left right
  | .Has edge => q.Has edge
  | .HasNot edge => q.HasNot edge
  | .Regex field regex => q.Regex field regex
  | .Identify uids => q.Identify uids
  | .Paging since untl count => q.Paging since untl count

/-- The call dispatched to a `*relation`. -/
def QueryCall.onRelation (c : QueryCall) (r : relation) : relation :=
  match c with
  | .SetSortOption key order => r.SetSortOption key order
  | .Take count => r.Take count
  | .Where field op value => r.Where field op value
  | .Between field left right => r.Between field left right
  | .Has edge => r.Has edge
  | .HasNot edge => r.HasNot edge
  | .Regex field regex => r.Regex field regex
  | .Identify uids => r.Identify uids
  | .Paging since untl count => r.Paging since untl count

/-- A filter function `func(q Query) Query` that chains the listed calls on the
builder it is handed, run on a `*query`. -/
def chainOnQuery (calls : List QueryCall) (q : query) : query :=
  calls.foldl (fun b c => c.onQuery b) q

/-- The same filter function run on a `*relation`. -/
def chainOnRelation (calls : List QueryCall) (r : relation) : relation :=
  calls.foldl (fun b c => c.onRelation b) r

/-! ## Definitions used in the statements, and sample inputs -/

/-- The identity `Save` mints in the world `w`. -/
def mintedUid (w : World) : String := "_:model" ++ toString ((w.g.IndexCount + 1) % 1000000000)

/-- The keys `Save` always writes itself. -/
def systemKeys : List String := ["uid", "tag", "updated_at", "created_at", "deleted_at"]

/-- A stand-in for `json.Marshal` on sample inputs: the keys of the document. -/
def sampleJSON : GoMap Raw → String := fun doc => ",".intercalate doc.keys

/-- A world with an empty batch, every model unsaved with the single exported
field `name`, and a clock that starts at 1000. -/
def sampleWorld : World :=
  { g := { Mutates := [], IndexCount := 0,
           Database := { Mutation := { Insertions := [], Deletions := [] } },
           _Auth := { LoginUid := "" } },
    heap := fun _ =>
      { prop := { __uid := "", __createdAt := 0, __updatedAt := 0, __deletedAt := 0 },
        all := [("name", Raw.str "A"), ("secret", Raw.num 1)] },
    clock := fun n => 1000 + n,
    ticks := 0 }

/-- A schema declaring the one field `name`. -/
def sampleSchema : Schema := Schema.mk 7 ["name"] [] []

/-- The registered entities are pairwise distinct and carry minted identities. -/
def Registered (w : World) : Prop :=
  w.g.Mutates.Nodup ∧ ∀ m ∈ w.g.Mutates, ∃ t : String, (w.prop m).__uid = "_:model" ++ t

/-- A backend that accepts everything and returns the one mapping `model1 ↦ 0xabc`. -/
def sampleTxn : Txn :=
  { DeleteJson := fun _ => none,
    SetJson := fun _ => Except.ok [("model1", "0xabc")],
    Commit := none }

/-- Follows the claim: a hexadecimal digit. -/
def isHexDigit (c : Char) : Bool :=
  (decide (48 ≤ c.toNat) && decide (c.toNat ≤ 57))
  || (decide (97 ≤ c.toNat) && decide (c.toNat ≤ 102))
  || (decide (65 ≤ c.toNat) && decide (c.toNat ≤ 70))

/-- Follows the claim: the permanent-identifier form, `0x` followed by hexadecimal
digits. -/
def isPermanentForm (uid : String) : Bool :=
  match uid.data with
  | a :: b :: d :: ds => decide (a = Char.ofNat 48) && decide (b = Char.ofNat 120)
      && (d :: ds).all isHexDigit
  | _ => false

/-- What `isValidUid` asks of an identifier: that it begins with `0x`. -/
def BeginsWith0x (uid : String) : Prop := ∃ t : String, uid = "0x" ++ t

/-- The disjunction `Or` builds from the filter lists of its branches. -/
def disjunction (branches : List (List String)) : String :=
  "(" ++ " or ".intercalate (branches.map (fun b => "(" ++ " and ".intercalate b ++ ")")) ++ ")"

/-- Follows the claim: the value is the zero value of its type. -/
def isZeroValue (x : Value) : Bool :=
  match x with
  | .int v => decide (v = 0)
  | .bool v => !v
  | .str v => decide (v = "")
  | .other zero => zero

/-- The value has one of the dynamic types `int`, `bool`, `string`. -/
def isScalar (x : Value) : Bool :=
  match x with
  | .int _ => true
  | .bool _ => true
  | .str _ => true
  | .other _ => false

/-- Follows the claim: the filters for the two bounds on the field `fld`, in
order, none for a zero-valued bound. -/
def boundFilters (asc : Bool) (fld : String) (since untl : Value) : List String :=
  (if isZeroValue since then []
    else [(if asc then "ge" else "le") ++ "(" ++ fld ++ ", " ++ eval since ++ ")"])
  ++ (if isZeroValue untl then []
    else [(if asc then "lt" else "gt") ++ "(" ++ fld ++ ", " ++ eval untl ++ ")"])

/-- Follows the claim: every embedded double quote and backslash escaped. -/
def escapeChars : List Char → List Char
  | [] => []
  | c :: cs =>
    if c = Char.ofNat 34 ∨ c = Char.ofNat 92 then Char.ofNat 92 :: c :: escapeChars cs
    else c :: escapeChars cs

/-- Follows the claim: the quoted and escaped string literal. -/
def quotedEscaped (s : String) : String := "\"" ++ String.mk (escapeChars s.data) ++ "\""

/-- A schema with the boolean edge `pal`, the many-cardinality relation `friends`
and the one-cardinality relation `pal`, neither marked for inclusion. -/
def excludedSchema : Schema :=
  Schema.mk 7 ["name"] [("pal", { Edge := "pal", Filter := "" })]
    [("friends", { Edge := "friend", HasMany := true, Include := false, IncludeOptions := "",
                   CountField := "", Facets := [], SchemaFunc := fun _ => EmptySchema }),
     ("pal", { Edge := "pal", HasMany := false, Include := false, IncludeOptions := "",
               CountField := "", Facets := [], SchemaFunc := fun _ => EmptySchema })]

/-- A schema whose many-cardinality relation `friends` is marked for inclusion. -/
def includedSchema : Schema :=
  Schema.mk 7 ["name"] []
    [("friends", { Edge := "friend", HasMany := true, Include := true, IncludeOptions := "",
                   CountField := "", Facets := [], SchemaFunc := fun _ => EmptySchema })]

/-- A stand-in for the verb `%q` on sample inputs: the string between double
quotes (what `%q` gives for a string of plain letters and digits). -/
def sampleQuote : String → String := fun s => "\"" ++ s ++ "\""

/-- A world with an empty batch in which model 0 has the identity `0x1`, model 1
`0x2`, model 2 the temporary identity `_:model1`, and every other model the
one-byte identity `x`. -/
def persistedWorld : World :=
  { g := { Mutates := [], IndexCount := 0,
           Database := { Mutation := { Insertions := [], Deletions := [] } },
           _Auth := { LoginUid := "" } },
    heap := fun m =>
      { prop := { __uid := if m = 0 then "0x1" else if m = 1 then "0x2"
                    else if m = 2 then "_:model1" else "x",
                  __createdAt := 5, __updatedAt := 5, __deletedAt := 0 },
        all := [("name", Raw.str "A")] },
    clock := fun n => 1000 + n,
    ticks := 0 }

/-- The many-cardinality relation over the forward edge `friend`, with the facet
`since` backed by the edge `since_at`. -/
def friendRelation : RelationSchema Schema :=
  { Edge := "friend", HasMany := true, Include := true, IncludeOptions := "", CountField := "",
    Facets := [("since", { Edge := "since_at" })], SchemaFunc := fun _ => sampleSchema }

/-- The same relation over the reverse edge `~friend`. -/
def reverseRelation : RelationSchema Schema :=
  { Edge := "~friend", HasMany := true, Include := true, IncludeOptions := "", CountField := "",
    Facets := [], SchemaFunc := fun _ => sampleSchema }

/-- The lines `Build` emits for the boolean edges under a logged-in session, as
the claim describes them. -/
def booleanLines (loginUid : String) (booleans : GoMap Boolean) : List String :=
  booleans.map (fun nb =>
    if nb.2.Filter = "" then nb.1 ++ ": " ++ nb.2.Edge ++ " \x7b uid \x7d"
    else nb.1 ++ ": " ++ nb.2.Edge ++ " @filter("
      ++ Replace nb.2.Filter "#\x7blogin_uid\x7d" loginUid ++ ") \x7b uid \x7d")

/-- A schema with two boolean edges and no relation. -/
def booleanSchema : Schema :=
  Schema.mk 7 ["name", "age"]
    [("liked", { Edge := "like", Filter := "uid(#\x7blogin_uid\x7d)" }),
     ("seen", { Edge := "view", Filter := "" })] []

/-- A schema in which the boolean edge `liked` shares its name with a relation
marked for inclusion. -/
def collidingSchema : Schema :=
  Schema.mk 7 ["name"] [("liked", { Edge := "like", Filter := "" })]
    [("liked", { Edge := "like", HasMany := true, Include := true, IncludeOptions := "",
                 CountField := "", Facets := [], SchemaFunc := fun _ => EmptySchema })]

/-- Follows the claim: the forward edge name an edge name refers to, `e` for an
edge written `~e`. -/
def forwardName (edge : String) : String :=
  match edge.data with
  | [] => edge
  | c :: cs => if c = Char.ofNat 126 then String.mk cs else edge

/-- The edges referenced by a list of schemas. -/
def referencedEdges (schemaList : List Schema) : List String :=
  (schemaList.map schemaEdges).flatten

/-- What the map `hasReverse` holds once the edges `seen` have been noted. -/
def Notes (hasReverse : GoMap Bool) (seen : List String) : Prop :=
  (GoMap.keys hasReverse).Nodup
  ∧ (∀ k : String, (hasReverse.find k).isSome = true ↔ ∃ e ∈ seen, forwardName e = k)
  ∧ (∀ k : String, hasReverse.find k = some true ↔ "~" ++ k ∈ seen)

/-- Follows the claim: an edge name for which reversing twice gives the name back,
one that is not empty, is not `~` alone and does not begin with `~~`. -/
def isPlainEdge (edge : String) : Bool :=
  match edge.data with
  | [] => false
  | c :: cs =>
    if c = Char.ofNat 126 then
      (match cs with
        | [] => false
        | d :: _ => !decide (d = Char.ofNat 126))
    else true

/-- A stand-in for `CountSchema` on sample inputs: the given tag and the single
projection `count(uid)`. -/
def sampleCountSchema (tag : Int) : Schema := Schema.mk tag ["count(uid)"] [] []

/-- Two schemas referencing the edges `like`, `~friend`, `friend` and `~owner`. -/
def migrationSchemas : List Schema :=
  [Schema.mk 1 ["name"] [("liked", { Edge := "like", Filter := "" })]
     [("followers", { Edge := "~friend", HasMany := true, Include := false, IncludeOptions := "",
                      CountField := "", Facets := [], SchemaFunc := fun _ => EmptySchema })],
   Schema.mk 2 ["title"] []
     [("friends", { Edge := "friend", HasMany := true, Include := false, IncludeOptions := "",
                    CountField := "", Facets := [], SchemaFunc := fun _ => EmptySchema }),
      ("owned", { Edge := "~owner", HasMany := true, Include := false, IncludeOptions := "",
                  CountField := "", Facets := [], SchemaFunc := fun _ => EmptySchema })]]

/-- Follows the claim: the filter clause for the accumulated filter list `F`. -/
def filterClause (F : List String) : String :=
  "@filter(" ++ " and ".intercalate (F ++ ["not has(deleted_at)"]) ++ ")"

/-- The text holds no `#`, the character that opens a placeholder. -/
def hashFree (s : String) : Prop := Char.ofNat 35 ∉ s.data

instance hashFree.decidable (s : String) : Decidable (hashFree s) :=
  inferInstanceAs (Decidable (Char.ofNat 35 ∉ s.data))

/-- The placeholder `#{k}` of the key `k`, as characters. -/
def placeholder (k : String) : List Char :=
  Char.ofNat 35 :: Char.ofNat 123 :: (k.data ++ [Char.ofNat 125])

/-- The text in the place of the key `k` under the bindings `s`: the value bound
to `k`, or the placeholder while `k` is unbound. -/
def hole (s : String → Option (List Char)) (k : String) : List Char :=
  match s k with
  | some v => v
  | none => placeholder k

/-- A template of literal texts, each followed by the place of a key, under the
bindings `s`. -/
def render (s : String → Option (List Char)) : List (List Char × String) → List Char
  | [] => []
  | (l, k) :: rest => l ++ (hole s k ++ render s rest)

/-- The bindings `s` with `k` bound to `v`. -/
def withBound (s : String → Option (List Char)) (k : String) (v : List Char) :
    String → Option (List Char) :=
  fun k2 => if k2 = k then some v else s k2

/-- The bindings after the rounds of `generate` over the entries `order`. -/
def bindAll (s : String → Option (List Char)) (order : GoMap Value) :
    String → Option (List Char) :=
  order.foldl (fun s1 p => withBound s1 p.1 (query.argText p.2).data) s

/-- The template of `BuildQuery` as literal texts followed by the places of keys. -/
def qAllTemplate : List (List Char × String) :=
  [("\n\t\x7b\n\t\tq(func: eq(tag, ".data, "tag"), ("), ".data, "sorting"), ("".data, "take"),
   (") ".data, "filter"), (" \x7b ".data, "body")]

/-- The text of the template of `BuildQuery` after its last placeholder. -/
def qAllTail : List Char := " \x7d\n\t\x7d".data

/-! ## Lemmas on maps and strings -/

theorem GoMap.find_store {β : Type} (m : GoMap β) (k k2 : String) (v : β) :
    (m.store k v).find k2 = if k = k2 then some v else m.find k2 := by
  induction m with
  | nil => simp [GoMap.store, GoMap.find]
  | cons p rest ih =>
    obtain ⟨k1, v1⟩ := p
    by_cases h1 : k1 = k
    · subst h1
      by_cases h2 : k1 = k2 <;> simp [GoMap.store, GoMap.find, h2]
    · by_cases h2 : k1 = k2
      · subst h2
        have h3 : ¬ k = k1 := fun h => h1 h.symm
        simp [GoMap.store, GoMap.find, h1, h3]
      · simp [GoMap.store, GoMap.find, h1, h2, ih]

theorem GoMap.find_store_self {β : Type} (m : GoMap β) (k : String) (v : β) :
    (m.store k v).find k = some v := by
  simp [GoMap.find_store]

theorem GoMap.find_store_ne {β : Type} (m : GoMap β) (k k2 : String) (v : β) (h : k ≠ k2) :
    (m.store k v).find k2 = m.find k2 := by
  simp [GoMap.find_store, h]

theorem two_le_utf8ByteSize (a b : Char) (rest : List Char) :
    2 ≤ (String.mk (a :: b :: rest)).utf8ByteSize := by
  have ha := Char.utf8Size_pos a
  have hb := Char.utf8Size_pos b
  simp only [String.utf8ByteSize, String.utf8ByteSize.go]
  omega

/-- The characters of a minted identity. -/
theorem temporary_data (t : String) :
    ("_:model" ++ t).data = Char.ofNat 95 :: Char.ofNat 58 :: ("model" ++ t).data := by
  simp [String.data_append]

theorem temporary_ne_empty (t : String) : "_:model" ++ t ≠ "" := by
  intro h
  have h2 := congrArg String.data h
  rw [temporary_data] at h2
  simp at h2

theorem temporary_isNew (p : ModelProperty) (t : String) (h : p.__uid = "_:model" ++ t) :
    p.isNew = some true := by
  have hd := temporary_data t
  have hsize : 2 ≤ p.__uid.utf8ByteSize := by
    have h2 : p.__uid = String.mk (Char.ofNat 95 :: Char.ofNat 58 :: ("model" ++ t).data) := by
      rw [h]
      exact String.ext hd
    rw [h2]
    exact two_le_utf8ByteSize _ _ _
  have hnot : ¬ p.__uid.utf8ByteSize < 2 := by omega
  have htake : p.__uid.data.take 2 = [Char.ofNat 95, Char.ofNat 58] := by
    rw [h, hd]
    rfl
  simp only [ModelProperty.isNew, if_neg hnot, htake]
  rfl

theorem temporary_dropTwo (t : String) : dropTwo ("_:model" ++ t) = "model" ++ t := by
  apply String.ext
  simp [dropTwo, temporary_data]

/-! ## Lemmas on the heap -/

theorem World.prop_setProp_same (w : World) (m : Ref) (f : ModelProperty → ModelProperty) :
    (w.setProp m f).prop m = f (w.prop m) := by
  simp [World.setProp, World.prop]

theorem World.prop_setProp_other (w : World) (m r : Ref) (f : ModelProperty → ModelProperty)
    (h : r ≠ m) : (w.setProp m f).prop r = w.prop r := by
  simp [World.setProp, World.prop, Function.update, h]

theorem World.all_setProp (w : World) (m r : Ref) (f : ModelProperty → ModelProperty) :
    ((w.setProp m f).heap r).all = (w.heap r).all := by
  by_cases h : r = m
  · subst h
    simp [World.setProp]
  · simp [World.setProp, Function.update, h]

/-! ## Lemmas on `Save` -/

theorem Save_prop_other (toJSON : GoMap Raw → String) (w : World) (m r : Ref) (schema : Schema)
    (h : r ≠ m) : (graphor.Save toJSON w (some m) schema).prop r = w.prop r := by
  by_cases he : (w.heap m).prop.isEmpty = true
  · simp [graphor.Save, mintTemporary, graphor.Index, World.Now, he, World.setProp, World.prop,
      Function.update, h]
  · simp [graphor.Save, World.Now, he, World.setProp, World.prop, Function.update, h]

theorem Save_prop_empty (toJSON : GoMap Raw → String) (w : World) (m : Ref) (schema : Schema)
    (he : (w.prop m).__uid = "") :
    (graphor.Save toJSON w (some m) schema).prop m =
      { __uid := mintedUid w, __createdAt := w.clock w.ticks,
        __updatedAt := w.clock (w.ticks + 1), __deletedAt := (w.prop m).__deletedAt } := by
  have he2 : (w.heap m).prop.isEmpty = true := by
    simp only [World.prop] at he
    simp [ModelProperty.isEmpty, he]
  simp [graphor.Save, mintTemporary, graphor.Index, World.Now, he2, World.setProp, World.prop,
    ModelProperty.SetUid, ModelProperty.setCreatedAt, ModelProperty.setUpdatedAt, mintedUid]

theorem Save_prop_nonempty (toJSON : GoMap Raw → String) (w : World) (m : Ref) (schema : Schema)
    (he : (w.prop m).__uid ≠ "") :
    (graphor.Save toJSON w (some m) schema).prop m =
      { w.prop m with __updatedAt := w.clock w.ticks } := by
  have he2 : ¬ (w.heap m).prop.isEmpty = true := by
    simp only [World.prop] at he
    simp [ModelProperty.isEmpty, he]
  simp [graphor.Save, World.Now, he2, World.setProp, World.prop, ModelProperty.setUpdatedAt]

theorem Save_Mutates_empty (toJSON : GoMap Raw → String) (w : World) (m : Ref) (schema : Schema)
    (he : (w.prop m).__uid = "") :
    (graphor.Save toJSON w (some m) schema).g.Mutates = w.g.Mutates ++ [m] := by
  have he2 : (w.heap m).prop.isEmpty = true := by
    simp only [World.prop] at he
    simp [ModelProperty.isEmpty, he]
  simp [graphor.Save, mintTemporary, graphor.Index, World.Now, he2, World.setProp, World.prop]

theorem Save_Mutates_nonempty (toJSON : GoMap Raw → String) (w : World) (m : Ref)
    (schema : Schema) (he : (w.prop m).__uid ≠ "") :
    (graphor.Save toJSON w (some m) schema).g.Mutates = w.g.Mutates := by
  have he2 : ¬ (w.heap m).prop.isEmpty = true := by
    simp only [World.prop] at he
    simp [ModelProperty.isEmpty, he]
  simp [graphor.Save, World.Now, he2, World.setProp, World.prop]

theorem Save_batch (toJSON : GoMap Raw → String) (w : World) (m : Ref) (schema : Schema) :
    (graphor.Save toJSON w (some m) schema).g.Database.Mutation =
      { Insertions := w.g.Database.Mutation.Insertions ++
          [toJSON (saveDocument ((graphor.Save toJSON w (some m) schema).heap m) schema)],
        Deletions := w.g.Database.Mutation.Deletions } := by
  by_cases he : (w.heap m).prop.isEmpty = true
  · simp [graphor.Save, mintTemporary, graphor.Index, World.Now, he, World.setProp,
      World.prop, database.Insert]
  · simp [graphor.Save, World.Now, he, World.setProp, World.prop, database.Insert]

theorem copyFields_find (all : GoMap Raw) (fields : List String) (part : GoMap Raw) (k : String) :
    (copyFields all fields part).find k =
      if k ∈ fields then (match all.find k with | some v => some v | none => part.find k)
      else part.find k := by
  induction fields generalizing part with
  | nil => simp [copyFields]
  | cons field rest ih =>
    by_cases hk : k ∈ rest
    · cases hf : all.find field with
      | none => simp [copyFields, hf, ih, hk]
      | some v =>
        simp only [copyFields, hf, ih, hk, if_true, List.mem_cons, or_true]
        cases hk2 : all.find k with
        | some v2 => rfl
        | none =>
          have hne : field ≠ k := by
            intro h
            rw [h] at hf
            rw [hf] at hk2
            cases hk2
          simp [GoMap.find_store, hne]
    · by_cases hkf : k = field
      · subst hkf
        cases hf : all.find k with
        | none => simp [copyFields, hf, ih, hk]
        | some v => simp [copyFields, hf, ih, hk, GoMap.find_store]
      · have hne : ¬ field = k := fun h => hkf h.symm
        cases hf : all.find field with
        | none => simp [copyFields, hf, ih, hk, hkf]
        | some v => simp [copyFields, hf, ih, hk, hkf, GoMap.find_store, hne]

theorem saveDocument_find_field (e : Entity) (schema : Schema) (k : String)
    (hk : k ∉ systemKeys) :
    (saveDocument e schema).find k = if k ∈ schema.Fields then e.all.find k else none := by
  simp only [systemKeys, List.mem_cons, List.mem_singleton, not_or, List.not_mem_nil,
    or_false] at hk
  obtain ⟨h1, h2, h3, h4, h5⟩ := hk
  have e1 : ¬ "uid" = k := fun h => h1 h.symm
  have e2 : ¬ "tag" = k := fun h => h2 h.symm
  have e3 : ¬ "updated_at" = k := fun h => h3 h.symm
  have e4 : ¬ "created_at" = k := fun h => h4 h.symm
  have e5 : ¬ "deleted_at" = k := fun h => h5 h.symm
  have hcopy := copyFields_find e.all schema.Fields [] k
  unfold saveDocument
  by_cases hc : e.prop.GetCreatedAt > 0 <;> by_cases hd : e.prop.GetDeletedAt > 0 <;>
    simp only [hc, hd, if_true, if_false, GoMap.find_store, e1, e2, e3, e4, e5, hcopy] <;>
    by_cases hf : k ∈ schema.Fields <;> simp [hf, GoMap.find] <;>
    cases e.all.find k <;> rfl

theorem saveDocument_find_system (e : Entity) (schema : Schema) :
    (saveDocument e schema).find "uid" = some (Raw.str e.prop.__uid)
    ∧ (saveDocument e schema).find "tag" = some (Raw.num schema.Tag)
    ∧ (saveDocument e schema).find "updated_at" = some (Raw.num e.prop.__updatedAt)
    ∧ (saveDocument e schema).find "created_at" =
        (if e.prop.__createdAt > 0 then some (Raw.num e.prop.__createdAt)
          else if "created_at" ∈ schema.Fields then e.all.find "created_at" else none)
    ∧ (saveDocument e schema).find "deleted_at" =
        (if e.prop.__deletedAt > 0 then some (Raw.num e.prop.__deletedAt)
          else if "deleted_at" ∈ schema.Fields then e.all.find "deleted_at" else none) := by
  have hc := copyFields_find e.all schema.Fields [] "created_at"
  have hd := copyFields_find e.all schema.Fields [] "deleted_at"
  have hc2 : (copyFields e.all schema.Fields []).find "created_at" =
      if "created_at" ∈ schema.Fields then e.all.find "created_at" else none := by
    rw [hc]
    by_cases hf : "created_at" ∈ schema.Fields
    · simp only [hf, if_true]
      cases e.all.find "created_at" <;> rfl
    · simp [hf, GoMap.find]
  have hd2 : (copyFields e.all schema.Fields []).find "deleted_at" =
      if "deleted_at" ∈ schema.Fields then e.all.find "deleted_at" else none := by
    rw [hd]
    by_cases hf : "deleted_at" ∈ schema.Fields
    · simp only [hf, if_true]
      cases e.all.find "deleted_at" <;> rfl
    · simp [hf, GoMap.find]
  unfold saveDocument
  by_cases h1 : e.prop.__createdAt > 0 <;> by_cases h2 : e.prop.__deletedAt > 0 <;>
    simp [h1, h2, GoMap.find_store, ModelProperty.GetCreatedAt, ModelProperty.GetDeletedAt,
      ModelProperty.GetUid, ModelProperty.GetUpdatedAt, hc2, hd2]

/-! ## C3: Save mints a temporary identity once -/

/-- C3. For an entity with empty identity, `Save` sets the identity to
`_:model<n>` (so its first two characters are `_:`), stamps the creation time with
the clock reading, and appends the entity once to the list of registered
entities; a second `Save` of the same entity leaves identity, creation timestamp
and the list of registered entities as the first left them. -/
theorem Save_mints_temporary_identity_once (toJSON : GoMap Raw → String) (w : World) (m : Ref)
    (schema schema2 : Schema) (h : (w.prop m).__uid = "") :
    ((graphor.Save toJSON w (some m) schema).prop m).__uid
        = "_:model" ++ toString ((w.g.IndexCount + 1) % 1000000000)
    ∧ ((graphor.Save toJSON w (some m) schema).prop m).__uid.data.take 2 = "_:".data
    ∧ ((graphor.Save toJSON w (some m) schema).prop m).__createdAt = w.clock w.ticks
    ∧ (graphor.Save toJSON w (some m) schema).g.Mutates = w.g.Mutates ++ [m]
    ∧ ((graphor.Save toJSON (graphor.Save toJSON w (some m) schema) (some m) schema2).prop m).__uid
        = ((graphor.Save toJSON w (some m) schema).prop m).__uid
    ∧ ((graphor.Save toJSON (graphor.Save toJSON w (some m) schema) (some m) schema2).prop
          m).__createdAt
        = ((graphor.Save toJSON w (some m) schema).prop m).__createdAt
    ∧ (graphor.Save toJSON (graphor.Save toJSON w (some m) schema) (some m) schema2).g.Mutates
        = (graphor.Save toJSON w (some m) schema).g.Mutates := by
  have h1 := Save_prop_empty toJSON w m schema h
  have hne : ((graphor.Save toJSON w (some m) schema).prop m).__uid ≠ "" := by
    rw [h1]
    exact temporary_ne_empty _
  have h2 := Save_prop_nonempty toJSON (graphor.Save toJSON w (some m) schema) m schema2 hne
  have h3 := Save_Mutates_nonempty toJSON (graphor.Save toJSON w (some m) schema) m schema2 hne
  refine ⟨?_, ?_, ?_, Save_Mutates_empty toJSON w m schema h, ?_, ?_, h3⟩
  · rw [h1]
    rfl
  · rw [h1]
    simp only [mintedUid, temporary_data]
    rfl
  · rw [h1]
  · rw [h2]
  · rw [h2]

/-- C3 at the sample world: the first `Save` of model 0 mints `_:model1`, a
second one registers nothing more. -/
theorem Save_mints_temporary_identity_once_witness :
    (sampleWorld.prop 0).__uid = ""
    ∧ ((graphor.Save sampleJSON sampleWorld (some 0) sampleSchema).prop 0).__uid = "_:model1"
    ∧ (graphor.Save sampleJSON (graphor.Save sampleJSON sampleWorld (some 0) sampleSchema)
          (some 0) sampleSchema).g.Mutates = [0] :=
  ⟨rfl,
   (Save_mints_temporary_identity_once sampleJSON sampleWorld 0 sampleSchema sampleSchema rfl).1,
   ((Save_mints_temporary_identity_once sampleJSON sampleWorld 0 sampleSchema sampleSchema
      rfl).2.2.2.2.2.2).trans
     (Save_mints_temporary_identity_once sampleJSON sampleWorld 0 sampleSchema sampleSchema
      rfl).2.2.2.1⟩

/-! ## C4: the document Save appends -/

/-- C4. For a present entity, `Save` appends exactly one document to the insertion
list and nothing to the deletion list. The keys of that document are the declared
fields found in the entity's serialised state, `uid`, `tag`, `updated_at`,
`created_at` when the creation timestamp is positive and `deleted_at` when the
deletion timestamp is positive; `uid` holds the identity, `tag` the schema's tag,
and a key that is neither declared nor written by `Save` itself is absent. -/
theorem Save_appends_projected_document (toJSON : GoMap Raw → String) (w : World) (m : Ref)
    (schema : Schema) :
    (graphor.Save toJSON w (some m) schema).g.Database.Mutation.Insertions
        = w.g.Database.Mutation.Insertions
          ++ [toJSON (saveDocument ((graphor.Save toJSON w (some m) schema).heap m) schema)]
    ∧ (graphor.Save toJSON w (some m) schema).g.Database.Mutation.Deletions
        = w.g.Database.Mutation.Deletions
    ∧ ((graphor.Save toJSON w (some m) schema).heap m).all = (w.heap m).all
    ∧ (∀ k : String,
        ((saveDocument ((graphor.Save toJSON w (some m) schema).heap m) schema).find k).isSome
          = true ↔
        ((k ∈ schema.Fields ∧ ((w.heap m).all.find k).isSome = true)
          ∨ k = "uid" ∨ k = "tag" ∨ k = "updated_at"
          ∨ (k = "created_at" ∧ 0 < ((graphor.Save toJSON w (some m) schema).prop m).__createdAt)
          ∨ (k = "deleted_at"
              ∧ 0 < ((graphor.Save toJSON w (some m) schema).prop m).__deletedAt)))
    ∧ (saveDocument ((graphor.Save toJSON w (some m) schema).heap m) schema).find "uid"
        = some (Raw.str ((graphor.Save toJSON w (some m) schema).prop m).__uid)
    ∧ (saveDocument ((graphor.Save toJSON w (some m) schema).heap m) schema).find "tag"
        = some (Raw.num schema.Tag)
    ∧ (∀ k : String, k ∉ schema.Fields → k ∉ systemKeys →
        (saveDocument ((graphor.Save toJSON w (some m) schema).heap m) schema).find k = none) := by
  have hb := Save_batch toJSON w m schema
  have hall : ((graphor.Save toJSON w (some m) schema).heap m).all = (w.heap m).all := by
    by_cases he : (w.heap m).prop.isEmpty = true
    · simp [graphor.Save, mintTemporary, graphor.Index, World.Now, he, World.setProp, World.prop]
    · simp [graphor.Save, World.Now, he, World.setProp, World.prop]
  have hsys := saveDocument_find_system ((graphor.Save toJSON w (some m) schema).heap m) schema
  refine ⟨by rw [hb], by rw [hb], hall, ?_, hsys.1, hsys.2.1, ?_⟩
  · intro k
    by_cases hk : k ∈ systemKeys
    · simp only [systemKeys, List.mem_cons, List.mem_singleton, List.not_mem_nil,
        or_false] at hk
      rcases hk with hk | hk | hk | hk | hk
      · subst hk
        simp [hsys.1]
      · subst hk
        simp [hsys.2.1]
      · subst hk
        simp [hsys.2.2.1]
      · subst hk
        rw [hsys.2.2.2.1, hall]
        by_cases hc : ((graphor.Save toJSON w (some m) schema).heap m).prop.__createdAt > 0
        · simp [hc, World.prop]
        · by_cases hf : "created_at" ∈ schema.Fields <;> simp [hc, hf, World.prop]
      · subst hk
        rw [hsys.2.2.2.2, hall]
        by_cases hc : ((graphor.Save toJSON w (some m) schema).heap m).prop.__deletedAt > 0
        · simp [hc, World.prop]
        · by_cases hf : "deleted_at" ∈ schema.Fields <;> simp [hc, hf, World.prop]
    · rw [saveDocument_find_field _ _ _ hk, hall]
      simp only [systemKeys, List.mem_cons, List.mem_singleton, List.not_mem_nil,
        or_false, not_or] at hk
      obtain ⟨h1, h2, h3, h4, h5⟩ := hk
      by_cases hf : k ∈ schema.Fields <;> simp [hf, h1, h2, h3, h4, h5]
  · intro k hf hk
    rw [saveDocument_find_field _ _ _ hk]
    simp [hf]

/-! ## Lemmas on the registered entities -/

theorem Save_none (toJSON : GoMap Raw → String) (w : World) (schema : Schema) :
    graphor.Save toJSON w none schema = w := rfl

theorem Save_preserves_Registered (toJSON : GoMap Raw → String) (w : World)
    (model : Option Ref) (schema : Schema) (h : Registered w) :
    Registered (graphor.Save toJSON w model schema) := by
  cases model with
  | none => exact h
  | some m =>
    obtain ⟨hnd, htemp⟩ := h
    by_cases he : (w.prop m).__uid = ""
    · have hnot : m ∉ w.g.Mutates := by
        intro hm
        obtain ⟨t, ht⟩ := htemp m hm
        rw [he] at ht
        exact temporary_ne_empty t ht.symm
      refine ⟨?_, ?_⟩
      · rw [Save_Mutates_empty toJSON w m schema he]
        exact List.Nodup.append hnd (List.nodup_singleton m) (by simpa using hnot)
      · intro r hr
        rw [Save_Mutates_empty toJSON w m schema he] at hr
        by_cases hrm : r = m
        · subst hrm
          exact ⟨_, by rw [Save_prop_empty toJSON w r schema he]; rfl⟩
        · rw [Save_prop_other toJSON w m r schema hrm]
          have hr2 : r ∈ w.g.Mutates := by simpa [hrm] using hr
          exact htemp r hr2
    · refine ⟨?_, ?_⟩
      · rw [Save_Mutates_nonempty toJSON w m schema he]
        exact hnd
      · intro r hr
        rw [Save_Mutates_nonempty toJSON w m schema he] at hr
        by_cases hrm : r = m
        · subst hrm
          rw [Save_prop_nonempty toJSON w r schema he]
          exact htemp r hr
        · rw [Save_prop_other toJSON w m r schema hrm]
          exact htemp r hr

theorem saveAll_preserves_Registered (toJSON : GoMap Raw → String)
    (saves : List (Option Ref × Schema)) (w : World) (h : Registered w) :
    Registered (saveAll toJSON saves w).1 := by
  induction saves generalizing w with
  | nil => exact h
  | cons p rest ih =>
    exact ih (graphor.Save toJSON w p.1 p.2) (Save_preserves_Registered toJSON w p.1 p.2 h)

theorem Save_Mutates_mono (toJSON : GoMap Raw → String) (w : World) (model : Option Ref)
    (schema : Schema) (r : Ref) (h : r ∈ w.g.Mutates) :
    r ∈ (graphor.Save toJSON w model schema).g.Mutates := by
  cases model with
  | none => exact h
  | some m =>
    by_cases he : (w.prop m).__uid = ""
    · rw [Save_Mutates_empty toJSON w m schema he]
      exact List.mem_append_left _ h
    · rw [Save_Mutates_nonempty toJSON w m schema he]
      exact h

theorem saveAll_Mutates_mono (toJSON : GoMap Raw → String) (saves : List (Option Ref × Schema))
    (w : World) (r : Ref) (h : r ∈ w.g.Mutates) : r ∈ (saveAll toJSON saves w).1.g.Mutates := by
  induction saves generalizing w with
  | nil => exact h
  | cons p rest ih =>
    exact ih (graphor.Save toJSON w p.1 p.2) (Save_Mutates_mono toJSON w p.1 p.2 r h)

theorem saveAll_registers (toJSON : GoMap Raw → String) (saves : List (Option Ref × Schema))
    (w : World) (m : Ref) (hw : Registered w)
    (h : m ∈ w.g.Mutates ∨ (w.prop m).__uid = "")
    (hm : ∃ p ∈ saves, p.1 = some m) : m ∈ (saveAll toJSON saves w).1.g.Mutates := by
  induction saves generalizing w with
  | nil =>
    obtain ⟨p, hp, _⟩ := hm
    cases hp
  | cons p rest ih =>
    have hstep : m ∈ (graphor.Save toJSON w p.1 p.2).g.Mutates
        ∨ ((graphor.Save toJSON w p.1 p.2).prop m).__uid = "" := by
      rcases h with h | h
      · exact Or.inl (Save_Mutates_mono toJSON w p.1 p.2 m h)
      · cases hp1 : p.1 with
        | none => exact Or.inr h
        | some m2 =>
          by_cases hmm : m = m2
          · subst hmm
            left
            rw [Save_Mutates_empty toJSON w m p.2 h]
            simp
          · right
            rw [Save_prop_other toJSON w m2 m p.2 hmm]
            exact h
    have hreg := Save_preserves_Registered toJSON w p.1 p.2 hw
    by_cases hhere : p.1 = some m
    · have hin : m ∈ (graphor.Save toJSON w p.1 p.2).g.Mutates := by
        rcases hstep with h2 | h2
        · exact h2
        · rcases h with h | h
          · exact Save_Mutates_mono toJSON w p.1 p.2 m h
          · rw [hhere, Save_Mutates_empty toJSON w m p.2 h]
            simp
      exact saveAll_Mutates_mono toJSON rest _ m hin
    · have hrest : ∃ p2 ∈ rest, p2.1 = some m := by
        obtain ⟨p2, hp2, hp3⟩ := hm
        rcases List.mem_cons.mp hp2 with h4 | h4
        · subst h4
          exact absurd hp3 hhere
        · exact ⟨p2, h4, hp3⟩
      exact ih (graphor.Save toJSON w p.1 p.2) hreg hstep hrest

theorem resolveUids_all (res : GoMap String) (l : List Ref) (w : World) (hnd : l.Nodup)
    (htemp : ∀ m ∈ l, ∃ t : String, (w.prop m).__uid = "_:model" ++ t)
    (htok : ∀ m ∈ l, (res.find (dropTwo (w.prop m).__uid)).isSome = true) :
    ∃ w2 : World, resolveUids res l w = some (w2, none)
      ∧ (∀ m ∈ l, some (w2.prop m).__uid = res.find (dropTwo (w.prop m).__uid))
      ∧ (∀ r, r ∉ l → w2.prop r = w.prop r) := by
  induction l generalizing w with
  | nil => exact ⟨w, rfl, by simp, by simp⟩
  | cons m rest ih =>
    obtain ⟨t, ht⟩ := htemp m (List.mem_cons_self m rest)
    have hnew := temporary_isNew (w.prop m) t ht
    have hsome := htok m (List.mem_cons_self m rest)
    obtain ⟨uid, huid⟩ := Option.isSome_iff_exists.mp hsome
    have hmrest : m ∉ rest := (List.nodup_cons.mp hnd).1
    have hother : ∀ r ∈ rest, (w.setProp m (fun p => p.SetUid uid)).prop r = w.prop r := by
      intro r hr
      apply World.prop_setProp_other
      intro hrm
      subst hrm
      exact hmrest hr
    obtain ⟨w2, hrun, hres, hframe⟩ := ih (w.setProp m (fun p => p.SetUid uid))
      (List.nodup_cons.mp hnd).2
      (by
        intro r hr
        rw [hother r hr]
        exact htemp r (List.mem_cons_of_mem m hr))
      (by
        intro r hr
        rw [hother r hr]
        exact htok r (List.mem_cons_of_mem m hr))
    refine ⟨w2, ?_, ?_, ?_⟩
    · simp only [resolveUids, hnew, ModelProperty.GetUid, huid]
      exact hrun
    · intro r hr
      rcases List.mem_cons.mp hr with h1 | h1
      · subst h1
        rw [hframe r hmrest, World.prop_setProp_same, huid]
        rfl
      · rw [hres r h1, hother r h1]
    · intro r hr
      have hr1 : r ≠ m := fun h => hr (h ▸ List.mem_cons_self m rest)
      have hr2 : r ∉ rest := fun h => hr (List.mem_cons_of_mem m h)
      rw [hframe r hr2]
      exact World.prop_setProp_other w m r _ hr1

/-! ## C1: a successful commit resolves every registered entity -/

/-- C1. Let the callback of `Mutate` be a sequence of `Save` calls, let the backend
commit succeed with the mapping `res`, and let `res` contain the token (the
temporary identity without its first two bytes `_:`) of every entity registered
during the callback. Then every saved entity whose identity was empty is
registered, `Mutate` returns without error, and afterwards the identity of each
registered entity is the value of `res` at its token. -/
theorem Mutate_commit_resolves_registered (toJSON : GoMap Raw → String) (w : World)
    (saves : List (Option Ref × Schema)) (txn : Txn) (res : GoMap String)
    (hcommit : (saveAll toJSON saves (mutateStart w)).1.g.Database.RunMutation txn = (res, none))
    (htok : ∀ m ∈ (saveAll toJSON saves (mutateStart w)).1.g.Mutates,
      (res.find (dropTwo ((saveAll toJSON saves (mutateStart w)).1.prop m).__uid)).isSome
        = true) :
    (∀ p ∈ saves, ∀ m : Ref, p.1 = some m → (w.prop m).__uid = "" →
        m ∈ (saveAll toJSON saves (mutateStart w)).1.g.Mutates)
    ∧ ∃ w2 : World, graphor.Mutate w (saveAll toJSON saves) txn = some (w2, none)
        ∧ ∀ m ∈ (saveAll toJSON saves (mutateStart w)).1.g.Mutates,
            some (w2.prop m).__uid
              = res.find (dropTwo ((saveAll toJSON saves (mutateStart w)).1.prop m).__uid) := by
  have hstart : Registered (mutateStart w) :=
    ⟨List.nodup_nil, fun m hm => absurd hm (List.not_mem_nil m)⟩
  have hreg := saveAll_preserves_Registered toJSON saves (mutateStart w) hstart
  refine ⟨?_, ?_⟩
  · intro p hp m hpm hempty
    exact saveAll_registers toJSON saves (mutateStart w) m hstart (Or.inr hempty) ⟨p, hp, hpm⟩
  · obtain ⟨w2, hrun, hres, _⟩ :=
      resolveUids_all res _ (saveAll toJSON saves (mutateStart w)).1 hreg.1 hreg.2 htok
    refine ⟨w2, ?_, hres⟩
    have hexec : saveAll toJSON saves (mutateStart w)
        = ((saveAll toJSON saves (mutateStart w)).1, none) := rfl
    unfold graphor.Mutate
    rw [hexec]
    simp only [hcommit]
    exact hrun

/-- C1 at the sample world: model 0 is saved, the backend maps its token `model1`
to `0xabc`, and after `Mutate` its identity is `0xabc`. -/
theorem Mutate_commit_resolves_registered_witness :
    (saveAll sampleJSON [(some 0, sampleSchema)] (mutateStart sampleWorld)).1.g.Mutates = [0]
    ∧ dropTwo ((saveAll sampleJSON [(some 0, sampleSchema)] (mutateStart sampleWorld)).1.prop
        0).__uid = "model1"
    ∧ ∃ w2 : World,
        graphor.Mutate sampleWorld (saveAll sampleJSON [(some 0, sampleSchema)]) sampleTxn
          = some (w2, none)
        ∧ (w2.prop 0).__uid = "0xabc" := by
  have h := Mutate_commit_resolves_registered sampleJSON sampleWorld [(some 0, sampleSchema)]
    sampleTxn [("model1", "0xabc")] rfl
    (by
      intro m hm
      have hmut : (saveAll sampleJSON [(some 0, sampleSchema)]
          (mutateStart sampleWorld)).1.g.Mutates = [0] := rfl
      rw [hmut] at hm
      have hm0 : m = 0 := by simpa using hm
      subst hm0
      rfl)
  obtain ⟨w2, hrun, hres⟩ := h.2
  refine ⟨rfl, rfl, w2, hrun, ?_⟩
  have h0 := hres 0 (by decide)
  have hfind : GoMap.find [("model1", "0xabc")]
      (dropTwo ((saveAll sampleJSON [(some 0, sampleSchema)] (mutateStart sampleWorld)).1.prop
        0).__uid) = some "0xabc" := rfl
  rw [hfind] at h0
  exact Option.some.inj h0

/-! ## C2: a missing token after a partial resolution -/

/-- C2, the code at a failing input. Models 0 and 1 are saved, the backend maps
only the token of model 0; `Mutate` returns the `NoUidReturned` error, yet model 0
no longer carries the temporary identity `_:model1` it had before the commit: it
has been given `0xabc`, while model 1 keeps `_:model2`. -/
theorem Mutate_missing_token_resolves_partially :
    ((saveAll sampleJSON [(some 0, sampleSchema), (some 1, sampleSchema)]
        (mutateStart sampleWorld)).1.g.Mutates = [0, 1])
    ∧ ((saveAll sampleJSON [(some 0, sampleSchema), (some 1, sampleSchema)]
        (mutateStart sampleWorld)).1.prop 0).__uid = "_:model1"
    ∧ ∃ (w2 : World) (err : errors.Error),
        graphor.Mutate sampleWorld
            (saveAll sampleJSON [(some 0, sampleSchema), (some 1, sampleSchema)]) sampleTxn
          = some (w2, some err)
        ∧ err.Code = errors.NoUidReturned
        ∧ (w2.prop 0).__uid = "0xabc"
        ∧ (w2.prop 1).__uid = "_:model2" :=
  ⟨rfl, rfl, _, _, rfl, rfl, rfl, rfl⟩

/-! ## C5: Identify -/

theorem isValidUid_iff (uids : List String) :
    isValidUid uids = true ↔ ∀ uid ∈ uids, BeginsWith0x uid := by
  induction uids with
  | nil => simp [isValidUid]
  | cons uid rest ih =>
    by_cases h : uid.utf8ByteSize < 2 ∨ uid.data.take 2 ≠ [Char.ofNat 48, Char.ofNat 120]
    · have hnot : ¬ BeginsWith0x uid := by
        rintro ⟨t, ht⟩
        have hd : uid.data = Char.ofNat 48 :: Char.ofNat 120 :: t.data := by
          rw [ht, String.data_append]
          rfl
        rcases h with h | h
        · have h2 : uid = String.mk (Char.ofNat 48 :: Char.ofNat 120 :: t.data) :=
            String.ext hd
          have h3 := two_le_utf8ByteSize (Char.ofNat 48) (Char.ofNat 120) t.data
          rw [← h2] at h3
          omega
        · apply h
          rw [hd]
          rfl
      simp only [isValidUid, h, if_true, List.mem_cons, forall_eq_or_imp]
      constructor
      · intro hf
        cases hf
      · intro hall
        exact absurd hall.1 hnot
    · have hyes : BeginsWith0x uid := by
        have htake : uid.data.take 2 = [Char.ofNat 48, Char.ofNat 120] := by
          by_contra hc
          exact h (Or.inr hc)
        refine ⟨String.mk (uid.data.drop 2), ?_⟩
        apply String.ext
        rw [String.data_append]
        have hsplit := List.take_append_drop 2 uid.data
        rw [htake] at hsplit
        rw [← hsplit]
        rfl
      simp only [isValidUid, h, if_false, List.mem_cons, forall_eq_or_imp, ih]
      constructor
      · intro hall
        exact ⟨hyes, hall⟩
      · intro hall
        exact hall.2

/-- C5 as stated fails: `0xzz` is not of the permanent-identifier form, yet
`Identify` passes it on instead of the sentinel `0x0`. -/
theorem Identify_keeps_malformed_identifier :
    isPermanentForm "0xzz" = false
    ∧ ((BuildQuery sampleSchema).Identify ["0xzz"]).Filters = ["uid(<0xzz>)"]
    ∧ ((BuildQuery sampleSchema).Identify ["0xzz"]).Filters ≠ ["uid(<0x0>)"] := by
  refine ⟨by decide, rfl, by decide⟩

/-- C5, amended. `Identify` appends exactly one filter and changes nothing else; if
the list is empty or holds an identifier that does not begin with `0x`, the filter
is `uid(<0x0>)`; otherwise it lists the given identifiers in order. -/
theorem Identify_appends_one_filter (q : query) (uids : List String) :
    ((uids = [] ∨ ∃ uid ∈ uids, ¬ BeginsWith0x uid) →
      q.Identify uids = { q with Filters := q.Filters ++ ["uid(<0x0>)"] })
    ∧ ((uids ≠ [] ∧ ∀ uid ∈ uids, BeginsWith0x uid) →
      q.Identify uids
        = { q with Filters := q.Filters ++ ["uid(<" ++ ">, <".intercalate uids ++ ">)"] }) := by
  constructor
  · intro h
    have hc : uids.length = 0 ∨ isValidUid uids = false := by
      rcases h with h | h
      · left
        rw [h]
        rfl
      · right
        cases hv : isValidUid uids with
        | false => rfl
        | true =>
          obtain ⟨uid, hmem, hnot⟩ := h
          exact absurd ((isValidUid_iff uids).mp hv uid hmem) hnot
    simp only [query.Identify, hc, if_true]
    rfl
  · rintro ⟨hne, hall⟩
    have hv := (isValidUid_iff uids).mpr hall
    have hlen : ¬ uids.length = 0 := by
      intro h0
      exact hne (List.length_eq_zero.mp h0)
    have hc : ¬ (uids.length = 0 ∨ isValidUid uids = false) := by
      rw [hv]
      simp [hlen]
    simp only [query.Identify, hc, if_false]

/-- C5, amended, at sample inputs: a list holding `abc` gives the sentinel, the
list `0x1, 0x2` is passed on. -/
theorem Identify_appends_one_filter_witness :
    ((BuildQuery sampleSchema).Identify ["0x1", "abc"]).Filters = ["uid(<0x0>)"]
    ∧ ((BuildQuery sampleSchema).Identify ["0x1", "0x2"]).Filters = ["uid(<0x1>, <0x2>)"] := by
  constructor
  · rw [(Identify_appends_one_filter (BuildQuery sampleSchema) ["0x1", "abc"]).1
      (Or.inr ⟨"abc", by simp, by
        rintro ⟨t, ht⟩
        have hd := congrArg String.data ht
        rw [String.data_append] at hd
        simp at hd⟩)]
    rfl
  · rw [(Identify_appends_one_filter (BuildQuery sampleSchema) ["0x1", "0x2"]).2
      ⟨by simp, by
        intro uid hmem
        simp only [List.mem_cons, List.mem_singleton, List.not_mem_nil, or_false] at hmem
        rcases hmem with h | h
        · exact ⟨"1", by rw [h]; rfl⟩
        · exact ⟨"2", by rw [h]; rfl⟩⟩]
    rfl

/-! ## C6: Or -/

theorem Or_conditions (filters : List (query → query)) (branches : List (List String))
    (h : List.Forall₂ (fun f b => ∀ q0 : query, (f q0).Filters = q0.Filters ++ b)
      filters branches) :
    filters.map (fun filter => "(" ++ " and ".intercalate (filter branchQuery).Filters ++ ")")
      = branches.map (fun b => "(" ++ " and ".intercalate b ++ ")") := by
  induction h with
  | nil => rfl
  | cons hfb _ ih =>
    simp only [List.map_cons, ih, hfb branchQuery]
    rfl

/-- C6. If branch `i` appends the filters `Bi` to whatever builder it is handed,
then `Or` leaves the outer builder unchanged except for its filter list, which
becomes the old list followed by the single filter
`(` + the strings `(` + (`Bi` joined by ` and `) + `)` joined by ` or ` + `)`:
each `Bi` is read off a builder that started with the empty filter list. -/
theorem Or_appends_isolated_disjunction (q : query) (filters : List (query → query))
    (branches : List (List String))
    (h : List.Forall₂ (fun f b => ∀ q0 : query, (f q0).Filters = q0.Filters ++ b)
      filters branches) :
    q.Or filters = { q with Filters := q.Filters ++ [disjunction branches] }
    ∧ branchQuery.Filters = [] := by
  refine ⟨?_, rfl⟩
  simp only [query.Or, Or_conditions filters branches h, disjunction]

/-- C6 at the branches `x = 1` and `y = 2`, on a builder that already holds a
filter: the appended filter is `((eq(x, 1)) or (eq(y, 2)))`. -/
theorem Or_appends_isolated_disjunction_witness :
    (((BuildQuery sampleSchema).Has "name").Or
        [fun b => b.Where "x" "eq" (Value.int 1), fun b => b.Where "y" "eq" (Value.int 2)]).Filters
      = ["has(name)", "((eq(x, 1)) or (eq(y, 2)))"] := by
  rw [(Or_appends_isolated_disjunction ((BuildQuery sampleSchema).Has "name")
    [fun b => b.Where "x" "eq" (Value.int 1), fun b => b.Where "y" "eq" (Value.int 2)]
    [["eq(x, 1)"], ["eq(y, 2)"]]
    (List.Forall₂.cons (fun _ => rfl) (List.Forall₂.cons (fun _ => rfl) List.Forall₂.nil))).1]
  rfl

/-! ## C7: Paging -/

theorem isEmpty_eq_isZeroValue (x : Value) (h : isScalar x = true) :
    isEmpty x = isZeroValue x := by
  cases x with
  | int v => rfl
  | bool b => cases b <;> rfl
  | str s => rfl
  | other z => cases h

/-- C7 as stated fails: a bound that is the zero value of a type other than `int`,
`bool`, `string` (an `int64` zero, say) is not skipped; `Paging` appends a filter
with an empty literal for it. -/
theorem Paging_keeps_zero_of_other_type :
    isZeroValue (Value.other true) = true
    ∧ ((BuildQuery sampleSchema).Paging (Value.other true) (Value.int 0) 10).Filters
        = ["le(created_at, )"]
    ∧ ((BuildQuery sampleSchema).Paging (Value.other true) (Value.int 0) 10).Filters
        ≠ (BuildQuery sampleSchema).Filters := by
  refine ⟨rfl, rfl, by decide⟩

/-- C7, amended. For bounds of dynamic type `int`, `bool` or `string`, `Paging`
appends, in this order, a filter for `since` unless it is the zero value (`ge` when
the sort order is `asc`, `le` otherwise) and a filter for `until` unless it is the
zero value (`lt` when `asc`, `gt` otherwise), then sets the take count, and
changes nothing else. On the plain builder, and on a relation builder whose sort
key is not a declared facet, the filters are on the sort key and go to the filter
list; on a relation builder whose sort key is a declared facet they are on the
facet's edge and go to the facet-filter list. -/
theorem Paging_appends_bound_filters (since untl : Value) (count : Int)
    (hs : isScalar since = true) (hu : isScalar untl = true) :
    (∀ q : query, q.Paging since untl count =
      { q with Filters := q.Filters
                 ++ boundFilters (decide (q.SortOrder = "asc")) q.SortKey since untl,
               TakeCount := count })
    ∧ (∀ r : relation, r.RelationSchema.Facets.find r.query.SortKey = none →
        r.Paging since untl count =
          { r with query :=
            { r.query with
              Filters := r.query.Filters
                ++ boundFilters (decide (r.query.SortOrder = "asc")) r.query.SortKey since untl,
              TakeCount := count } })
    ∧ (∀ (r : relation) (facet : Facet),
        r.RelationSchema.Facets.find r.query.SortKey = some facet →
        r.Paging since untl count =
          { r with FacetsFilter := r.FacetsFilter
                     ++ boundFilters (decide (r.query.SortOrder = "asc")) facet.Edge since untl,
                   query := { r.query with TakeCount := count } }) := by
  have es := isEmpty_eq_isZeroValue since hs
  have eu := isEmpty_eq_isZeroValue untl hu
  refine ⟨?_, ?_, ?_⟩
  · intro q
    cases hzs : isZeroValue since <;> cases hzu : isZeroValue untl <;>
      by_cases hasc : q.SortOrder = "asc" <;>
      simp [query.Paging, query.Where, query.Take, query.IsOrderAsc, boundFilters, es, eu, hzs,
        hzu, hasc]
  · intro r hf
    cases hzs : isZeroValue since <;> cases hzu : isZeroValue untl <;>
      by_cases hasc : r.query.SortOrder = "asc" <;>
      simp [relation.Paging, relation.Where, relation.Take, relation.IsOrderAsc, query.Where,
        query.Take, query.IsOrderAsc, boundFilters, es, eu, hzs, hzu, hasc, hf]
  · intro r facet hf
    cases hzs : isZeroValue since <;> cases hzu : isZeroValue untl <;>
      by_cases hasc : r.query.SortOrder = "asc" <;>
      simp [relation.Paging, relation.Where, relation.Take, relation.IsOrderAsc, query.Where,
        query.Take, query.IsOrderAsc, boundFilters, es, eu, hzs, hzu, hasc, hf]

/-- C7, amended, on the default builder (descending on `created_at`): a `since` of
5 gives `le`, an `until` of 0 is skipped, and the take count is set. -/
theorem Paging_appends_bound_filters_witness :
    ((BuildQuery sampleSchema).Paging (Value.int 5) (Value.int 0) 10).Filters
        = ["le(created_at, 5)"]
    ∧ ((BuildQuery sampleSchema).Paging (Value.int 5) (Value.int 0) 10).TakeCount = 10
    ∧ (((BuildQuery sampleSchema).SetSortOption "age" "asc").Paging (Value.int 5) (Value.int 9)
        10).Filters = ["ge(age, 5)", "lt(age, 9)"] := by
  have h := (Paging_appends_bound_filters (Value.int 5) (Value.int 0) 10 rfl rfl).1
    (BuildQuery sampleSchema)
  have h2 := (Paging_appends_bound_filters (Value.int 5) (Value.int 9) 10 rfl rfl).1
    ((BuildQuery sampleSchema).SetSortOption "age" "asc")
  refine ⟨?_, ?_, ?_⟩
  · rw [h]
    rfl
  · rw [h]
  · rw [h2]
    rfl

/-! ## Lemmas on `strings.Replace` and `generate` -/

theorem GoMap.find_split {β : Type} (m : GoMap β) (k : String) (v : β)
    (h : m.find k = some v) :
    ∃ pre post : GoMap β, m = pre ++ (k, v) :: post ∧ k ∉ GoMap.keys pre := by
  induction m with
  | nil => simp [GoMap.find] at h
  | cons p rest ih =>
    obtain ⟨k1, v1⟩ := p
    by_cases h1 : k1 = k
    · subst h1
      simp only [GoMap.find, if_true, Option.some.injEq] at h
      subst h
      exact ⟨[], rest, rfl, by simp [GoMap.keys]⟩
    · simp only [GoMap.find, if_neg h1] at h
      obtain ⟨pre, post, h2, h3⟩ := ih h
      refine ⟨(k1, v1) :: pre, post, by rw [h2]; rfl, ?_⟩
      simp only [GoMap.keys, List.map_cons, List.mem_cons, not_or]
      exact ⟨fun h4 => h1 h4.symm, h3⟩

theorem replaceChars_walk (o new a rest : List Char) (h : Char.ofNat 35 ∉ a) :
    replaceChars (Char.ofNat 35 :: o) new 0 (a ++ rest)
      = a ++ replaceChars (Char.ofNat 35 :: o) new 0 rest := by
  induction a with
  | nil => rfl
  | cons c cs ih =>
    simp only [List.mem_cons, not_or] at h
    have hc : ¬ Char.ofNat 35 = c := h.1
    simp [replaceChars, hc, ih h.2]

theorem replaceChars_skip (old new o rest : List Char) :
    replaceChars old new o.length (o ++ rest) = replaceChars old new 0 rest := by
  induction o with
  | nil => rfl
  | cons c cs ih => simpa [replaceChars] using ih

theorem replaceChars_hit (c0 : Char) (o new rest : List Char) :
    replaceChars (c0 :: o) new 0 ((c0 :: o) ++ rest)
      = new ++ replaceChars (c0 :: o) new 0 rest := by
  have hp : (c0 :: o).isPrefixOf (c0 :: (o ++ rest)) = true :=
    List.isPrefixOf_iff_prefix.mpr (List.prefix_append (c0 :: o) rest)
  rw [List.cons_append, replaceChars, if_pos hp]
  simp only [List.length_cons, Nat.add_sub_cancel]
  rw [replaceChars_skip]

/-- One placeholder after a text without `#`, and none in the remainder. -/
theorem replaceChars_once (o new a rest : List Char) (h : Char.ofNat 35 ∉ a)
    (hrest : replaceChars (Char.ofNat 35 :: o) new 0 rest = rest) :
    replaceChars (Char.ofNat 35 :: o) new 0 (a ++ ((Char.ofNat 35 :: o) ++ rest))
      = a ++ (new ++ rest) := by
  rw [replaceChars_walk _ _ _ _ h, replaceChars_hit, hrest]

theorem digitChar_ne_hash (k : Nat) (h : k < 10) : Nat.digitChar k ≠ Char.ofNat 35 := by
  interval_cases k <;> decide

theorem toDigitsCore_no_hash (fuel n : Nat) (ds : List Char) (h : Char.ofNat 35 ∉ ds) :
    Char.ofNat 35 ∉ Nat.toDigitsCore 10 fuel n ds := by
  induction fuel generalizing n ds with
  | zero => simpa [Nat.toDigitsCore] using h
  | succ f ih =>
    have hd : Char.ofNat 35 ∉ Nat.digitChar (n % 10) :: ds := by
      simp only [List.mem_cons, not_or]
      exact ⟨fun h2 => digitChar_ne_hash (n % 10) (Nat.mod_lt _ (by decide)) h2.symm, h⟩
    simp only [Nat.toDigitsCore]
    split
    · exact hd
    · exact ih _ _ hd

theorem nat_repr_no_hash (n : Nat) : Char.ofNat 35 ∉ (Nat.repr n).data := by
  simp only [Nat.repr, Nat.toDigits, List.asString]
  exact toDigitsCore_no_hash _ _ _ (by simp)

theorem int_toString_no_hash (n : Int) : Char.ofNat 35 ∉ (toString n).data := by
  cases n with
  | ofNat m => exact nat_repr_no_hash m
  | negSucc m =>
    show Char.ofNat 35 ∉ ("-" ++ Nat.repr (m + 1)).data
    rw [String.data_append]
    simp only [List.mem_append, not_or]
    exact ⟨by decide, nat_repr_no_hash _⟩

theorem hashFree_append (s t : String) (hs : hashFree s) (ht : hashFree t) :
    hashFree (s ++ t) := by
  simp only [hashFree, String.data_append, List.mem_append, not_or]
  exact ⟨hs, ht⟩

theorem hashFree_toString (n : Int) : hashFree (toString n) := int_toString_no_hash n

theorem hashFree_intercalate_go (sep acc : String) (l : List String) (hsep : hashFree sep)
    (hacc : hashFree acc) (h : ∀ s ∈ l, hashFree s) :
    hashFree (String.intercalate.go acc sep l) := by
  induction l generalizing acc with
  | nil => simpa [String.intercalate.go] using hacc
  | cons x xs ih =>
    simp only [String.intercalate.go]
    exact ih _ (hashFree_append _ _ (hashFree_append _ _ hacc hsep) (h x (by simp)))
      (fun s hs => h s (by simp [hs]))

theorem hashFree_intercalate (sep : String) (l : List String) (hsep : hashFree sep)
    (h : ∀ s ∈ l, hashFree s) : hashFree (sep.intercalate l) := by
  cases l with
  | nil => simp [String.intercalate, hashFree]
  | cons x xs =>
    simp only [String.intercalate]
    exact hashFree_intercalate_go _ _ _ hsep (h x (by simp)) (fun s hs => h s (by simp [hs]))

theorem hashFree_filterClause (F : List String) (h : ∀ f ∈ F, hashFree f) :
    hashFree (filterClause F) := by
  refine hashFree_append _ _ (hashFree_append _ _ (by decide) ?_) (by decide)
  refine hashFree_intercalate _ _ (by decide) ?_
  intro s hs
  rcases List.mem_append.mp hs with h1 | h1
  · exact h s h1
  · simp only [List.mem_singleton] at h1
    subst h1
    decide

/-- One occurrence of `old`, which begins with `#`, after a text without `#`, and
none in the remainder. -/
theorem Replace_once (old new A R : String) (o : List Char)
    (hd : old.data = Char.ofNat 35 :: o) (hA : hashFree A)
    (hR : replaceChars old.data new.data 0 R.data = R.data) :
    Replace (A ++ old ++ R) old new = A ++ new ++ R := by
  have hne : old ≠ "" := by
    intro h
    have h2 := congrArg String.data h
    rw [hd] at h2
    simp at h2
  apply String.ext
  rw [Replace, if_neg hne]
  simp only [String.data_append]
  rw [hd] at hR ⊢
  rw [List.append_assoc, List.append_assoc]
  exact replaceChars_once _ _ _ _ hA hR

/-- One placeholder after a text without `#`, and none in the remainder: the round
of `generate` for the key puts the value in its place. -/
theorem Replace_placeholder (key new A R : String) (hA : hashFree A)
    (hR : replaceChars ("#\x7b" ++ key ++ "\x7d").data new.data 0 R.data = R.data) :
    Replace (A ++ ("#\x7b" ++ key ++ "\x7d") ++ R) ("#\x7b" ++ key ++ "\x7d") new
      = A ++ new ++ R :=
  Replace_once _ new A R (Char.ofNat 123 :: (key.data ++ [Char.ofNat 125]))
    (by simp [String.data_append]) hA hR

theorem executeWrites_nil (q : query) (a : auth) :
    q.executeWrites a []
      = [("tag", Value.int q.Schema.Tag),
         ("sorting", Value.str ("order" ++ q.SortOrder ++ ": " ++ q.SortKey)),
         ("take", Value.str (if q.TakeCount > 0 then ", first: " ++ toString q.TakeCount else "")),
         ("filter", Value.str (filterClause q.Filters)),
         ("body", Value.str (q.Schema.Build a))] := by
  by_cases h : q.TakeCount > 0 <;>
    simp [query.executeWrites, GoMap.store, keyExists, GoMap.find, filterClause, h]

/-- The rounds of `generate` on the template of `BuildQuery`, for the arguments
`Execute` binds in an empty map. -/
theorem generate_standard (t : Int) (S K F B : String) (hS : hashFree S)
    (hK : hashFree K) (hF : hashFree F) :
    [("tag", Value.int t), ("sorting", Value.str S), ("take", Value.str K),
        ("filter", Value.str F), ("body", Value.str B)].foldl query.substitute qAll
      = "\n\t\x7b\n\t\tq(func: eq(tag, " ++ toString t ++ "), " ++ S ++ K ++ ") " ++ F ++ " \x7b "
          ++ B ++ " \x7d\n\t\x7d" := by
  simp only [List.foldl, query.substitute, query.argText]
  have hT : hashFree (toString t) := hashFree_toString t
  generalize toString t = T at hT ⊢
  have e1 : qAll = "\n\t\x7b\n\t\tq(func: eq(tag, " ++ ("#\x7b" ++ "tag" ++ "\x7d")
      ++ "), #\x7bsorting\x7d#\x7btake\x7d) #\x7bfilter\x7d \x7b #\x7bbody\x7d \x7d\n\t\x7d" := by
    decide
  have e2 : "\n\t\x7b\n\t\tq(func: eq(tag, " ++ T
        ++ "), #\x7bsorting\x7d#\x7btake\x7d) #\x7bfilter\x7d \x7b #\x7bbody\x7d \x7d\n\t\x7d"
      = ("\n\t\x7b\n\t\tq(func: eq(tag, " ++ T ++ "), ") ++ ("#\x7b" ++ "sorting" ++ "\x7d")
        ++ "#\x7btake\x7d) #\x7bfilter\x7d \x7b #\x7bbody\x7d \x7d\n\t\x7d" := by
    have e : "), #\x7bsorting\x7d#\x7btake\x7d) #\x7bfilter\x7d \x7b #\x7bbody\x7d \x7d\n\t\x7d"
        = "), " ++ (("#\x7b" ++ "sorting" ++ "\x7d")
          ++ "#\x7btake\x7d) #\x7bfilter\x7d \x7b #\x7bbody\x7d \x7d\n\t\x7d") := by decide
    rw [e]
    simp only [String.append_assoc]
  have e3 : "\n\t\x7b\n\t\tq(func: eq(tag, " ++ T ++ "), " ++ S
        ++ "#\x7btake\x7d) #\x7bfilter\x7d \x7b #\x7bbody\x7d \x7d\n\t\x7d"
      = ("\n\t\x7b\n\t\tq(func: eq(tag, " ++ T ++ "), " ++ S) ++ ("#\x7b" ++ "take" ++ "\x7d")
        ++ ") #\x7bfilter\x7d \x7b #\x7bbody\x7d \x7d\n\t\x7d" := by
    have e : "#\x7btake\x7d) #\x7bfilter\x7d \x7b #\x7bbody\x7d \x7d\n\t\x7d"
        = ("#\x7b" ++ "take" ++ "\x7d") ++ ") #\x7bfilter\x7d \x7b #\x7bbody\x7d \x7d\n\t\x7d" := by
      decide
    rw [e]
    simp only [String.append_assoc]
  have e4 : "\n\t\x7b\n\t\tq(func: eq(tag, " ++ T ++ "), " ++ S ++ K
        ++ ") #\x7bfilter\x7d \x7b #\x7bbody\x7d \x7d\n\t\x7d"
      = ("\n\t\x7b\n\t\tq(func: eq(tag, " ++ T ++ "), " ++ S ++ K ++ ") ")
        ++ ("#\x7b" ++ "filter" ++ "\x7d") ++ " \x7b #\x7bbody\x7d \x7d\n\t\x7d" := by
    have e : ") #\x7bfilter\x7d \x7b #\x7bbody\x7d \x7d\n\t\x7d"
        = ") " ++ (("#\x7b" ++ "filter" ++ "\x7d") ++ " \x7b #\x7bbody\x7d \x7d\n\t\x7d") := by
      decide
    rw [e]
    simp only [String.append_assoc]
  have e5 : "\n\t\x7b\n\t\tq(func: eq(tag, " ++ T ++ "), " ++ S ++ K ++ ") " ++ F
        ++ " \x7b #\x7bbody\x7d \x7d\n\t\x7d"
      = ("\n\t\x7b\n\t\tq(func: eq(tag, " ++ T ++ "), " ++ S ++ K ++ ") " ++ F ++ " \x7b ")
        ++ ("#\x7b" ++ "body" ++ "\x7d") ++ " \x7d\n\t\x7d" := by
    have e : " \x7b #\x7bbody\x7d \x7d\n\t\x7d"
        = " \x7b " ++ (("#\x7b" ++ "body" ++ "\x7d") ++ " \x7d\n\t\x7d") := by decide
    rw [e]
    simp only [String.append_assoc]
  have h0 : hashFree "\n\t\x7b\n\t\tq(func: eq(tag, " := by decide
  have h1 : hashFree ("\n\t\x7b\n\t\tq(func: eq(tag, " ++ T ++ "), ") :=
    hashFree_append _ _ (hashFree_append _ _ h0 hT) (by decide)
  have h2 : hashFree ("\n\t\x7b\n\t\tq(func: eq(tag, " ++ T ++ "), " ++ S) :=
    hashFree_append _ _ h1 hS
  have h3 : hashFree ("\n\t\x7b\n\t\tq(func: eq(tag, " ++ T ++ "), " ++ S ++ K ++ ") ") :=
    hashFree_append _ _ (hashFree_append _ _ h2 hK) (by decide)
  have h4 : hashFree ("\n\t\x7b\n\t\tq(func: eq(tag, " ++ T ++ "), " ++ S ++ K ++ ") " ++ F
      ++ " \x7b ") :=
    hashFree_append _ _ (hashFree_append _ _ h3 hF) (by decide)
  rw [e1, Replace_placeholder "tag" T _ _ h0 (by rfl)]
  rw [e2, Replace_placeholder "sorting" S _ _ h1 (by rfl)]
  rw [e3, Replace_placeholder "take" K _ _ h2 (by rfl)]
  rw [e4, Replace_placeholder "filter" F _ _ h3 (by rfl)]
  rw [e5, Replace_placeholder "body" B _ _ h4 (by rfl)]

theorem closing_brace_cancel (a b rest : List Char) (ha : Char.ofNat 125 ∉ a)
    (hb : Char.ofNat 125 ∉ b)
    (h : (a ++ [Char.ofNat 125]) <+: (b ++ Char.ofNat 125 :: rest)) : a = b := by
  induction a generalizing b with
  | nil =>
    cases b with
    | nil => rfl
    | cons c cs =>
      simp only [List.nil_append, List.cons_append] at h
      have h2 := (List.cons_prefix_cons.mp h).1
      simp only [List.mem_cons, not_or] at hb
      exact absurd h2 hb.1
  | cons x xs ih =>
    simp only [List.mem_cons, not_or] at ha
    cases b with
    | nil =>
      simp only [List.nil_append, List.cons_append] at h
      have h2 := (List.cons_prefix_cons.mp h).1
      exact absurd h2.symm ha.1
    | cons c cs =>
      simp only [List.mem_cons, not_or] at hb
      simp only [List.cons_append] at h
      obtain ⟨h2, h3⟩ := List.cons_prefix_cons.mp h
      rw [h2, ih cs ha.2 hb.2 h3]

theorem placeholder_mismatch (k k2 : String) (rest : List Char) (hne : k ≠ k2)
    (h1 : Char.ofNat 125 ∉ k.data) (h2 : Char.ofNat 125 ∉ k2.data) :
    (placeholder k).isPrefixOf (placeholder k2 ++ rest) = false := by
  rw [Bool.eq_false_iff]
  intro h
  rw [List.isPrefixOf_iff_prefix] at h
  simp only [placeholder, List.cons_append, List.append_assoc] at h
  have h3 := (List.cons_prefix_cons.mp (List.cons_prefix_cons.mp h).2).2
  exact hne (String.ext (closing_brace_cancel _ _ _ h1 h2 h3))

theorem replaceChars_miss (k k2 : String) (new rest : List Char) (hne : k ≠ k2)
    (h1 : Char.ofNat 125 ∉ k.data) (h2 : Char.ofNat 125 ∉ k2.data)
    (h3 : Char.ofNat 35 ∉ k2.data) :
    replaceChars (placeholder k) new 0 (placeholder k2 ++ rest)
      = placeholder k2 ++ replaceChars (placeholder k) new 0 rest := by
  have hp := placeholder_mismatch k k2 rest hne h1 h2
  have hfree : Char.ofNat 35 ∉ Char.ofNat 123 :: (k2.data ++ [Char.ofNat 125]) := by
    simp only [List.mem_cons, List.mem_append, List.mem_singleton, not_or]
    exact ⟨by decide, h3, by decide⟩
  have hw := replaceChars_walk (Char.ofNat 123 :: (k.data ++ [Char.ofNat 125])) new
    (Char.ofNat 123 :: (k2.data ++ [Char.ofNat 125])) rest hfree
  show replaceChars (placeholder k) new 0
      (Char.ofNat 35 :: ((Char.ofNat 123 :: (k2.data ++ [Char.ofNat 125])) ++ rest)) = _
  rw [replaceChars]
  have hp2 : (placeholder k).isPrefixOf
      (Char.ofNat 35 :: ((Char.ofNat 123 :: (k2.data ++ [Char.ofNat 125])) ++ rest)) = false := hp
  rw [hp2]
  simp only [Bool.false_eq_true, if_false]
  show Char.ofNat 35 :: replaceChars (Char.ofNat 35 :: (Char.ofNat 123 :: (k.data ++ [Char.ofNat 125])))
      new 0 ((Char.ofNat 123 :: (k2.data ++ [Char.ofNat 125])) ++ rest) = _
  rw [hw]
  rfl

theorem replaceChars_placeholder_walk (k : String) (new a rest : List Char)
    (h : Char.ofNat 35 ∉ a) :
    replaceChars (placeholder k) new 0 (a ++ rest)
      = a ++ replaceChars (placeholder k) new 0 rest :=
  replaceChars_walk _ new a rest h

theorem replaceChars_placeholder_hit (k : String) (new rest : List Char) :
    replaceChars (placeholder k) new 0 (placeholder k ++ rest)
      = new ++ replaceChars (placeholder k) new 0 rest :=
  replaceChars_hit _ _ new rest

theorem replaceChars_placeholder_tail (k : String) (new tail : List Char)
    (h : Char.ofNat 35 ∉ tail) : replaceChars (placeholder k) new 0 tail = tail := by
  have h2 := replaceChars_placeholder_walk k new tail [] h
  simpa [replaceChars] using h2

theorem hole_bind_self (s : String → Option (List Char)) (k : String) (v : List Char) :
    hole (withBound s k v) k = v := by
  simp [hole, withBound]

theorem hole_bind_other (s : String → Option (List Char)) (k k2 : String) (v : List Char)
    (h : k2 ≠ k) : hole (withBound s k v) k2 = hole s k2 := by
  simp [hole, withBound, h]

/-- One round of `generate` on a rendered template: the key gets bound. -/
theorem replaceChars_render (s : String → Option (List Char)) (k : String)
    (v tail : List Char) (tpl : List (List Char × String))
    (hk : s k = none) (hkc : Char.ofNat 125 ∉ k.data)
    (htpl : ∀ p ∈ tpl,
      Char.ofNat 35 ∉ p.1 ∧ Char.ofNat 35 ∉ p.2.data ∧ Char.ofNat 125 ∉ p.2.data)
    (hs : ∀ k2 w, s k2 = some w → Char.ofNat 35 ∉ w)
    (htail : Char.ofNat 35 ∉ tail) :
    replaceChars (placeholder k) v 0 (render s tpl ++ tail)
      = render (withBound s k v) tpl ++ tail := by
  induction tpl with
  | nil =>
    simp only [render, List.nil_append]
    exact replaceChars_placeholder_tail k v tail htail
  | cons p rest ih =>
    obtain ⟨l, k2⟩ := p
    have hp := htpl (l, k2) (List.mem_cons_self _ _)
    have ih2 := ih (fun p hp => htpl p (List.mem_cons_of_mem _ hp))
    simp only [render, List.append_assoc]
    rw [replaceChars_placeholder_walk k v l _ hp.1]
    congr 1
    by_cases hkk : k2 = k
    · subst hkk
      have h1 : hole s k2 = placeholder k2 := by simp [hole, hk]
      rw [h1, hole_bind_self, replaceChars_placeholder_hit, ih2]
    · rw [hole_bind_other _ _ _ _ hkk]
      cases hs2 : s k2 with
      | none =>
        have h1 : hole s k2 = placeholder k2 := by simp [hole, hs2]
        have hne : k ≠ k2 := fun h => hkk h.symm
        rw [h1, replaceChars_miss k k2 v _ hne hkc hp.2.2 hp.2.1, ih2]
      | some w =>
        have h1 : hole s k2 = w := by simp [hole, hs2]
        rw [h1, replaceChars_placeholder_walk k v w _ (hs k2 w hs2), ih2]

theorem substitute_data (text : String) (k : String) (val : Value) :
    (query.substitute text (k, val)).data
      = replaceChars (placeholder k) (query.argText val).data 0 text.data := by
  have hd : ("#\x7b" ++ k ++ "\x7d").data = placeholder k := by
    simp [String.data_append, placeholder]
  have hne : ("#\x7b" ++ k ++ "\x7d") ≠ "" := by
    intro h
    have h2 := congrArg String.data h
    rw [hd] at h2
    simp [placeholder] at h2
  simp only [query.substitute, Replace, if_neg hne, hd]

/-- The rounds of `generate` over entries with distinct keys, none bound yet. -/
theorem foldl_substitute_render (tpl : List (List Char × String)) (tail : List Char)
    (order : GoMap Value) (s : String → Option (List Char))
    (hnodup : (GoMap.keys order).Nodup)
    (hfresh : ∀ p ∈ order, s p.1 = none)
    (hkeys : ∀ p ∈ order, Char.ofNat 125 ∉ p.1.data)
    (hvals : ∀ p ∈ order, hashFree (query.argText p.2))
    (htpl : ∀ p ∈ tpl,
      Char.ofNat 35 ∉ p.1 ∧ Char.ofNat 35 ∉ p.2.data ∧ Char.ofNat 125 ∉ p.2.data)
    (hs : ∀ k2 w, s k2 = some w → Char.ofNat 35 ∉ w)
    (htail : Char.ofNat 35 ∉ tail) :
    order.foldl query.substitute (String.mk (render s tpl ++ tail))
      = String.mk (render (bindAll s order) tpl ++ tail) := by
  induction order generalizing s with
  | nil => rfl
  | cons p rest ih =>
    obtain ⟨k, val⟩ := p
    simp only [GoMap.keys, List.map_cons, List.nodup_cons] at hnodup
    have hstep : query.substitute (String.mk (render s tpl ++ tail)) (k, val)
        = String.mk (render (withBound s k (query.argText val).data) tpl ++ tail) := by
      apply String.ext
      rw [substitute_data]
      exact replaceChars_render s k _ tail tpl (hfresh (k, val) (List.mem_cons_self _ _))
        (hkeys (k, val) (List.mem_cons_self _ _)) htpl hs htail
    simp only [List.foldl_cons, bindAll]
    rw [hstep]
    refine ih (withBound s k (query.argText val).data) hnodup.2 ?_ ?_ ?_ ?_
    · intro p hp
      have hne : p.1 ≠ k := by
        intro h
        apply hnodup.1
        rw [← h]
        exact List.mem_map.mpr ⟨p, hp, rfl⟩
      simp only [withBound, if_neg hne]
      exact hfresh p (List.mem_cons_of_mem _ hp)
    · exact fun p hp => hkeys p (List.mem_cons_of_mem _ hp)
    · exact fun p hp => hvals p (List.mem_cons_of_mem _ hp)
    · intro k2 w hw
      by_cases h2 : k2 = k
      · simp only [withBound, if_pos h2, Option.some.injEq] at hw
        rw [← hw]
        exact hvals (k, val) (List.mem_cons_self _ _)
      · simp only [withBound, if_neg h2] at hw
        exact hs k2 w hw

theorem bindAll_not_mem (order : GoMap Value) (s : String → Option (List Char)) (k : String)
    (h : k ∉ GoMap.keys order) : bindAll s order k = s k := by
  induction order generalizing s with
  | nil => rfl
  | cons p rest ih =>
    simp only [GoMap.keys, List.map_cons, List.mem_cons, not_or] at h
    simp only [bindAll, List.foldl_cons]
    have h2 := ih (withBound s p.1 (query.argText p.2).data) h.2
    simp only [bindAll] at h2
    rw [h2]
    simp [withBound, h.1]

theorem bindAll_mem (order : GoMap Value) (s : String → Option (List Char)) (k : String)
    (val : Value) (hnodup : (GoMap.keys order).Nodup) (h : (k, val) ∈ order) :
    bindAll s order k = some (query.argText val).data := by
  induction order generalizing s with
  | nil => cases h
  | cons p rest ih =>
    simp only [GoMap.keys, List.map_cons, List.nodup_cons] at hnodup
    rcases List.mem_cons.mp h with h1 | h1
    · subst h1
      have h2 := bindAll_not_mem rest (withBound s k (query.argText val).data) k hnodup.1
      simp only [bindAll, List.foldl_cons] at h2 ⊢
      rw [h2]
      simp [withBound]
    · have h2 := ih (withBound s p.1 (query.argText p.2).data) hnodup.2 h1
      simp only [bindAll, List.foldl_cons] at h2 ⊢
      exact h2

theorem qAll_render : qAll = String.mk (render (fun _ => none) qAllTemplate ++ qAllTail) := by
  decide

/-- The rounds of `generate` on the template of `BuildQuery`, for the arguments
`Execute` binds in an empty map, in whatever order the map is ranged over. -/
theorem generate_standard_any_order (t : Int) (S K F B : String) (hS : hashFree S)
    (hK : hashFree K) (hF : hashFree F) (hB : hashFree B) (order : GoMap Value)
    (hperm : List.Perm order [("tag", Value.int t), ("sorting", Value.str S),
      ("take", Value.str K), ("filter", Value.str F), ("body", Value.str B)]) :
    order.foldl query.substitute qAll
      = "\n\t\x7b\n\t\tq(func: eq(tag, " ++ toString t ++ "), " ++ S ++ K ++ ") " ++ F ++ " \x7b "
          ++ B ++ " \x7d\n\t\x7d" := by
  have hnodup : (GoMap.keys order).Nodup :=
    (List.Perm.nodup_iff (List.Perm.map Prod.fst hperm)).mpr
      (show ["tag", "sorting", "take", "filter", "body"].Nodup by decide)
  have hmem : ∀ p ∈ order, p = ("tag", Value.int t) ∨ p = ("sorting", Value.str S)
      ∨ p = ("take", Value.str K) ∨ p = ("filter", Value.str F) ∨ p = ("body", Value.str B) := by
    intro p hp
    simpa using (List.Perm.mem_iff hperm).mp hp
  have hkeys : ∀ p ∈ order, Char.ofNat 125 ∉ p.1.data := by
    intro p hp
    rcases hmem p hp with h | h | h | h | h <;> subst h
    · exact (show Char.ofNat 125 ∉ "tag".data by decide)
    · exact (show Char.ofNat 125 ∉ "sorting".data by decide)
    · exact (show Char.ofNat 125 ∉ "take".data by decide)
    · exact (show Char.ofNat 125 ∉ "filter".data by decide)
    · exact (show Char.ofNat 125 ∉ "body".data by decide)
  have hvals : ∀ p ∈ order, hashFree (query.argText p.2) := by
    intro p hp
    rcases hmem p hp with h | h | h | h | h <;> subst h
    · exact hashFree_toString t
    · exact hS
    · exact hK
    · exact hF
    · exact hB
  have htpl : ∀ p ∈ qAllTemplate,
      Char.ofNat 35 ∉ p.1 ∧ Char.ofNat 35 ∉ p.2.data ∧ Char.ofNat 125 ∉ p.2.data := by
    decide
  rw [qAll_render, foldl_substitute_render qAllTemplate qAllTail order (fun _ => none) hnodup
    (fun _ _ => rfl) hkeys hvals htpl (fun _ _ h => by cases h) (by decide)]
  have h1 := bindAll_mem order (fun _ => none) "tag" (Value.int t) hnodup
    ((List.Perm.mem_iff hperm).mpr (by simp))
  have h2 := bindAll_mem order (fun _ => none) "sorting" (Value.str S) hnodup
    ((List.Perm.mem_iff hperm).mpr (by simp))
  have h3 := bindAll_mem order (fun _ => none) "take" (Value.str K) hnodup
    ((List.Perm.mem_iff hperm).mpr (by simp))
  have h4 := bindAll_mem order (fun _ => none) "filter" (Value.str F) hnodup
    ((List.Perm.mem_iff hperm).mpr (by simp))
  have h5 := bindAll_mem order (fun _ => none) "body" (Value.str B) hnodup
    ((List.Perm.mem_iff hperm).mpr (by simp))
  apply String.ext
  simp only [render, qAllTemplate, qAllTail, hole, h1, h2, h3, h4, h5, query.argText,
    String.data_append, List.append_assoc, List.append_nil]
  rfl

/-! ## C8: Execute -/

/-- C8 as stated fails for a builder whose argument map is nil, as `BuildRawQuery`
makes it from a nil map: the first write of `Execute`, `args["tag"] = ...`, panics,
so no query is compiled. -/
theorem Execute_panics_on_nil_arguments :
    (BuildRawQuery qAll sampleSchema none).Execute { LoginUid := "" } = none
    ∧ ((BuildRawQuery qAll sampleSchema none).Has "name").Execute { LoginUid := "" } = none := by
  refine ⟨rfl, rfl⟩

/-- C8, amended. For every builder state whose argument map is not nil, with the
accumulated filter list `F`: `Execute` reaches the call of the backend and changes
no field of the builder but the argument map, so `F` stays as it is; the map then
binds `filter` to `@filter(` + (`F` followed by `not has(deleted_at)`, joined by
` and `) + `)`; the compiled text is the base template after the rounds of
`generate` over the map, and in whatever order the map is ranged over, the round for
`filter` replaces every `#{filter}` of the text by that clause. On the template of
`BuildQuery` with an empty map, and a sort order, a sort key and filters without
`#`, the compiled text is the template with the tag, the sorting, the take clause,
that filter clause and the projection in the places of the five placeholders; when
the projection holds no `#` either, every order of the rounds compiles this text. -/
theorem Execute_filter_excludes_deleted (q : query) (a : auth) (args : GoMap Value)
    (h : q.Args = some args) :
    ∃ (q1 : query) (text : String) (args1 : GoMap Value),
      q.Execute a = some (q1, text)
      ∧ q1 = { q with Args := some args1 }
      ∧ q1.Filters = q.Filters
      ∧ args1.find "filter" = some (Value.str (filterClause q.Filters))
      ∧ text = args1.foldl query.substitute q.Base
      ∧ (∀ order : GoMap Value, List.Perm order args1 →
          ∃ pre post : GoMap Value,
            order = pre ++ ("filter", Value.str (filterClause q.Filters)) :: post
            ∧ order.foldl query.substitute q.Base
              = post.foldl query.substitute
                  (Replace (pre.foldl query.substitute q.Base) "#\x7bfilter\x7d"
                    (filterClause q.Filters)))
      ∧ (q.Base = qAll → args = [] → hashFree q.SortOrder → hashFree q.SortKey →
          (∀ f ∈ q.Filters, hashFree f) →
          text = "\n\t\x7b\n\t\tq(func: eq(tag, " ++ toString q.Schema.Tag ++ "), "
            ++ ("order" ++ q.SortOrder ++ ": " ++ q.SortKey)
            ++ (if q.TakeCount > 0 then ", first: " ++ toString q.TakeCount else "")
            ++ ") " ++ filterClause q.Filters ++ " \x7b " ++ q.Schema.Build a ++ " \x7d\n\t\x7d"
          ∧ (hashFree (q.Schema.Build a) →
              ∀ order : GoMap Value, List.Perm order args1 →
                order.foldl query.substitute q.Base = text)) := by
  have hfind : (q.executeWrites a args).find "filter"
      = some (Value.str (filterClause q.Filters)) := by
    simp only [query.executeWrites]
    rw [GoMap.find_store_ne _ _ _ _ (by decide), GoMap.find_store_self]
    rfl
  refine ⟨{ q with Args := some (q.executeWrites a args) },
    (q.executeWrites a args).foldl query.substitute q.Base, q.executeWrites a args,
    ?_, rfl, rfl, hfind, rfl, ?_, ?_⟩
  · simp [query.Execute, query.executeArgs, h, query.generate]
  · intro order hperm
    obtain ⟨pre0, post0, hsplit, _⟩ := GoMap.find_split _ _ _ hfind
    have hmem : ("filter", Value.str (filterClause q.Filters)) ∈ order := by
      rw [List.Perm.mem_iff hperm, hsplit]
      simp
    obtain ⟨pre, post, horder⟩ := List.append_of_mem hmem
    refine ⟨pre, post, horder, ?_⟩
    rw [horder, List.foldl_append, List.foldl_cons]
    rfl
  · intro hbase hargs hso hsk hF
    subst hargs
    have hS : hashFree ("order" ++ q.SortOrder ++ ": " ++ q.SortKey) :=
      hashFree_append _ _ (hashFree_append _ _ (hashFree_append _ _ (by decide) hso)
        (by decide)) hsk
    have hK : hashFree (if q.TakeCount > 0 then ", first: " ++ toString q.TakeCount else "") := by
      split
      · exact hashFree_append _ _ (by decide) (hashFree_toString _)
      · decide
    have htext := generate_standard q.Schema.Tag _ _ _ (q.Schema.Build a) hS hK
      (hashFree_filterClause _ hF)
    rw [executeWrites_nil, hbase]
    refine ⟨htext, ?_⟩
    intro hB order hperm
    rw [htext]
    exact generate_standard_any_order _ _ _ _ _ hS hK (hashFree_filterClause _ hF) hB order hperm

/-- The amended C8 on the builder `BuildQuery(sampleSchema).Has("name")`. -/
theorem Execute_filter_excludes_deleted_witness :
    ((BuildQuery sampleSchema).Has "name").Args = some []
    ∧ ∃ (q1 : query) (text : String) (args1 : GoMap Value),
      ((BuildQuery sampleSchema).Has "name").Execute { LoginUid := "" } = some (q1, text)
      ∧ q1.Filters = ["has(name)"]
      ∧ args1.find "filter" = some (Value.str "@filter(has(name) and not has(deleted_at))")
      ∧ text = "\n\t\x7b\n\t\tq(func: eq(tag, 7), orderdesc: created_at) @filter(has(name) and not has(deleted_at)) \x7b name\nuid\ncreated_at\nupdated_at\ndeleted_at \x7d\n\t\x7d"
      ∧ (∀ order : GoMap Value, List.Perm order args1 →
          order.foldl query.substitute qAll = text) := by
  refine ⟨rfl, ?_⟩
  obtain ⟨q1, text, args1, h1, _, h3, h4, _, _, h7⟩ :=
    Execute_filter_excludes_deleted ((BuildQuery sampleSchema).Has "name") { LoginUid := "" } []
      rfl
  have h8 := h7 rfl rfl (by decide) (by decide) (by decide)
  refine ⟨q1, text, args1, h1, ?_, ?_, ?_, h8.2 (by decide)⟩
  · rw [h3]
    rfl
  · rw [h4]
    rfl
  · rw [h8.1]
    decide

/-! ## C9: Where -/

/-- C9 as stated fails: a double quote inside a string value is not escaped, so
the literal in the filter ends at the embedded quote; and an integer value of a
type other than `int` (an `int64`, say) gives the empty literal, not its decimal
numeral. -/
theorem Where_does_not_escape :
    ((BuildQuery sampleSchema).Where "name" "eq" (Value.str "a\"b")).Filters
        = ["eq(name, \"a\"b\")"]
    ∧ ((BuildQuery sampleSchema).Where "name" "eq" (Value.str "a\"b")).Filters
        ≠ ["eq(name, " ++ quotedEscaped "a\"b" ++ ")"]
    ∧ quotedEscaped "a\"b" = "\"a\\\"b\""
    ∧ ((BuildQuery sampleSchema).Where "i64" "eq" (Value.other false)).Filters
        = ["eq(i64, )"] := by
  refine ⟨rfl, by decide, by decide, by decide⟩

/-- C9, amended. For every field, operator and value, `Where` appends exactly one
filter `op(field, L)` and changes nothing else, where `L` is the decimal numeral
of a value of dynamic type `int`, `true` or `false` for a value of type `bool`, for
a value of type `string` the value between two double quotes with its characters
copied as they are, and the empty text for a value of any other dynamic type. -/
theorem Where_formats_value_by_type (q : query) (field op : String) :
    (∀ value : Value, q.Where field op value
      = { q with Filters := q.Filters ++ [op ++ "(" ++ field ++ ", " ++ eval value ++ ")"] })
    ∧ (∀ n : Int, eval (Value.int n) = toString n)
    ∧ eval (Value.bool true) = "true"
    ∧ eval (Value.bool false) = "false"
    ∧ (∀ s : String, eval (Value.str s) = "\"" ++ s ++ "\"")
    ∧ (∀ zero : Bool, eval (Value.other zero) = "")
    ∧ (∀ n : Int, q.Where field op (Value.int n)
      = { q with Filters := q.Filters ++ [op ++ "(" ++ field ++ ", " ++ toString n ++ ")"] })
    ∧ q.Where field op (Value.bool true)
      = { q with Filters := q.Filters ++ [op ++ "(" ++ field ++ ", " ++ "true" ++ ")"] }
    ∧ q.Where field op (Value.bool false)
      = { q with Filters := q.Filters ++ [op ++ "(" ++ field ++ ", " ++ "false" ++ ")"] }
    ∧ (∀ s : String, q.Where field op (Value.str s)
      = { q with Filters :=
            q.Filters ++ [op ++ "(" ++ field ++ ", " ++ ("\"" ++ s ++ "\"") ++ ")"] })
    ∧ (∀ zero : Bool, q.Where field op (Value.other zero)
      = { q with Filters := q.Filters ++ [op ++ "(" ++ field ++ ", " ++ "" ++ ")"] }) :=
  ⟨fun _ => rfl, fun _ => rfl, rfl, rfl, fun _ => rfl, fun _ => rfl,
    fun _ => rfl, rfl, rfl, fun _ => rfl, fun _ => rfl⟩

/-! ## Lemmas on `Decode` -/

theorem decodeBooleans_find_absent (bs : GoMap Boolean) (hash : QueryData) (name : String)
    (h : bs.find name = none) : (decodeBooleans bs hash).find name = hash.find name := by
  induction bs generalizing hash with
  | nil => rfl
  | cons p rest ih =>
    obtain ⟨n, b⟩ := p
    by_cases hn : n = name
    · simp [GoMap.find, hn] at h
    · simp only [GoMap.find, hn, if_false] at h
      simp only [decodeBooleans]
      rw [ih _ h, GoMap.find_store_ne _ _ _ _ hn]

/-- What one round of the relation loop of `Decode` can have done when the loop
as a whole returns a record. -/
theorem decodeRelations_step (name : String) (r : RelationSchema Schema)
    (rest : List (String × RelationSchema Schema)) (hash d : QueryData)
    (h : decodeRelations ((name, r) :: rest) hash = some d) :
    (r.Include = false ∧ decodeRelations rest hash = some d)
    ∨ (r.Include = true ∧ hash.find name = none ∧ r.HasMany = true
        ∧ decodeRelations rest (hash.store name (Raw.arr [])) = some d)
    ∨ (r.Include = true ∧ hash.find name = none ∧ r.HasMany = false
        ∧ decodeRelations rest hash = some d)
    ∨ (r.Include = true ∧ r.HasMany = true ∧ ∃ children res,
        hash.find name = some (Raw.arr children)
        ∧ children.mapM (fun child => (Schema.Decode (r.SchemaFunc ()) child).map Raw.obj)
            = some res
        ∧ decodeRelations rest (hash.store name (Raw.arr res)) = some d)
    ∨ (r.Include = true ∧ r.HasMany = false ∧ ∃ child cs dd,
        hash.find name = some (Raw.arr (child :: cs))
        ∧ Schema.Decode (r.SchemaFunc ()) child = some dd
        ∧ decodeRelations rest (hash.store name (Raw.obj dd)) = some d) := by
  rw [decodeRelations] at h
  cases hinc : r.Include with
  | false =>
    left
    simp only [hinc] at h
    exact ⟨rfl, h⟩
  | true =>
    right
    simp only [hinc, if_true] at h
    cases hfind : hash.find name with
    | none =>
      simp only [hfind] at h
      cases hmany : r.HasMany with
      | true =>
        left
        simp only [hmany, if_true] at h
        exact ⟨rfl, rfl, rfl, h⟩
      | false =>
        right
        left
        simp only [hmany] at h
        exact ⟨rfl, rfl, rfl, h⟩
    | some v =>
      right
      right
      simp only [hfind] at h
      cases v with
      | arr children =>
        simp only at h
        cases hmany : r.HasMany with
        | true =>
          left
          simp only [hmany, if_true] at h
          cases hres : children.mapM
              (fun child => (Schema.Decode (r.SchemaFunc ()) child).map Raw.obj) with
          | none =>
            simp only [hres] at h
            cases h
          | some res =>
            simp only [hres] at h
            exact ⟨rfl, rfl, children, res, rfl, hres, h⟩
        | false =>
          right
          simp only [hmany] at h
          cases children with
          | nil => cases h
          | cons child cs =>
            simp only at h
            cases hdec : Schema.Decode (r.SchemaFunc ()) child with
            | none =>
              simp only [hdec] at h
              cases h
            | some dd =>
              simp only [hdec] at h
              exact ⟨rfl, rfl, child, cs, dd, rfl, hdec, h⟩
      | null => cases h
      | bool b => cases h
      | num n => cases h
      | str s => cases h
      | obj kvs => cases h

theorem decodeRelations_keeps_empty (name : String)
    (rels : List (String × RelationSchema Schema)) (hash d : QueryData)
    (h : decodeRelations rels hash = some d) (hf : hash.find name = some (Raw.arr [])) :
    d.find name = some (Raw.arr []) := by
  induction rels generalizing hash with
  | nil =>
    rw [decodeRelations] at h
    cases h
    exact hf
  | cons p rest ih =>
    obtain ⟨n2, r2⟩ := p
    rcases decodeRelations_step n2 r2 rest hash d h with
      ⟨_, h1⟩ | ⟨_, _, _, h1⟩ | ⟨_, _, _, h1⟩ | ⟨_, _, children, res, hc, hm, h1⟩
        | ⟨_, _, child, cs, dd, hc, _, h1⟩
    · exact ih hash h1 hf
    · refine ih _ h1 ?_
      rw [GoMap.find_store]
      by_cases hn : n2 = name <;> simp [hn, hf]
    · exact ih hash h1 hf
    · refine ih _ h1 ?_
      rw [GoMap.find_store]
      by_cases hn : n2 = name
      · subst hn
        rw [hf] at hc
        cases hc
        cases hm
        simp
      · simp [hn, hf]
    · refine ih _ h1 ?_
      rw [GoMap.find_store]
      by_cases hn : n2 = name
      · subst hn
        rw [hf] at hc
        cases hc
      · simp [hn, hf]

theorem decodeRelations_absent_many (name : String) (r : RelationSchema Schema)
    (rels : List (String × RelationSchema Schema)) (hash d : QueryData)
    (h : decodeRelations rels hash = some d) (hmem : (name, r) ∈ rels)
    (hinc : r.Include = true) (hmany : r.HasMany = true) (hf : hash.find name = none) :
    d.find name = some (Raw.arr []) := by
  induction rels generalizing hash with
  | nil => cases hmem
  | cons p rest ih =>
    obtain ⟨n2, r2⟩ := p
    by_cases hhead : (name, r) = (n2, r2)
    · cases hhead
      rcases decodeRelations_step name r rest hash d h with
        ⟨h0, _⟩ | ⟨_, _, _, h1⟩ | ⟨_, _, h0, _⟩ | ⟨_, _, children, res, hc, _, _⟩
          | ⟨_, _, child, cs, dd, hc, _, _⟩
      · rw [hinc] at h0
        cases h0
      · exact decodeRelations_keeps_empty name rest _ d h1 (GoMap.find_store_self _ _ _)
      · rw [hmany] at h0
        cases h0
      · rw [hf] at hc
        cases hc
      · rw [hf] at hc
        cases hc
    · have hrest : (name, r) ∈ rest := by
        rcases List.mem_cons.mp hmem with h2 | h2
        · exact absurd h2 hhead
        · exact h2
      by_cases hn : n2 = name
      · subst hn
        rcases decodeRelations_step n2 r2 rest hash d h with
          ⟨_, h1⟩ | ⟨_, _, _, h1⟩ | ⟨_, _, _, h1⟩ | ⟨_, _, children, res, hc, _, _⟩
            | ⟨_, _, child, cs, dd, hc, _, _⟩
        · exact ih hash h1 hrest hf
        · exact decodeRelations_keeps_empty n2 rest _ d h1 (GoMap.find_store_self _ _ _)
        · exact ih hash h1 hrest hf
        · rw [hf] at hc
          cases hc
        · rw [hf] at hc
          cases hc
      · rcases decodeRelations_step n2 r2 rest hash d h with
          ⟨_, h1⟩ | ⟨_, _, _, h1⟩ | ⟨_, _, _, h1⟩ | ⟨_, _, children, res, _, _, h1⟩
            | ⟨_, _, child, cs, dd, _, _, h1⟩
        · exact ih hash h1 hrest hf
        · exact ih _ h1 hrest (by rw [GoMap.find_store_ne _ _ _ _ hn]; exact hf)
        · exact ih hash h1 hrest hf
        · exact ih _ h1 hrest (by rw [GoMap.find_store_ne _ _ _ _ hn]; exact hf)
        · exact ih _ h1 hrest (by rw [GoMap.find_store_ne _ _ _ _ hn]; exact hf)

theorem decodeRelations_absent_one (name : String)
    (rels : List (String × RelationSchema Schema)) (hash d : QueryData)
    (h : decodeRelations rels hash = some d)
    (hone : ∀ p ∈ rels, p.1 = name → p.2.HasMany = false) (hf : hash.find name = none) :
    d.find name = none := by
  induction rels generalizing hash with
  | nil =>
    rw [decodeRelations] at h
    cases h
    exact hf
  | cons p rest ih =>
    obtain ⟨n2, r2⟩ := p
    have hone2 : ∀ p ∈ rest, p.1 = name → p.2.HasMany = false :=
      fun p hp => hone p (List.mem_cons_of_mem _ hp)
    by_cases hn : n2 = name
    · subst hn
      have hr2 : r2.HasMany = false := hone (n2, r2) (List.mem_cons_self _ _) rfl
      rcases decodeRelations_step n2 r2 rest hash d h with
        ⟨_, h1⟩ | ⟨_, _, h0, _⟩ | ⟨_, _, _, h1⟩ | ⟨_, h0, _⟩ | ⟨_, _, child, cs, dd, hc, _, _⟩
      · exact ih hash h1 hone2 hf
      · rw [hr2] at h0
        cases h0
      · exact ih hash h1 hone2 hf
      · rw [hr2] at h0
        cases h0
      · rw [hf] at hc
        cases hc
    · rcases decodeRelations_step n2 r2 rest hash d h with
        ⟨_, h1⟩ | ⟨_, _, _, h1⟩ | ⟨_, _, _, h1⟩ | ⟨_, _, children, res, _, _, h1⟩
          | ⟨_, _, child, cs, dd, _, _, h1⟩
      · exact ih hash h1 hone2 hf
      · exact ih _ h1 hone2 (by rw [GoMap.find_store_ne _ _ _ _ hn]; exact hf)
      · exact ih hash h1 hone2 hf
      · exact ih _ h1 hone2 (by rw [GoMap.find_store_ne _ _ _ _ hn]; exact hf)
      · exact ih _ h1 hone2 (by rw [GoMap.find_store_ne _ _ _ _ hn]; exact hf)

theorem decodeBooleans_keeps_bool (bs : GoMap Boolean) (hash : QueryData) (name : String)
    (h : ∃ v, hash.find name = some (Raw.bool v)) :
    ∃ v, (decodeBooleans bs hash).find name = some (Raw.bool v) := by
  induction bs generalizing hash with
  | nil => exact h
  | cons p rest ih =>
    obtain ⟨n, b⟩ := p
    simp only [decodeBooleans]
    apply ih
    rw [GoMap.find_store]
    by_cases hn : n = name
    · exact ⟨(hash.find n).isSome, by simp [hn]⟩
    · obtain ⟨v, hv⟩ := h
      exact ⟨v, by simp [hn, hv]⟩

theorem decodeBooleans_find_present (bs : GoMap Boolean) (hash : QueryData) (name : String)
    (b : Boolean) (h : bs.find name = some b) :
    ∃ v, (decodeBooleans bs hash).find name = some (Raw.bool v) := by
  induction bs generalizing hash with
  | nil => cases h
  | cons p rest ih =>
    obtain ⟨n, b0⟩ := p
    by_cases hn : n = name
    · simp only [decodeBooleans]
      apply decodeBooleans_keeps_bool
      exact ⟨_, by rw [hn]; exact GoMap.find_store_self _ _ _⟩
    · simp only [GoMap.find, hn, if_false] at h
      simp only [decodeBooleans]
      exact ih _ h

theorem decodeRelations_bool_panics (name : String) (r : RelationSchema Schema)
    (rels : List (String × RelationSchema Schema)) (hash d : QueryData) (v : Bool)
    (h : decodeRelations rels hash = some d) (hf : hash.find name = some (Raw.bool v))
    (hmem : (name, r) ∈ rels) (hinc : r.Include = true) : False := by
  induction rels generalizing hash with
  | nil => cases hmem
  | cons p rest ih =>
    obtain ⟨n2, r2⟩ := p
    by_cases hn : n2 = name
    · subst hn
      rcases decodeRelations_step n2 r2 rest hash d h with
        ⟨h0, h1⟩ | ⟨_, hc, _, _⟩ | ⟨_, hc, _, _⟩ | ⟨_, _, children, res, hc, _, _⟩
          | ⟨_, _, child, cs, dd, hc, _, _⟩
      · rcases List.mem_cons.mp hmem with h2 | h2
        · cases h2
          rw [hinc] at h0
          cases h0
        · exact ih hash h1 hf h2
      · rw [hf] at hc
        cases hc
      · rw [hf] at hc
        cases hc
      · rw [hf] at hc
        cases hc
      · rw [hf] at hc
        cases hc
    · have hrest : (name, r) ∈ rest := by
        rcases List.mem_cons.mp hmem with h2 | h2
        · cases h2
          exact absurd rfl hn
        · exact h2
      rcases decodeRelations_step n2 r2 rest hash d h with
        ⟨_, h1⟩ | ⟨_, _, _, h1⟩ | ⟨_, _, _, h1⟩ | ⟨_, _, children, res, _, _, h1⟩
          | ⟨_, _, child, cs, dd, _, _, h1⟩
      · exact ih hash h1 hf hrest
      · exact ih _ h1 (by rw [GoMap.find_store_ne _ _ _ _ hn]; exact hf) hrest
      · exact ih hash h1 hf hrest
      · exact ih _ h1 (by rw [GoMap.find_store_ne _ _ _ _ hn]; exact hf) hrest
      · exact ih _ h1 (by rw [GoMap.find_store_ne _ _ _ _ hn]; exact hf) hrest

theorem keys_nodup_unique {β : Type} (m : GoMap β) (k : String) (a b : β)
    (hnd : m.keys.Nodup) (ha : (k, a) ∈ m) (hb : (k, b) ∈ m) : a = b := by
  induction m with
  | nil => cases ha
  | cons p rest ih =>
    simp only [GoMap.keys, List.map_cons, List.nodup_cons] at hnd
    have hkey : ∀ c, (k, c) ∈ rest → k ∈ List.map Prod.fst rest :=
      fun c hc => List.mem_map.mpr ⟨(k, c), hc, rfl⟩
    rcases List.mem_cons.mp ha with h1 | h1 <;> rcases List.mem_cons.mp hb with h2 | h2
    · rw [← h1] at h2
      cases h2
      rfl
    · rw [← h1] at hnd
      exact absurd (hkey b h2) hnd.1
    · rw [← h2] at hnd
      exact absurd (hkey a h1) hnd.1
    · exact ih hnd.2 h1 h2

/-! ## C10: relations absent from the decoded node -/

/-- C10 as stated fails: the many-cardinality relation `friends` is not marked for
inclusion, and its key stays absent from the decoded record; the one-cardinality
relation `pal` shares its name with a boolean edge, and its key is present. -/
theorem Decode_skips_excluded_relation :
    excludedSchema.Decode (Raw.obj [("name", Raw.str "A")])
        = some [("name", Raw.str "A"), ("pal", Raw.bool false)]
    ∧ GoMap.find [("name", Raw.str "A"), ("pal", Raw.bool false)] "friends" = none
    ∧ GoMap.find [("name", Raw.str "A"), ("pal", Raw.bool false)] "pal"
        = some (Raw.bool false) :=
  ⟨rfl, rfl, rfl⟩

/-- C10, amended. Let `name` be a relation declared in the schema whose key is
absent from the raw node, and let `Decode` return the record `d`. If the relation
is many-cardinality and marked for inclusion, `d` maps `name` to the empty
sequence. If it is one-cardinality and `name` is not also a declared boolean edge
(the relation names being distinct, as the keys of a map are), `name` is absent
from `d`. -/
theorem Decode_absent_relation (schema : Schema) (hash d : QueryData) (name : String)
    (r : RelationSchema Schema) (hmem : (name, r) ∈ schema.Relations)
    (habs : hash.find name = none) (hdec : schema.Decode (Raw.obj hash) = some d) :
    (r.HasMany = true → r.Include = true → d.find name = some (Raw.arr []))
    ∧ (r.HasMany = false → (GoMap.keys schema.Relations).Nodup →
        schema.Booleans.find name = none → d.find name = none) := by
  cases schema with
  | mk tag fields booleans relations =>
    rw [Schema.Decode] at hdec
    simp only [Schema.Relations, Schema.Booleans] at *
    constructor
    · intro hmany hinc
      cases hb : booleans.find name with
      | none =>
        have hfind := decodeBooleans_find_absent booleans hash name hb
        rw [habs] at hfind
        exact decodeRelations_absent_many name r relations _ d hdec hmem hinc hmany hfind
      | some b =>
        obtain ⟨v, hv⟩ := decodeBooleans_find_present booleans hash name b hb
        exact absurd (decodeRelations_bool_panics name r relations _ d v hdec hv hmem hinc)
          not_false
    · intro hone hnd hb
      have hfind := decodeBooleans_find_absent booleans hash name hb
      rw [habs] at hfind
      refine decodeRelations_absent_one name relations _ d hdec ?_ hfind
      intro p hp hpn
      obtain ⟨n2, r2⟩ := p
      simp only at hpn
      subst hpn
      rw [keys_nodup_unique relations n2 r2 r hnd hp hmem]
      exact hone

/-- C10, amended, on a node without the key `friends`: the included
many-cardinality relation decodes to the empty sequence. -/
theorem Decode_absent_relation_witness :
    includedSchema.Decode (Raw.obj [("name", Raw.str "A")])
        = some [("name", Raw.str "A"), ("friends", Raw.arr [])]
    ∧ GoMap.find [("name", Raw.str "A"), ("friends", Raw.arr [])] "friends"
        = some (Raw.arr []) :=
  ⟨rfl,
   (Decode_absent_relation includedSchema [("name", Raw.str "A")]
      [("name", Raw.str "A"), ("friends", Raw.arr [])] "friends"
      { Edge := "friend", HasMany := true, Include := true, IncludeOptions := "",
        CountField := "", Facets := [], SchemaFunc := fun _ => EmptySchema }
      (List.mem_cons_self _ _) rfl rfl).1 rfl rfl⟩

/-! ## C13: field resolution of the relation builder -/

/-- C13. On a relation builder, `Where` on a declared facet with backing edge `e`
appends `op(e, L)` to the facet-filter list and changes nothing else, so the
scalar filter list is as before; on any other field it appends `op(field, L)` to
the scalar filter list and changes nothing else; and after `SetSortOption` the
facet-sorted flag holds exactly when the key is a declared facet. -/
theorem relation_Where_resolves_facets (r : relation) (field op : String) (value : Value) :
    (∀ facet : Facet, r.RelationSchema.Facets.find field = some facet →
      r.Where field op value
        = { r with FacetsFilter :=
              r.FacetsFilter ++ [op ++ "(" ++ facet.Edge ++ ", " ++ eval value ++ ")"] })
    ∧ (r.RelationSchema.Facets.find field = none →
      r.Where field op value
        = { r with query := { r.query with Filters :=
              r.query.Filters ++ [op ++ "(" ++ field ++ ", " ++ eval value ++ ")"] } })
    ∧ (∀ key order : String, (r.SetSortOption key order).SortedByFacet = true
        ↔ (r.RelationSchema.Facets.find key).isSome = true) := by
  refine ⟨?_, ?_, ?_⟩
  · intro facet h
    simp only [relation.Where, h]
  · intro h
    simp only [relation.Where, h, query.Where]
  · intro key order
    simp [relation.SetSortOption]

/-- C13 on the sample relation: a filter on the facet `since` goes to the
facet-filter list on the edge `since_at`, a filter on `age` to the scalar list. -/
theorem relation_Where_resolves_facets_witness :
    ((BuildRelation (some 0) "0x1" friendRelation).Where "since" "ge" (Value.int 3)).FacetsFilter
        = ["ge(since_at, 3)"]
    ∧ ((BuildRelation (some 0) "0x1" friendRelation).Where "since" "ge"
        (Value.int 3)).query.Filters = []
    ∧ ((BuildRelation (some 0) "0x1" friendRelation).Where "age" "ge" (Value.int 3)).query.Filters
        = ["ge(age, 3)"] := by
  have h := relation_Where_resolves_facets (BuildRelation (some 0) "0x1" friendRelation)
    "since" "ge" (Value.int 3)
  have h2 := relation_Where_resolves_facets (BuildRelation (some 0) "0x1" friendRelation)
    "age" "ge" (Value.int 3)
  refine ⟨?_, ?_, ?_⟩
  · rw [h.1 { Edge := "since_at" } rfl]
    rfl
  · rw [h.1 { Edge := "since_at" } rfl]
    rfl
  · rw [h2.2.1 rfl]
    rfl

/-! ## C12: Build on a schema without relations -/

theorem replaceChars_eq_nil (old new s : List Char) (hnew : new ≠ []) :
    replaceChars old new 0 s = [] ↔ s = [] := by
  cases s with
  | nil => simp [replaceChars]
  | cons c cs =>
    by_cases hp : old.isPrefixOf (c :: cs) = true <;> simp [replaceChars, hp, hnew]

theorem Replace_eq_empty (s old new : String) (hold : old ≠ "") (hnew : new ≠ "") :
    Replace s old new = "" ↔ s = "" := by
  have hnd : new.data ≠ [] := fun h => hnew (String.ext h)
  simp only [Replace, hold, if_false]
  constructor
  · intro h
    have h2 := congrArg String.data h
    exact String.ext ((replaceChars_eq_nil old.data new.data s.data hnd).mp h2)
  · intro h
    apply String.ext
    rw [h]
    exact (replaceChars_eq_nil old.data new.data [] hnd).mpr rfl

theorem buildBooleans_logged_out (a : auth) (booleans : GoMap Boolean)
    (h : a.IsLogin = false) : buildBooleans a booleans = [] := by
  induction booleans with
  | nil => rfl
  | cons p rest ih =>
    obtain ⟨name, b⟩ := p
    simp [buildBooleans, h, ih]

theorem buildBooleans_logged_in (a : auth) (booleans : GoMap Boolean)
    (h : a.IsLogin = true) : buildBooleans a booleans = booleanLines a.LoginUid booleans := by
  have huid : a.LoginUid ≠ "" := by simpa [auth.IsLogin] using h
  induction booleans with
  | nil => rfl
  | cons p rest ih =>
    obtain ⟨name, b⟩ := p
    have hempty := Replace_eq_empty b.Filter "#\x7blogin_uid\x7d" a.LoginUid (by decide) huid
    simp only [buildBooleans, h, if_true, auth.GetLoginUid, ih, booleanLines, List.map_cons,
      ne_eq]
    by_cases hf : b.Filter = ""
    · have h2 : Replace b.Filter "#\x7blogin_uid\x7d" a.LoginUid = "" := hempty.mpr hf
      rw [if_neg (not_not.mpr h2), if_pos hf]
    · have h2 : ¬ Replace b.Filter "#\x7blogin_uid\x7d" a.LoginUid = "" :=
        fun h3 => hf (hempty.mp h3)
      rw [if_pos h2, if_neg hf]

/-- C12. For a schema without relations: when no session is logged in, `Build`
returns the declared fields in order followed by `uid`, `created_at`, `updated_at`,
`deleted_at`, joined by newlines, and nothing for the boolean edges; when a session
is logged in it returns these followed by one line per declared boolean edge,
`name: edge @filter(F) { uid }` with `F` the filter template in which every
`#{login_uid}` is replaced by the login identifier, or `name: edge { uid }` when
the template is empty. -/
theorem Build_projects_fields_and_booleans (a : auth) (schema : Schema)
    (h : schema.Relations = []) :
    (a.IsLogin = false →
      schema.Build a = "\n".intercalate
        (schema.Fields ++ ["uid", "created_at", "updated_at", "deleted_at"]))
    ∧ (a.IsLogin = true →
      schema.Build a = "\n".intercalate
        (schema.Fields ++ ["uid", "created_at", "updated_at", "deleted_at"]
          ++ booleanLines a.LoginUid schema.Booleans)) := by
  cases schema with
  | mk tag fields booleans relations =>
    simp only [Schema.Relations] at h
    subst h
    constructor
    · intro hl
      rw [Schema.Build, buildRelations, buildBooleans_logged_out a booleans hl]
      simp [Schema.Fields]
    · intro hl
      rw [Schema.Build, buildRelations, buildBooleans_logged_in a booleans hl]
      simp [Schema.Fields, Schema.Booleans]

/-- C12 on a schema with two boolean edges: nothing for them when logged out, one
line each when the login identifier is `0x9`. -/
theorem Build_projects_fields_and_booleans_witness :
    booleanSchema.Build { LoginUid := "" } = "name\nage\nuid\ncreated_at\nupdated_at\ndeleted_at"
    ∧ booleanSchema.Build { LoginUid := "0x9" }
        = "name\nage\nuid\ncreated_at\nupdated_at\ndeleted_at\n"
          ++ "liked: like @filter(uid(0x9)) \x7b uid \x7d\nseen: view \x7b uid \x7d" := by
  have h := Build_projects_fields_and_booleans { LoginUid := "" } booleanSchema rfl
  have h2 := Build_projects_fields_and_booleans { LoginUid := "0x9" } booleanSchema rfl
  refine ⟨?_, ?_⟩
  · rw [h.1 rfl]
    decide
  · rw [h2.2 rfl]
    decide

/-! ## C11: boolean edges and missing relation data -/

theorem GoMap.find_none_of_not_mem_keys {β : Type} (m : GoMap β) (k : String)
    (h : k ∉ m.keys) : m.find k = none := by
  induction m with
  | nil => rfl
  | cons p rest ih =>
    obtain ⟨k1, v⟩ := p
    simp only [GoMap.keys, List.map_cons, List.mem_cons, not_or] at h
    have hne : ¬ k1 = k := fun h2 => h.1 h2.symm
    simp only [GoMap.find, hne, if_false]
    exact ih h.2

theorem GoMap.find_some_of_mem {β : Type} (m : GoMap β) (k : String) (v : β)
    (h : (k, v) ∈ m) : (m.find k).isSome = true := by
  induction m with
  | nil => cases h
  | cons p rest ih =>
    obtain ⟨k1, v1⟩ := p
    by_cases hk : k1 = k
    · simp [GoMap.find, hk]
    · simp only [GoMap.find, hk, if_false]
      rcases List.mem_cons.mp h with h2 | h2
      · cases h2
        exact absurd rfl hk
      · exact ih h2

theorem decodeBooleans_find_member (bs : GoMap Boolean) (hash : QueryData) (name : String)
    (b : Boolean) (hnd : bs.keys.Nodup) (hmem : (name, b) ∈ bs) :
    (decodeBooleans bs hash).find name = some (Raw.bool (hash.find name).isSome) := by
  induction bs generalizing hash with
  | nil => cases hmem
  | cons p rest ih =>
    obtain ⟨n0, b0⟩ := p
    simp only [GoMap.keys, List.map_cons, List.nodup_cons] at hnd
    simp only [decodeBooleans]
    by_cases hn : n0 = name
    · subst hn
      rw [decodeBooleans_find_absent rest _ n0 (GoMap.find_none_of_not_mem_keys rest n0 hnd.1)]
      exact GoMap.find_store_self _ _ _
    · have hrest : (name, b) ∈ rest := by
        rcases List.mem_cons.mp hmem with h2 | h2
        · cases h2
          exact absurd rfl hn
        · exact h2
      rw [ih _ hnd.2 hrest, GoMap.find_store_ne _ _ _ _ hn]

theorem decodeRelations_absent_succeeds (rels : List (String × RelationSchema Schema))
    (hash : QueryData) (hnd : (GoMap.keys rels).Nodup)
    (habs : ∀ p ∈ rels, p.2.Include = true → hash.find p.1 = none) :
    ∃ d : QueryData, decodeRelations rels hash = some d
      ∧ ∀ k : String, (∀ p ∈ rels, p.2.Include = true → p.1 ≠ k) → d.find k = hash.find k := by
  induction rels generalizing hash with
  | nil =>
    refine ⟨hash, ?_, fun _ _ => rfl⟩
    rw [decodeRelations]
  | cons p rest ih =>
    obtain ⟨n, r⟩ := p
    simp only [GoMap.keys, List.map_cons, List.nodup_cons] at hnd
    have hrestabs : ∀ p ∈ rest, p.2.Include = true → hash.find p.1 = none :=
      fun p hp => habs p (List.mem_cons_of_mem _ hp)
    have hframe : ∀ (d : QueryData) (k : String),
        (∀ p ∈ (n, r) :: rest, p.2.Include = true → p.1 ≠ k) →
        (∀ p ∈ rest, p.2.Include = true → p.1 ≠ k) :=
      fun _ k hk p hp => hk p (List.mem_cons_of_mem _ hp)
    cases hinc : r.Include with
    | false =>
      obtain ⟨d, hd, hfr⟩ := ih hash hnd.2 hrestabs
      refine ⟨d, ?_, fun k hk => hfr k (hframe d k hk)⟩
      rw [decodeRelations]
      simp only [hinc]
      exact hd
    | true =>
      have hfind : hash.find n = none := habs (n, r) (List.mem_cons_self _ _) hinc
      cases hmany : r.HasMany with
      | false =>
        obtain ⟨d, hd, hfr⟩ := ih hash hnd.2 hrestabs
        refine ⟨d, ?_, fun k hk => hfr k (hframe d k hk)⟩
        rw [decodeRelations]
        simp only [hinc, if_true, hfind, hmany]
        exact hd
      | true =>
        have hstored : ∀ p ∈ rest, p.2.Include = true →
            (hash.store n (Raw.arr [])).find p.1 = none := by
          intro p hp hpi
          have hne : n ≠ p.1 := by
            intro h2
            apply hnd.1
            rw [h2]
            exact List.mem_map.mpr ⟨p, hp, rfl⟩
          rw [GoMap.find_store_ne _ _ _ _ hne]
          exact hrestabs p hp hpi
        obtain ⟨d, hd, hfr⟩ := ih (hash.store n (Raw.arr [])) hnd.2 hstored
        refine ⟨d, ?_, ?_⟩
        · rw [decodeRelations]
          simp only [hinc, if_true, hfind, hmany]
          exact hd
        · intro k hk
          rw [hfr k (hframe d k hk)]
          exact GoMap.find_store_ne _ _ _ _ (hk (n, r) (List.mem_cons_self _ _) hinc)

/-- C11 as stated fails: the node holds no relation key, yet `Decode` panics,
because the boolean edge `liked` has just been written under the name of the
included relation `liked`. -/
theorem Decode_fails_on_shared_name :
    GoMap.find [("name", Raw.str "A")] "liked" = none
    ∧ collidingSchema.Decode (Raw.obj [("name", Raw.str "A")]) = none :=
  ⟨rfl, rfl⟩

/-- C11, amended. Let no declared relation key be present in the raw node, and let
no relation marked for inclusion share its name with a declared boolean edge (the
boolean names being distinct, and the relation names, as the keys of a map are).
Then `Decode` returns a record; for each declared boolean edge the record holds
true if the raw node contained that key and false otherwise; and every key of the
node that is not a boolean edge keeps its value. -/
theorem Decode_sets_boolean_edges (schema : Schema) (hash : QueryData)
    (hrel : ∀ p ∈ schema.Relations, hash.find p.1 = none)
    (hshared : ∀ p ∈ schema.Relations, p.2.Include = true → schema.Booleans.find p.1 = none)
    (hbk : (GoMap.keys schema.Booleans).Nodup) (hrk : (GoMap.keys schema.Relations).Nodup) :
    ∃ d : QueryData, schema.Decode (Raw.obj hash) = some d
      ∧ (∀ (name : String) (b : Boolean), (name, b) ∈ schema.Booleans →
          d.find name = some (Raw.bool (hash.find name).isSome))
      ∧ (∀ k : String, (hash.find k).isSome = true → schema.Booleans.find k = none →
          d.find k = hash.find k) := by
  cases schema with
  | mk tag fields booleans relations =>
    simp only [Schema.Relations, Schema.Booleans] at *
    have habs : ∀ p ∈ relations, p.2.Include = true →
        (decodeBooleans booleans hash).find p.1 = none := by
      intro p hp hpi
      rw [decodeBooleans_find_absent booleans hash p.1 (hshared p hp hpi)]
      exact hrel p hp
    obtain ⟨d, hd, hfr⟩ := decodeRelations_absent_succeeds relations _ hrk habs
    refine ⟨d, ?_, ?_, ?_⟩
    · rw [Schema.Decode]
      exact hd
    · intro name b hmem
      have hk : ∀ p ∈ relations, p.2.Include = true → p.1 ≠ name := by
        intro p hp hpi hpn
        have h1 := hshared p hp hpi
        have h2 := GoMap.find_some_of_mem booleans name b hmem
        rw [hpn] at h1
        rw [h1] at h2
        cases h2
      rw [hfr name hk]
      exact decodeBooleans_find_member booleans hash name b hbk hmem
    · intro k hsome hnb
      have hk : ∀ p ∈ relations, p.2.Include = true → p.1 ≠ k := by
        intro p hp _ hpn
        have h1 := hrel p hp
        rw [hpn] at h1
        rw [h1] at hsome
        cases hsome
      rw [hfr k hk]
      exact decodeBooleans_find_absent booleans hash k hnb

/-- C11, amended, on the schema with the boolean edges `liked` and `seen`: the
node holds `seen` and not `liked`. -/
theorem Decode_sets_boolean_edges_witness :
    ∃ d : QueryData,
      booleanSchema.Decode (Raw.obj [("name", Raw.str "A"), ("seen", Raw.arr [])]) = some d
      ∧ d.find "liked" = some (Raw.bool false)
      ∧ d.find "seen" = some (Raw.bool true)
      ∧ d.find "name" = some (Raw.str "A") := by
  obtain ⟨d, hd, hb, hk⟩ := Decode_sets_boolean_edges booleanSchema
    [("name", Raw.str "A"), ("seen", Raw.arr [])]
    (fun p hp => absurd hp (List.not_mem_nil p))
    (fun p hp => absurd hp (List.not_mem_nil p))
    (by decide) (by decide)
  refine ⟨d, hd, ?_, ?_, ?_⟩
  · exact hb "liked" { Edge := "like", Filter := "uid(#\x7blogin_uid\x7d)" }
      (List.mem_cons_self _ _)
  · exact hb "seen" { Edge := "view", Filter := "" }
      (List.mem_cons_of_mem _ (List.mem_cons_self _ _))
  · exact hk "name" rfl rfl

/-! ## C14: Add -/

theorem IsReversed_isSome (edge : String) (h : edge ≠ "") : ∃ b, IsReversed edge = some b := by
  cases hd : edge.data with
  | nil => exact absurd (String.ext hd) h
  | cons c cs => exact ⟨decide (c = Char.ofNat 126), by simp [IsReversed, hd]⟩

/-- C14 as stated fails: the parent still carries the temporary identity
`_:model1`, and `Add` appends the fragment all the same. -/
theorem Add_accepts_temporary_parent :
    (persistedWorld.prop 2).__uid = "_:model1"
    ∧ ∃ w2 : World,
        (BuildRelation (some 2) "_:model1" friendRelation).Add sampleQuote persistedWorld
          (some 1) [] = some w2
        ∧ w2.g.Database.Mutation.Insertions
          = [(BuildRelation (some 2) "_:model1" friendRelation).addFragment sampleQuote
              "_:model1" "0x2" []]
        ∧ w2.g.Database.Mutation.Insertions ≠ persistedWorld.g.Database.Mutation.Insertions :=
  ⟨rfl, _, rfl, rfl, by decide⟩

/-- C14, amended. If the relation is many-cardinality, parent and child are present
with non-empty identities, and the edge is a forward edge (`IsReversed` returns
false: the name is not empty and does not begin with `~`), `Add` appends exactly
one fragment to the insertion list and changes nothing else; if the relation is
one-cardinality, or the parent or the child is absent or has an empty identity, or
the edge is a reverse edge, `Add` changes nothing. -/
theorem Add_sends_fragment_iff (quote : String → String) (w : World) (r : relation)
    (child : Option Ref) (facets : List (GoMap Value)) :
    (∀ p c : Ref, r.Parent = some p → child = some c → r.RelationSchema.HasMany = true →
        (w.prop p).__uid ≠ "" → (w.prop c).__uid ≠ "" →
        IsReversed r.RelationSchema.Edge = some false →
        r.Add quote w child facets
          = some { w with g := { w.g with Database :=
              { Mutation :=
                { Insertions := w.g.Database.Mutation.Insertions
                    ++ [r.addFragment quote (w.prop p).__uid (w.prop c).__uid facets],
                  Deletions := w.g.Database.Mutation.Deletions } } } })
    ∧ ((r.RelationSchema.HasMany = false ∨ r.Parent = none ∨ child = none
          ∨ (∃ p, r.Parent = some p ∧ (w.prop p).__uid = "")
          ∨ (∃ c, child = some c ∧ (w.prop c).__uid = "")
          ∨ IsReversed r.RelationSchema.Edge = some true) →
        r.Add quote w child facets = some w) := by
  constructor
  · intro p c hp hc hmany hpu hcu hnot
    simp [relation.Add, relation.add, hp, hc, hmany, ModelProperty.isEmpty, hpu, hcu, hnot,
      database.Insert, ModelProperty.GetUid]
  · intro h
    cases hmany : r.RelationSchema.HasMany with
    | false => simp [relation.Add, hmany]
    | true =>
      cases hp : r.Parent with
      | none => simp [relation.Add, relation.add, hmany, hp]
      | some p =>
        by_cases hpu : (w.prop p).__uid = ""
        · simp [relation.Add, relation.add, hmany, hp, ModelProperty.isEmpty, hpu]
        · cases hc : child with
          | none => simp [relation.Add, relation.add, hmany, hp, ModelProperty.isEmpty, hpu]
          | some c =>
            by_cases hcu : (w.prop c).__uid = ""
            · simp [relation.Add, relation.add, hmany, hp, ModelProperty.isEmpty, hpu, hcu]
            · have hr : IsReversed r.RelationSchema.Edge = some true := by
                rcases h with h | h | h | ⟨p2, h1, h2⟩ | ⟨c2, h1, h2⟩ | h
                · rw [hmany] at h
                  cases h
                · rw [hp] at h
                  cases h
                · rw [hc] at h
                  cases h
                · rw [hp] at h1
                  cases h1
                  exact absurd h2 hpu
                · rw [hc] at h1
                  cases h1
                  exact absurd h2 hcu
                · exact h
              simp [relation.Add, relation.add, hmany, hp, ModelProperty.isEmpty, hpu, hcu, hr]

/-- C14, amended, on the relation `friend` with parent `0x1` and child `0x2`: one
fragment is appended; on the reverse edge `~friend` nothing is. -/
theorem Add_sends_fragment_iff_witness :
    (∃ w2 : World,
      (BuildRelation (some 0) "0x1" friendRelation).Add sampleQuote persistedWorld (some 1) []
        = some w2
      ∧ w2.g.Database.Mutation.Insertions
        = [(BuildRelation (some 0) "0x1" friendRelation).addFragment sampleQuote "0x1" "0x2" []])
    ∧ (BuildRelation (some 0) "0x1" reverseRelation).Add sampleQuote persistedWorld (some 1) []
        = some persistedWorld := by
  have h := (Add_sends_fragment_iff sampleQuote persistedWorld
    (BuildRelation (some 0) "0x1" friendRelation) (some 1) []).1 0 1 rfl rfl rfl
    (by decide) (by decide) rfl
  have h2 := (Add_sends_fragment_iff sampleQuote persistedWorld
    (BuildRelation (some 0) "0x1" reverseRelation) (some 1) []).2
    (Or.inr (Or.inr (Or.inr (Or.inr (Or.inr rfl)))))
  exact ⟨⟨_, h, rfl⟩, h2⟩

/-! ## C15: Clear on a reverse edge -/

/-- C15, the code at a failing input. On the reverse edge `~friend` with the
persisted parent `0x1` and child `0x2`, `Add` and `Remove` leave the batch as it
is, but `Clear` appends a fragment to the deletion list. -/
theorem Clear_sends_fragment_on_reverse_edge :
    IsReversed reverseRelation.Edge = some true
    ∧ (BuildRelation (some 0) "0x1" reverseRelation).Add sampleQuote persistedWorld (some 1) []
        = some persistedWorld
    ∧ (BuildRelation (some 0) "0x1" reverseRelation).Remove sampleQuote persistedWorld (some 1)
        = some persistedWorld
    ∧ ∃ w2 : World,
        (BuildRelation (some 0) "0x1" reverseRelation).Clear sampleQuote persistedWorld = some w2
        ∧ w2.g.Database.Mutation.Deletions
          = [(BuildRelation (some 0) "0x1" reverseRelation).clearFragment sampleQuote "0x1"]
        ∧ w2.g.Database.Mutation.Deletions ≠ persistedWorld.g.Database.Mutation.Deletions :=
  ⟨rfl, rfl, rfl, _, rfl, rfl, by decide⟩

/-! ## C16: Set on a many-cardinality relation -/

/-- C16, the code at a failing input. On the many-cardinality relation `friend`
with the persisted parent `0x1` and child `0x2`, `Set` appends the fragment of
`Clear` to the deletion list and the fragment of `add` to the insertion list. -/
theorem Set_sends_fragments_on_many_relation :
    friendRelation.HasMany = true
    ∧ ∃ w2 : World,
        (BuildRelation (some 0) "0x1" friendRelation).Set sampleQuote persistedWorld (some 1) []
          = some w2
        ∧ w2.g.Database.Mutation.Deletions
          = [(BuildRelation (some 0) "0x1" friendRelation).clearFragment sampleQuote "0x1"]
        ∧ w2.g.Database.Mutation.Insertions
          = [(BuildRelation (some 0) "0x1" friendRelation).addFragment sampleQuote "0x1" "0x2" []]
        ∧ w2.g.Database.Mutation ≠ persistedWorld.g.Database.Mutation :=
  ⟨rfl, _, rfl, rfl, rfl, by decide⟩

/-! ## C17: First and All of the relation builder -/

/-- C17, the code at a failing input. The raw result holds the parent wrapper
without the edge key: both `All` and `First` panic. On an empty result, and on a
wrapper holding the empty sequence, they return the empty sequence and nil. -/
theorem relation_All_First_panic_without_edge_key :
    GoMap.find [("uid", Raw.str "0x1")] friendRelation.Edge = none
    ∧ (BuildRelation (some 0) "0x1" friendRelation).All { LoginUid := "" }
        (fun _ => Except.ok [Raw.obj [("uid", Raw.str "0x1")]]) = none
    ∧ (BuildRelation (some 0) "0x1" friendRelation).First { LoginUid := "" }
        (fun _ => Except.ok [Raw.obj [("uid", Raw.str "0x1")]]) = none
    ∧ (BuildRelation (some 0) "0x1" friendRelation).All { LoginUid := "" }
        (fun _ => Except.ok []) = some (Except.ok [])
    ∧ (BuildRelation (some 0) "0x1" friendRelation).First { LoginUid := "" }
        (fun _ => Except.ok []) = some (Except.ok none)
    ∧ (BuildRelation (some 0) "0x1" friendRelation).All { LoginUid := "" }
        (fun _ => Except.ok [Raw.obj [("friend", Raw.arr [])]]) = some (Except.ok [])
    ∧ (BuildRelation (some 0) "0x1" friendRelation).First { LoginUid := "" }
        (fun _ => Except.ok [Raw.obj [("friend", Raw.arr [])]]) = some (Except.ok none) :=
  ⟨rfl, rfl, rfl, rfl, rfl, rfl, rfl⟩

/-! ## C18: the error kinds of RunMutation -/

/-- C18, the code at a failing input. With one pending deletion and one pending
insertion: when the backend refuses the deletion request the error has the kind
`InsertionFailed`, when it refuses the set request the kind `DeletionFailed`, and
when only the final commit fails the kind `MutationCommitFailed`. -/
theorem RunMutation_swaps_error_kinds :
    ((database.RunMutation { Mutation := { Insertions := ["i"], Deletions := ["d"] } }
        { DeleteJson := fun _ => some "refused", SetJson := fun _ => Except.ok [],
          Commit := none }).2.map (fun err => err.Code)) = some errors.InsertionFailed
    ∧ ((database.RunMutation { Mutation := { Insertions := ["i"], Deletions := ["d"] } }
        { DeleteJson := fun _ => none, SetJson := fun _ => Except.error "refused",
          Commit := none }).2.map (fun err => err.Code)) = some errors.DeletionFailed
    ∧ ((database.RunMutation { Mutation := { Insertions := ["i"], Deletions := ["d"] } }
        { DeleteJson := fun _ => none, SetJson := fun _ => Except.ok [],
          Commit := some "aborted" }).2.map (fun err => err.Code))
        = some errors.MutationCommitFailed
    ∧ errors.InsertionFailed ≠ errors.DeletionFailed := by
  refine ⟨rfl, rfl, rfl, by decide⟩

/-! ## C20: HardDelete -/

/-- C20, the code at a failing input. The model carries the one-byte identity `x`:
`HardDelete` panics in `isNew`. On the persisted identity `0x1` it appends the
identity-only document, on the temporary identity `_:model1` nothing. -/
theorem HardDelete_panics_on_one_byte_identity :
    (persistedWorld.prop 3).__uid = "x"
    ∧ graphor.HardDelete sampleQuote persistedWorld (some 3) = none
    ∧ (graphor.HardDelete sampleQuote persistedWorld (some 0)).map
        (fun w => w.g.Database.Mutation)
        = some { Insertions := [], Deletions := ["\x7b\"uid\": \"0x1\"\x7d"] }
    ∧ (graphor.HardDelete sampleQuote persistedWorld (some 2)).map
        (fun w => w.g.Database.Mutation)
        = some { Insertions := [], Deletions := [] } := by
  refine ⟨rfl, rfl, rfl, rfl⟩

/-! ## C19: when the batch is cleared -/

theorem resolveUids_keeps_coordinator (res : GoMap String) (l : List Ref) (w w2 : World)
    (err : Option errors.Error) (h : resolveUids res l w = some (w2, err)) : w2.g = w.g := by
  induction l generalizing w with
  | nil =>
    simp only [resolveUids, Option.some.injEq, Prod.mk.injEq] at h
    rw [← h.1]
  | cons m rest ih =>
    simp only [resolveUids] at h
    cases hnew : (w.prop m).isNew with
    | none =>
      rw [hnew] at h
      cases h
    | some b =>
      rw [hnew] at h
      cases b with
      | false => exact ih w h
      | true =>
        simp only at h
        cases hfind : res.find (dropTwo (w.prop m).GetUid) with
        | none =>
          rw [hfind] at h
          simp only [Option.some.injEq, Prod.mk.injEq] at h
          rw [← h.1]
        | some uid =>
          rw [hfind] at h
          simp only at h
          exact ih (w.setProp m (fun p => p.SetUid uid)) h

/-- C19 as stated fails: after a `Mutate` whose commit succeeded, the insertion
list still holds the document of the `Save` made in the callback. -/
theorem Mutate_leaves_batch_after_commit :
    ∃ w2 : World,
      graphor.Mutate sampleWorld (saveAll sampleJSON [(some 0, sampleSchema)]) sampleTxn
        = some (w2, none)
      ∧ w2.g.Database.Mutation.Insertions = ["name,uid,tag,updated_at,created_at"]
      ∧ w2.g.Database.Mutation.Insertions ≠ [] :=
  ⟨_, rfl, rfl, by decide⟩

/-- C19, amended. `Mutate` empties the pending insertion and deletion lists when it
begins, so every callback starts from an empty batch and the next `Mutate` cannot
resend fragments of this one; when `Mutate` returns, with or without error, the
lists hold what the callback left in them. -/
theorem Mutate_clears_batch_at_start (w : World)
    (execute : World → World × Option errors.Error) (txn : Txn) :
    (∀ w0 : World, (mutateStart w0).g.Database.Mutation = { Insertions := [], Deletions := [] })
    ∧ (∀ (w2 : World) (err : Option errors.Error),
        graphor.Mutate w execute txn = some (w2, err) →
        w2.g.Database.Mutation = (execute (mutateStart w)).1.g.Database.Mutation) := by
  refine ⟨fun _ => rfl, ?_⟩
  intro w2 err h
  unfold graphor.Mutate at h
  cases hexec : execute (mutateStart w) with
  | mk w1 e1 =>
    rw [hexec] at h
    cases e1 with
    | some e =>
      simp only [Option.some.injEq, Prod.mk.injEq] at h
      rw [← h.1]
    | none =>
      simp only at h
      cases hrun : w1.g.Database.RunMutation txn with
      | mk res e2 =>
        rw [hrun] at h
        cases e2 with
        | some e =>
          simp only [Option.some.injEq, Prod.mk.injEq] at h
          rw [← h.1]
        | none =>
          simp only at h
          rw [resolveUids_keeps_coordinator res _ w1 w2 err h]

/-- C19, amended, on the sample world: after a `Mutate` with one `Save` the
insertion list is the one the callback left, and the next `Mutate` starts from
empty lists. -/
theorem Mutate_clears_batch_at_start_witness :
    ∃ w2 : World,
      graphor.Mutate sampleWorld (saveAll sampleJSON [(some 0, sampleSchema)]) sampleTxn
        = some (w2, none)
      ∧ w2.g.Database.Mutation
        = (saveAll sampleJSON [(some 0, sampleSchema)]
            (mutateStart sampleWorld)).1.g.Database.Mutation
      ∧ (mutateStart w2).g.Database.Mutation = { Insertions := [], Deletions := [] } :=
  ⟨_, rfl,
    (Mutate_clears_batch_at_start sampleWorld (saveAll sampleJSON [(some 0, sampleSchema)])
      sampleTxn).2 _ none rfl,
    (Mutate_clears_batch_at_start sampleWorld (saveAll sampleJSON [(some 0, sampleSchema)])
      sampleTxn).1 _⟩

/-! ## C21: soft Delete -/

/-- C21. For a present entity, `Delete` sets the deletion timestamp to the clock
reading and appends exactly one document to the insertion list, whose keys are
`uid` and `deleted_at` and nothing else, holding the identity and the new deletion
timestamp; it appends nothing to the deletion list and leaves identity, creation
timestamp and update timestamp as they were. For an absent entity it changes
nothing. -/
theorem Delete_appends_minimal_document (toJSON : GoMap Raw → String) (w : World) (m : Ref) :
    ((graphor.Delete toJSON w (some m)).prop m).__deletedAt = w.clock w.ticks
    ∧ (graphor.Delete toJSON w (some m)).g.Database.Mutation.Insertions
        = w.g.Database.Mutation.Insertions
          ++ [toJSON [("uid", Raw.str (w.prop m).__uid),
                      ("deleted_at", Raw.num (w.clock w.ticks))]]
    ∧ (∀ k : String,
        (GoMap.find [("uid", Raw.str (w.prop m).__uid),
                     ("deleted_at", Raw.num (w.clock w.ticks))] k).isSome = true
          ↔ (k = "uid" ∨ k = "deleted_at"))
    ∧ (graphor.Delete toJSON w (some m)).g.Database.Mutation.Deletions
        = w.g.Database.Mutation.Deletions
    ∧ ((graphor.Delete toJSON w (some m)).prop m).__uid = (w.prop m).__uid
    ∧ ((graphor.Delete toJSON w (some m)).prop m).__createdAt = (w.prop m).__createdAt
    ∧ ((graphor.Delete toJSON w (some m)).prop m).__updatedAt = (w.prop m).__updatedAt
    ∧ graphor.Delete toJSON w none = w := by
  refine ⟨?_, ?_, ?_, ?_, ?_, ?_, ?_, rfl⟩
  · simp [graphor.Delete, World.Now, World.setProp, World.prop, ModelProperty.setDeletedAt]
  · simp [graphor.Delete, World.Now, World.setProp, World.prop, ModelProperty.setDeletedAt,
      ModelProperty.GetUid, ModelProperty.GetDeletedAt, database.Insert]
  · intro k
    by_cases h1 : "uid" = k
    · subst h1
      simp [GoMap.find]
    · by_cases h2 : "deleted_at" = k
      · subst h2
        simp [GoMap.find]
      · have h3 : ¬ k = "uid" := fun h => h1 h.symm
        have h4 : ¬ k = "deleted_at" := fun h => h2 h.symm
        simp [GoMap.find, h1, h2, h3, h4]
  · simp [graphor.Delete, World.Now, World.setProp, database.Insert]
  · simp [graphor.Delete, World.Now, World.setProp, World.prop, ModelProperty.setDeletedAt]
  · simp [graphor.Delete, World.Now, World.setProp, World.prop, ModelProperty.setDeletedAt]
  · simp [graphor.Delete, World.Now, World.setProp, World.prop, ModelProperty.setDeletedAt]

/-! ## C25: ReverseEdge and IsReversed -/

/-- C25 as stated fails: reversing `~` gives the empty name, on which a second
`ReverseEdge` panics; reversing `~~a` twice gives `a`, and `~~a` and its reverse
`~a` are both reverse edges. -/
theorem ReverseEdge_not_involutive_on_double_tilde :
    (ReverseEdge "~").bind ReverseEdge = none
    ∧ (ReverseEdge "~~a").bind ReverseEdge = some "a"
    ∧ IsReversed "~~a" = some true
    ∧ (ReverseEdge "~~a").bind IsReversed = some true := by
  refine ⟨by decide, by decide, by decide, by decide⟩

/-- C25, amended. For every edge name that is not empty, is not `~` alone and does
not begin with `~~`, `ReverseEdge(ReverseEdge(e))` is defined and equals `e`, and
`IsReversed(ReverseEdge(e))` is the negation of `IsReversed(e)`. -/
theorem ReverseEdge_involutive (e : String) (h : isPlainEdge e = true) :
    (ReverseEdge e).bind ReverseEdge = some e
    ∧ (ReverseEdge e).bind IsReversed = (IsReversed e).map (fun b => !b) := by
  cases hd : e.data with
  | nil => simp [isPlainEdge, hd] at h
  | cons c cs =>
    by_cases hc : c = Char.ofNat 126
    · subst hc
      cases cs with
      | nil => simp [isPlainEdge, hd] at h
      | cons d ds =>
        have hdne : ¬ d = Char.ofNat 126 := by simpa [isPlainEdge, hd] using h
        have hback : "~" ++ String.mk (d :: ds) = e := by
          apply String.ext
          rw [String.data_append, hd]
          rfl
        simp [ReverseEdge, IsReversed, hd, hdne, hback]
    · have hfwd : ("~" ++ e).data = Char.ofNat 126 :: c :: cs := by
        rw [String.data_append, hd]
        rfl
      have hself : String.mk (c :: cs) = e := String.ext hd.symm
      simp [ReverseEdge, IsReversed, hd, hc, hfwd, hself]

/-- C25, amended, on the edges `friend` and `~friend`. -/
theorem ReverseEdge_involutive_witness :
    (ReverseEdge "friend").bind ReverseEdge = some "friend"
    ∧ (ReverseEdge "~friend").bind ReverseEdge = some "~friend"
    ∧ (ReverseEdge "friend").bind IsReversed = some true
    ∧ (ReverseEdge "~friend").bind IsReversed = some false :=
  ⟨(ReverseEdge_involutive "friend" (by decide)).1,
   (ReverseEdge_involutive "~friend" (by decide)).1,
   (ReverseEdge_involutive "friend" (by decide)).2,
   (ReverseEdge_involutive "~friend" (by decide)).2⟩

/-! ## C23: Scope on a relation builder -/

/-- C23, the code at a failing input. On the relation `friend` with the facet
`since` (backed by `since_at`), a filter function that calls `Where` on `since`,
or `SetSortOption` on `since`, is run by `Scope` on the embedded plain builder:
the filter lands in the scalar list on the name `since` and the facet-sorted flag
stays off, whereas the same function called on the relation builder itself puts
the filter in the facet-filter list on `since_at` and sets the flag. -/
theorem relation_Scope_bypasses_facet_resolution :
    ((BuildRelation (some 0) "0x1" friendRelation).Scope
        (chainOnQuery [QueryCall.Where "since" "ge" (Value.int 3)])).query.Filters
      = ["ge(since, 3)"]
    ∧ ((BuildRelation (some 0) "0x1" friendRelation).Scope
        (chainOnQuery [QueryCall.Where "since" "ge" (Value.int 3)])).FacetsFilter = []
    ∧ (chainOnRelation [QueryCall.Where "since" "ge" (Value.int 3)]
        (BuildRelation (some 0) "0x1" friendRelation)).query.Filters = []
    ∧ (chainOnRelation [QueryCall.Where "since" "ge" (Value.int 3)]
        (BuildRelation (some 0) "0x1" friendRelation)).FacetsFilter = ["ge(since_at, 3)"]
    ∧ ((BuildRelation (some 0) "0x1" friendRelation).Scope
        (chainOnQuery [QueryCall.SetSortOption "since" "asc"])).SortedByFacet = false
    ∧ (chainOnRelation [QueryCall.SetSortOption "since" "asc"]
        (BuildRelation (some 0) "0x1" friendRelation)).SortedByFacet = true :=
  ⟨rfl, rfl, rfl, rfl, rfl, rfl⟩

/-! ## C24: Count on a relation builder -/

set_option maxRecDepth 8192 in
/-- C24, the code at a failing input. On a relation builder fresh from
`BuildRelation`, `Count` runs `Execute` of the embedded plain builder: the text it
sends still holds the placeholders `facets` and `facets_filter`, its sorting
clause is `orderdesc: created_at` without parentheses, and no facet clause is
bound, whereas `Execute` of the relation builder binds `(orderdesc: created_at)`
and `@facets(since: since_at)`. -/
theorem relation_Count_leaves_placeholders :
    ((BuildRelation (some 0) "0x1" friendRelation).Count sampleCountSchema
        { LoginUid := "" }).map Prod.snd
      = some ("\n\t\x7b\n\t\tq(func: uid(<0x1>)) \x7b\n\t\t\tfriend orderdesc: created_at "
        ++ "#\x7bfacets\x7d #\x7bfacets_filter\x7d @filter(not has(deleted_at))  "
        ++ "\x7b count(uid)\nuid\ncreated_at\nupdated_at\ndeleted_at \x7d\t\n\t\t\x7d\n\t\x7d")
    ∧ ((BuildRelation (some 0) "0x1" friendRelation).Count sampleCountSchema
        { LoginUid := "" }).map (fun res => res.1.query.arg "facets") = some none
    ∧ ((BuildRelation (some 0) "0x1" friendRelation).Count sampleCountSchema
        { LoginUid := "" }).map (fun res => res.1.query.arg "facets_filter") = some none
    ∧ ((BuildRelation (some 0) "0x1" friendRelation).Count sampleCountSchema
        { LoginUid := "" }).map (fun res => res.1.query.arg "sorting")
        = some (some (Value.str "orderdesc: created_at"))
    ∧ ((BuildRelation (some 0) "0x1" friendRelation).Execute
        { LoginUid := "" }).map (fun res => res.1.query.arg "facets")
        = some (some (Value.str "@facets(since: since_at)"))
    ∧ ((BuildRelation (some 0) "0x1" friendRelation).Execute
        { LoginUid := "" }).map (fun res => res.1.query.arg "facets_filter")
        = some (some (Value.str ""))
    ∧ ((BuildRelation (some 0) "0x1" friendRelation).Execute
        { LoginUid := "" }).map (fun res => res.1.query.arg "sorting")
        = some (some (Value.str "(orderdesc: created_at)")) := by
  refine ⟨by decide, rfl, rfl, rfl, rfl, rfl, rfl⟩

/-! ## Lemmas on the map of `BaseMigrations` -/

theorem GoMap.mem_keys_iff {β : Type} (m : GoMap β) (k : String) :
    k ∈ m.keys ↔ (m.find k).isSome = true := by
  constructor
  · intro h
    obtain ⟨p, hp, hk⟩ := List.mem_map.mp h
    obtain ⟨k1, v⟩ := p
    simp only at hk
    subst hk
    exact GoMap.find_some_of_mem m k1 v hp
  · intro h
    by_contra hn
    rw [GoMap.find_none_of_not_mem_keys m k hn] at h
    cases h

theorem GoMap.keys_store_nodup {β : Type} (m : GoMap β) (k : String) (v : β)
    (h : m.keys.Nodup) : (m.store k v).keys.Nodup := by
  induction m with
  | nil => simp [GoMap.store, GoMap.keys]
  | cons p rest ih =>
    obtain ⟨k1, v1⟩ := p
    simp only [GoMap.keys, List.map_cons, List.nodup_cons] at h
    by_cases hk : k1 = k
    · simp only [GoMap.store, hk, if_true, GoMap.keys, List.map_cons, List.nodup_cons]
      rw [← hk]
      exact h
    · simp only [GoMap.store, hk, if_false, GoMap.keys, List.map_cons, List.nodup_cons]
      refine ⟨?_, ih h.2⟩
      intro hmem
      have h2 : (GoMap.find (GoMap.store rest k v) k1).isSome = true :=
        (GoMap.mem_keys_iff _ k1).mp hmem
      have hne : k ≠ k1 := fun h3 => hk h3.symm
      rw [GoMap.find_store_ne _ _ _ _ hne] at h2
      exact h.1 ((GoMap.mem_keys_iff rest k1).mpr h2)

theorem GoMap.mem_of_find {β : Type} (m : GoMap β) (k : String) (v : β)
    (h : m.find k = some v) : (k, v) ∈ m := by
  induction m with
  | nil => cases h
  | cons p rest ih =>
    obtain ⟨k1, v1⟩ := p
    by_cases hk : k1 = k
    · simp only [GoMap.find, hk, if_true, Option.some.injEq] at h
      rw [hk, h]
      exact List.mem_cons_self _ _
    · simp only [GoMap.find, hk, if_false] at h
      exact List.mem_cons_of_mem _ (ih h)

theorem GoMap.find_of_mem {β : Type} (m : GoMap β) (k : String) (v : β)
    (hnd : m.keys.Nodup) (h : (k, v) ∈ m) : m.find k = some v := by
  induction m with
  | nil => cases h
  | cons p rest ih =>
    obtain ⟨k1, v1⟩ := p
    simp only [GoMap.keys, List.map_cons, List.nodup_cons] at hnd
    rcases List.mem_cons.mp h with h1 | h1
    · cases h1
      simp [GoMap.find]
    · have hk : ¬ k1 = k := by
        intro h2
        apply hnd.1
        rw [h2]
        exact List.mem_map.mpr ⟨(k, v), h1, rfl⟩
      simp only [GoMap.find, hk, if_false]
      exact ih hnd.2 h1

theorem GoMap.perm_of_find_eq {β : Type} (m1 m2 : GoMap β) (h1 : m1.keys.Nodup)
    (h2 : m2.keys.Nodup) (h : ∀ k, m1.find k = m2.find k) : List.Perm m1 m2 := by
  refine (List.perm_ext_iff_of_nodup (List.Nodup.of_map Prod.fst h1)
    (List.Nodup.of_map Prod.fst h2)).mpr ?_
  intro p
  obtain ⟨k, v⟩ := p
  constructor
  · intro hp
    apply GoMap.mem_of_find
    rw [← h k]
    exact GoMap.find_of_mem m1 k v h1 hp
  · intro hp
    apply GoMap.mem_of_find
    rw [h k]
    exact GoMap.find_of_mem m2 k v h2 hp

theorem tilde_append_inj (a b : String) (h : "~" ++ a = "~" ++ b) : a = b := by
  have h2 := congrArg String.data h
  simp [String.data_append] at h2
  exact String.ext h2

theorem tilde_append_data (a : String) : ("~" ++ a).data = Char.ofNat 126 :: a.data := by
  rw [String.data_append]
  rfl

theorem forwardName_tilde_append (k : String) : forwardName ("~" ++ k) = k := by
  simp [forwardName, tilde_append_data]

theorem noteEdge_reverse (h : GoMap Bool) (seen : List String) (e : String) (cs : List Char)
    (hN : Notes h seen) (hd : e.data = Char.ofNat 126 :: cs) :
    ∃ h2, noteEdge h e = some h2 ∧ Notes h2 (seen ++ [e]) := by
  obtain ⟨hnd, hkeys, hflag⟩ := hN
  have heq : e = "~" ++ String.mk cs := String.ext (by rw [tilde_append_data, hd])
  have hfw : forwardName e = String.mk cs := by simp [forwardName, hd]
  refine ⟨h.store (String.mk cs) true, ?_, GoMap.keys_store_nodup _ _ _ hnd, ?_, ?_⟩
  · simp [noteEdge, IsReversed, ReverseEdge, hd]
  · intro k
    rw [GoMap.find_store]
    by_cases hk : String.mk cs = k
    · simp only [hk, if_true, Option.isSome_some, true_iff]
      exact ⟨e, List.mem_append_right _ (List.mem_singleton_self e), by rw [hfw, hk]⟩
    · simp only [hk, if_false]
      rw [hkeys k]
      constructor
      · rintro ⟨e2, h2, h3⟩
        exact ⟨e2, List.mem_append_left _ h2, h3⟩
      · rintro ⟨e2, h2, h3⟩
        rcases List.mem_append.mp h2 with h4 | h4
        · exact ⟨e2, h4, h3⟩
        · rw [List.mem_singleton.mp h4, hfw] at h3
          exact absurd h3 hk
  · intro k
    rw [GoMap.find_store]
    by_cases hk : String.mk cs = k
    · simp only [hk, if_true, true_iff]
      apply List.mem_append_right
      rw [heq, hk]
      exact List.mem_singleton_self _
    · simp only [hk, if_false]
      rw [hflag k]
      constructor
      · intro h2
        exact List.mem_append_left _ h2
      · intro h2
        rcases List.mem_append.mp h2 with h4 | h4
        · exact h4
        · have h5 := List.mem_singleton.mp h4
          rw [heq] at h5
          exact absurd (tilde_append_inj _ _ h5).symm hk

theorem noteEdge_forward (h : GoMap Bool) (seen : List String) (e : String) (c : Char)
    (cs : List Char) (hN : Notes h seen) (hd : e.data = c :: cs) (hc : ¬ c = Char.ofNat 126) :
    ∃ h2, noteEdge h e = some h2 ∧ Notes h2 (seen ++ [e]) := by
  obtain ⟨hnd, hkeys, hflag⟩ := hN
  have hfw : forwardName e = e := by simp [forwardName, hd, hc]
  have hnot : ∀ k : String, "~" ++ k ≠ e := by
    intro k h2
    have h3 := congrArg String.data h2
    rw [tilde_append_data, hd] at h3
    simp only [List.cons.injEq] at h3
    exact hc h3.1.symm
  have hseen : ∀ k : String, "~" ++ k ∈ seen ++ [e] ↔ "~" ++ k ∈ seen := by
    intro k
    constructor
    · intro h2
      rcases List.mem_append.mp h2 with h4 | h4
      · exact h4
      · exact absurd (List.mem_singleton.mp h4) (hnot k)
    · intro h2
      exact List.mem_append_left _ h2
  have hrev : IsReversed e = some false := by simp [IsReversed, hd, hc]
  by_cases hpres : (h.find e).isSome = true
  · refine ⟨h, ?_, hnd, ?_, ?_⟩
    · simp [noteEdge, hrev, hpres]
    · intro k
      rw [hkeys k]
      constructor
      · rintro ⟨e2, h2, h3⟩
        exact ⟨e2, List.mem_append_left _ h2, h3⟩
      · rintro ⟨e2, h2, h3⟩
        rcases List.mem_append.mp h2 with h4 | h4
        · exact ⟨e2, h4, h3⟩
        · rw [List.mem_singleton.mp h4, hfw] at h3
          rw [← h3]
          exact (hkeys e).mp hpres
    · intro k
      rw [hseen k]
      exact hflag k
  · refine ⟨h.store e false, ?_, GoMap.keys_store_nodup _ _ _ hnd, ?_, ?_⟩
    · simp [noteEdge, hrev, hpres]
    · intro k
      rw [GoMap.find_store]
      by_cases hk : e = k
      · subst hk
        simp only [if_true, Option.isSome_some, true_iff]
        exact ⟨e, List.mem_append_right _ (List.mem_singleton_self e), hfw⟩
      · simp only [hk, if_false]
        rw [hkeys k]
        constructor
        · rintro ⟨e2, h2, h3⟩
          exact ⟨e2, List.mem_append_left _ h2, h3⟩
        · rintro ⟨e2, h2, h3⟩
          rcases List.mem_append.mp h2 with h4 | h4
          · exact ⟨e2, h4, h3⟩
          · rw [List.mem_singleton.mp h4, hfw] at h3
            exact absurd h3 hk
    · intro k
      rw [GoMap.find_store, hseen k]
      by_cases hk : e = k
      · subst hk
        simp only [if_true]
        constructor
        · intro h2
          cases h2
        · intro h2
          exfalso
          apply hpres
          have h3 := (hflag e).mpr h2
          rw [h3]
          rfl
      · simp only [hk, if_false]
        exact hflag k

theorem noteEdge_Notes (h : GoMap Bool) (seen : List String) (e : String)
    (hN : Notes h seen) (he : e ≠ "") :
    ∃ h2, noteEdge h e = some h2 ∧ Notes h2 (seen ++ [e]) := by
  cases hd : e.data with
  | nil => exact absurd (String.ext hd) he
  | cons c cs =>
    by_cases hc : c = Char.ofNat 126
    · subst hc
      exact noteEdge_reverse h seen e cs hN hd
    · exact noteEdge_forward h seen e c cs hN hd hc

theorem noteEdges_Notes (edges : List String) (h : GoMap Bool) (seen : List String)
    (hN : Notes h seen) (hne : ∀ e ∈ edges, e ≠ "") :
    ∃ h2, noteEdges edges h = some h2 ∧ Notes h2 (seen ++ edges) := by
  induction edges generalizing h seen with
  | nil => exact ⟨h, rfl, by simpa using hN⟩
  | cons e rest ih =>
    obtain ⟨h1, hstep, hN1⟩ := noteEdge_Notes h seen e hN (hne e (List.mem_cons_self _ _))
    obtain ⟨h2, hrun, hN2⟩ := ih h1 (seen ++ [e]) hN1
      (fun e2 he2 => hne e2 (List.mem_cons_of_mem _ he2))
    refine ⟨h2, ?_, ?_⟩
    · simp only [noteEdges, hstep]
      exact hrun
    · simpa using hN2

theorem noteSchemas_Notes (schemaList : List Schema) (h : GoMap Bool) (seen : List String)
    (hN : Notes h seen) (hne : ∀ e ∈ referencedEdges schemaList, e ≠ "") :
    ∃ h2, noteSchemas schemaList h = some h2
      ∧ Notes h2 (seen ++ referencedEdges schemaList) := by
  induction schemaList generalizing h seen with
  | nil => exact ⟨h, rfl, by simpa [referencedEdges] using hN⟩
  | cons schema rest ih =>
    have hsplit : referencedEdges (schema :: rest)
        = schemaEdges schema ++ referencedEdges rest := by
      simp [referencedEdges]
    rw [hsplit] at hne
    obtain ⟨h1, hstep, hN1⟩ := noteEdges_Notes (schemaEdges schema) h seen hN
      (fun e he => hne e (List.mem_append_left _ he))
    obtain ⟨h2, hrun, hN2⟩ := ih h1 (seen ++ schemaEdges schema) hN1
      (fun e he => hne e (List.mem_append_right _ he))
    refine ⟨h2, ?_, ?_⟩
    · simp only [noteSchemas, hstep]
      exact hrun
    · rw [hsplit, ← List.append_assoc]
      exact hN2

theorem Notes_nil : Notes [] [] := by
  refine ⟨List.nodup_nil, ?_, ?_⟩
  · intro k
    simp [GoMap.find]
  · intro k
    simp [GoMap.find]

theorem Notes_find_eq (h1 h2 : GoMap Bool) (s1 s2 : List String) (hN1 : Notes h1 s1)
    (hN2 : Notes h2 s2) (hs : ∀ e, e ∈ s1 ↔ e ∈ s2) (k : String) : h1.find k = h2.find k := by
  have hsome : (h1.find k).isSome = true ↔ (h2.find k).isSome = true := by
    rw [hN1.2.1 k, hN2.2.1 k]
    constructor
    · rintro ⟨e, he, hf⟩
      exact ⟨e, (hs e).mp he, hf⟩
    · rintro ⟨e, he, hf⟩
      exact ⟨e, (hs e).mpr he, hf⟩
  have htrue : h1.find k = some true ↔ h2.find k = some true := by
    rw [hN1.2.2 k, hN2.2.2 k]
    exact hs _
  cases hv1 : h1.find k with
  | none =>
    cases hv2 : h2.find k with
    | none => rfl
    | some b =>
      rw [hv1, hv2] at hsome
      simp at hsome
  | some b1 =>
    cases hv2 : h2.find k with
    | none =>
      rw [hv1, hv2] at hsome
      simp at hsome
    | some b2 =>
      rw [hv1, hv2] at htrue
      cases b1 <;> cases b2 <;> simp at htrue <;> rfl

/-! ## C22: BaseMigrations -/

/-- C22. For every list of schemas whose edge names are not empty,
`BaseMigrations` returns the declaration lines of a map `hasReverse`, joined by
newlines and followed by the fixed declarations of `tag`, `created_at`,
`updated_at` and `deleted_at`. The map has one entry per distinct forward edge
name referenced in the list (`~e` referring to `e`), the entry of `e` is marked
(and its line carries `@reverse`) exactly when `~e` is referenced, and any other
list of schemas referencing the same edges, in whatever order, gives the same
lines up to their order. -/
theorem BaseMigrations_declares_referenced_edges (schemaList : List Schema)
    (hne : ∀ e ∈ referencedEdges schemaList, e ≠ "") :
    ∃ hasReverse : GoMap Bool,
      noteSchemas schemaList [] = some hasReverse
      ∧ BaseMigrations schemaList
        = some ("\n".intercalate (hasReverse.map edgeLine) ++ modelDeclarations)
      ∧ (GoMap.keys hasReverse).Nodup
      ∧ (∀ k : String, k ∈ GoMap.keys hasReverse
          ↔ ∃ e ∈ referencedEdges schemaList, forwardName e = k)
      ∧ (∀ (k : String) (b : Bool), (k, b) ∈ hasReverse →
          (b = true ↔ "~" ++ k ∈ referencedEdges schemaList))
      ∧ (∀ (other : List Schema) (hasReverse2 : GoMap Bool),
          (∀ e, e ∈ referencedEdges other ↔ e ∈ referencedEdges schemaList) →
          noteSchemas other [] = some hasReverse2 →
          (hasReverse2.map edgeLine).Perm (hasReverse.map edgeLine)) := by
  obtain ⟨hr, hrun, hN⟩ := noteSchemas_Notes schemaList [] [] Notes_nil hne
  rw [List.nil_append] at hN
  refine ⟨hr, hrun, ?_, hN.1, ?_, ?_, ?_⟩
  · simp only [BaseMigrations, hrun]
  · intro k
    rw [GoMap.mem_keys_iff]
    exact hN.2.1 k
  · intro k b hmem
    have hfind := GoMap.find_of_mem hr k b hN.1 hmem
    rw [← hN.2.2 k, hfind]
    constructor
    · intro hb
      rw [hb]
    · intro hb
      exact Option.some.inj hb
  · intro other hr2 hsame hrun2
    have hne2 : ∀ e ∈ referencedEdges other, e ≠ "" := fun e he => hne e ((hsame e).mp he)
    obtain ⟨hr3, hrun3, hN3⟩ := noteSchemas_Notes other [] [] Notes_nil hne2
    rw [List.nil_append] at hN3
    rw [hrun2] at hrun3
    cases hrun3
    exact List.Perm.map edgeLine
      (GoMap.perm_of_find_eq hr2 hr hN3.1 hN.1 (Notes_find_eq hr2 hr _ _ hN3 hN hsame))

set_option maxRecDepth 8192 in
/-- C22 on two schemas referencing `like`, `~friend`, `friend` and `~owner`: one
line each for `like`, `friend` and `owner`, the last two with `@reverse`. -/
theorem BaseMigrations_declares_referenced_edges_witness :
    referencedEdges migrationSchemas = ["like", "~friend", "friend", "~owner"]
    ∧ BaseMigrations migrationSchemas
      = some ("like: uid  .\nfriend: uid @reverse .\nowner: uid @reverse ."
          ++ "\n\t\ttag: int @index(int) .\n\t\tcreated_at: int @index(int) .\n\t\t"
          ++ "updated_at: int @index(int) .\n\t\tdeleted_at: int .\n\t") := by
  obtain ⟨hr, hrun, htext, _⟩ := BaseMigrations_declares_referenced_edges migrationSchemas
    (by decide)
  have hval : noteSchemas migrationSchemas []
      = some [("like", false), ("friend", true), ("owner", true)] := by decide
  rw [hval] at hrun
  cases hrun
  refine ⟨by decide, ?_⟩
  rw [htext]
  decide
